import Mathlib

/-!
# ginline: source-level inlining of functions marked `[always_inline]`

A shallow embedding of `inline.go` and a verification of its specification.

The program works on the `dst` syntax tree of a Go package.  The tree is
embedded as inductive types (`Expr`, `Stmt`, `Spec`, `FuncDecl`, `Decl`,
`File`, `Package`); the functions of `inline.go` are embedded under their own
names.  The source mutates the tree in place through `dstutil.Apply` and its
cursor; the embedding passes the tree and the mutable state (the registry of
inline functions and the call-site counter) explicitly.

Scope of the embedding:
* node kinds: identifiers, literals, binary expressions, selectors, calls and
  function literals; assignments, expression statements, returns, blocks,
  `if`, `var` declarations, empty, labeled and branch statements;
* type expressions are kept as text: in a program that type-checks they hold
  no statement, and no function of the source looks inside them;
* decorations are kept on function declarations (where the marker is read)
  and on fields (which `flattenFields` copies);
* `dst.Clone` is the identity on values;
* a Go panic is an error value of type `Err`.
-/

namespace Ginline

/-! ## Data model -/

/-- The tokens of `go/token` used by the embedded statements. -/
inductive Token where
  | DEFINE | ASSIGN | ADD_ASSIGN | SUB_ASSIGN | MUL_ASSIGN
  | VAR | CONST | GOTO | BREAK | CONTINUE
  deriving DecidableEq, Repr

/-- A `dst.Field`: a group of names sharing one type. -/
structure Field where
  names : List String
  type : String
  tag : Option String
  decs : List String
  deriving DecidableEq, Repr

/-- A `dst.FuncType`: parameters and the optional result list. -/
structure FuncType where
  params : List Field
  results : Option (List Field)
  deriving DecidableEq, Repr

mutual
/-- Expressions (`dst.Expr`). -/
inductive Expr where
  | ident (name : String)
  | basicLit (value : String)
  | binary (x : Expr) (op : String) (y : Expr)
  | selector (x : Expr) (sel : String)
  | call (fn : Expr) (args : List Expr)
  | funcLit (type : FuncType) (body : List Stmt)
/-- A `dst.ValueSpec` of a `var` declaration. -/
inductive Spec where
  | value (names : List String) (type : Option String) (values : List Expr)
/-- Statements (`dst.Stmt`).  A `declStmt` holds the token and the specs of
its `dst.GenDecl`. -/
inductive Stmt where
  | assign (lhs : List Expr) (tok : Token) (rhs : List Expr)
  | exprStmt (x : Expr)
  | ret (results : List Expr)
  | block (list : List Stmt)
  | ifStmt (init : Option Stmt) (cond : Expr) (body : List Stmt) (els : Option Stmt)
  | declStmt (tok : Token) (specs : List Spec)
  | empty (implicit : Bool)
  | labeled (label : String) (stmt : Stmt)
  | branch (tok : Token) (label : Option String)
end

/-- A `dst.FuncDecl`; `decs` are its leading (`Start`) decorations. -/
structure FuncDecl where
  decs : List String
  recv : Option (List Field)
  name : String
  type : FuncType
  body : List Stmt

/-- Top-level declarations. -/
inductive Decl where
  | func (d : FuncDecl)
  | gen (tok : Token) (specs : List Spec)

/-- A `dst.File`. -/
structure File where
  name : String
  decls : List Decl

/-- A `dst.Package`: its files, listed in the order the `range` over the map
visits them. -/
structure Package where
  name : String
  files : List (String × File)

/-- The root handed to `inlineFunc` (a `dst.Node`). -/
inductive Node where
  | file (f : File)
  | funcDecl (d : FuncDecl)
  | stmt (s : Stmt)

/-- The Go panics the embedded code can raise, and fuel exhaustion, which
stands for a recursion that does not end. -/
inductive Err where
  | multiRhs
  | indexOutOfRange
  | typeAssertion
  | nilDeref
  | notInSlice
  | outOfFuel
  deriving DecidableEq, Repr

/-- The registry `map[string]*dst.FuncDecl`, as an association list with one
entry per key. -/
abbrev Registry := List (String × FuncDecl)

/-- Map lookup `funcMap[name]`. -/
def Registry.get (r : Registry) (name : String) : Option FuncDecl :=
  match r with
  | [] => none
  | (k, d) :: rest => if k = name then some d else Registry.get rest name

/-- Map store `funcMap[name] = d`: overwrite the entry, or add one. -/
def Registry.put (r : Registry) (name : String) (d : FuncDecl) : Registry :=
  match r with
  | [] => [(name, d)]
  | (k, v) :: rest => if k = name then (k, d) :: rest else (k, v) :: Registry.put rest name d

/-- The keys of the registry. -/
def Registry.keys (r : Registry) : List String := r.map Prod.fst

/-- Whether `name` is a key of the registry. -/
def Registry.has (r : Registry) (name : String) : Bool := (r.get name).isSome

/-! ## Marker extraction -/

/-- Substring test on character lists (`strings.Contains`). -/
def containsChars (s sub : List Char) : Bool :=
  match s with
  | [] => sub.isEmpty
  | c :: cs => sub.isPrefixOf (c :: cs) || containsChars cs sub

/-- The Go `strings.Contains(s, sub)`. -/
def strContains (s sub : String) : Bool := containsChars s.toList sub.toList

/-- The loop of lines 66-71: some leading decoration contains the marker. -/
def isInline (d : FuncDecl) : Bool := d.decs.any (fun dec => strContains dec "[always_inline]")

/-- The traversal of one file's declaration list by `extractInlineFuncs`:
a marked function declaration is stored under its name and deleted, every
other declaration is kept. -/
def extractDecls (rMap : Registry) : List Decl → Registry × List Decl
  | [] => (rMap, [])
  | .func d :: rest =>
    if isInline d then extractDecls (rMap.put d.name d) rest
    else
      let r := extractDecls rMap rest
      (r.1, .func d :: r.2)
  | .gen tok specs :: rest =>
    let r := extractDecls rMap rest
    (r.1, .gen tok specs :: r.2)

/-- The loop over the files of the package. -/
def extractFiles (rMap : Registry) : List (String × File) → Registry × List (String × File)
  | [] => (rMap, [])
  | (fn, f) :: rest =>
    let r := extractDecls rMap f.decls
    let r2 := extractFiles r.1 rest
    (r2.1, (fn, { f with decls := r.2 }) :: r2.2)

/-- The Go `extractInlineFuncs`: the registry and the package after the
deletions. -/
def extractInlineFuncs (pkg : Package) : Registry × Package :=
  let r := extractFiles [] pkg.files
  (r.1, { pkg with files := r.2 })

/-! ## Field normalisation and the generated declarations -/

/-- The Go `flattenFields`. -/
def flattenFields : List Field → List Field
  | [] => []
  | f :: rest =>
    if f.names.length = 0 then f :: flattenFields rest
    else f.names.map (fun n => { names := [n], type := f.type, tag := f.tag, decs := f.decs })
      ++ flattenFields rest

/-- The name of the capture variable of the `i`-th flattened result. -/
def retvalName (i : Nat) (result : Field) : String :=
  match result.names with
  | [] => "_rv_" ++ toString i
  | n :: _ => "_rv_" ++ n

/-- The loop of `extractReturnValues` over the flattened results, from index `i`. -/
def retvalNamesFrom (i : Nat) : List Field → List String
  | [] => []
  | r :: rest => retvalName i r :: retvalNamesFrom (i + 1) rest

/-- The specs built by the same loop. -/
def retvalSpecsFrom (i : Nat) : List Field → List Spec
  | [] => []
  | r :: rest => .value [retvalName i r] (some r.type) [] :: retvalSpecsFrom (i + 1) rest

/-- The Go `extractReturnValues`. -/
def extractReturnValues (decl : FuncDecl) : Stmt × List String :=
  match decl.type.results with
  | none => (.empty false, [])
  | some list =>
    let results := flattenFields list
    (.declStmt .VAR (retvalSpecsFrom 0 results), retvalNamesFrom 0 results)

/-- The loop of `getFormalParamReassignments`: `formalParam.Names[0]` and
`callExpr.Args[i]` are indexed without a check. -/
def reassignmentSpecs (args : List Expr) (i : Nat) : List Field → Except Err (List Spec)
  | [] => .ok []
  | p :: rest =>
    match p.names with
    | [] => .error .indexOutOfRange
    | n :: _ =>
      match args.get? i with
      | none => .error .indexOutOfRange
      | some a =>
        match reassignmentSpecs args (i + 1) rest with
        | .error e => .error e
        | .ok specs => .ok (.value [n] (some p.type) [a] :: specs)

/-- The Go `getFormalParamReassignments`, on the arguments of the call. -/
def getFormalParamReassignments (decl : FuncDecl) (args : List Expr) : Except Err Stmt :=
  match reassignmentSpecs args 0 (flattenFields decl.type.params) with
  | .error e => .error e
  | .ok [] => .ok (.empty false)
  | .ok (s :: specs) => .ok (.declStmt .VAR (s :: specs))

/-! ## The return rewriter -/

/-- The exit label `fmt.Sprintf("%s_return_%d", funcName, funcIdx)`. -/
def exitLabel (funcName : String) (funcIdx : Nat) : String :=
  funcName ++ "_return_" ++ toString funcIdx

/-- The loop of the `returnModifier` closure that `inlineFunc` passes in an
assignment context: one assignment per capture variable, `stmt.Results[i]`
indexed without a check. -/
def captureAssignments (results : List Expr) (i : Nat) : List String → Except Err (List Stmt)
  | [] => .ok []
  | name :: rest =>
    match results.get? i with
    | none => .error .indexOutOfRange
    | some r =>
      match captureAssignments results (i + 1) rest with
      | .error e => .error e
      | .ok l => .ok (.assign [.ident name] .ASSIGN [r] :: l)

/-- The closure of lines 159-170, applied to the results of a return: the
assignments, wrapped in a block. -/
def captureModifier (retValNames : List String) (results : List Expr) : Except Err Stmt :=
  match captureAssignments results 0 retValNames with
  | .error e => .error e
  | .ok l => .ok (.block l)

/-- A return modifier: `none` is the Go `nil` (discard mode). -/
abbrev ReturnModifier := Option (List Expr → Except Err Stmt)

mutual
/-- The traversal of `replaceReturnStatements` below an expression.  It
stops at a function literal, and outside one an expression holds no
statement: the flag is never set there and nothing is replaced. -/
def rrExpr : Expr → Expr
  | .ident name => .ident name
  | .basicLit v => .basicLit v
  | .binary x op y => .binary (rrExpr x) op (rrExpr y)
  | .selector x sel => .selector (rrExpr x) sel
  | .call fn args => .call (rrExpr fn) (rrExprs args)
  | .funcLit t body => .funcLit t body
/-- The traversal over a list of expressions. -/
def rrExprs : List Expr → List Expr
  | [] => []
  | e :: es => rrExpr e :: rrExprs es
end

/-- The traversal over the specs of a declaration statement. -/
def rrSpecs : List Spec → List Spec
  | [] => []
  | .value names type values :: rest => .value names type (rrExprs values) :: rrSpecs rest

mutual
/-- The traversal of `replaceReturnStatements` at one statement.  `inList`
tells whether the cursor is in a statement list; the result is the flag
`foundInlineReturn`, the statement now at the cursor, and the statement
inserted after it. -/
def rrStmt (m : ReturnModifier) (label : String) (inList : Bool) (found : Bool) :
    Stmt → Except Err (Bool × Stmt × Option Stmt)
  | .ret results =>
    match m with
    | some f =>
      match f results with
      | .error e => .error e
      | .ok r =>
        if inList then .ok (true, r, some (.branch .GOTO (some label)))
        else .error .notInSlice
    | none => .ok (true, .branch .GOTO (some label), none)
  | .assign lhs tok rhs => .ok (found, .assign (rrExprs lhs) tok (rrExprs rhs), none)
  | .exprStmt x => .ok (found, .exprStmt (rrExpr x), none)
  | .block list =>
    match rrStmts m label found list with
    | .error e => .error e
    | .ok (f, l) => .ok (f, .block l, none)
  | .ifStmt init cond body els =>
    match rrOptStmt m label found init with
    | .error e => .error e
    | .ok (f1, init1) =>
      match rrStmts m label f1 body with
      | .error e => .error e
      | .ok (f2, body1) =>
        match rrOptStmt m label f2 els with
        | .error e => .error e
        | .ok (f3, els1) => .ok (f3, .ifStmt init1 (rrExpr cond) body1 els1, none)
  | .declStmt tok specs => .ok (found, .declStmt tok (rrSpecs specs), none)
  | .empty i => .ok (found, .empty i, none)
  | .labeled l s =>
    match rrStmt m label false found s with
    | .error e => .error e
    | .ok (f, s1, _) => .ok (f, .labeled l s1, none)
  | .branch tok l => .ok (found, .branch tok l, none)
/-- The traversal at a statement field that is not a list. -/
def rrOptStmt (m : ReturnModifier) (label : String) (found : Bool) :
    Option Stmt → Except Err (Bool × Option Stmt)
  | none => .ok (found, none)
  | some s =>
    match rrStmt m label false found s with
    | .error e => .error e
    | .ok (f, s1, _) => .ok (f, some s1)
/-- The traversal over a statement list: a statement inserted after the
cursor is stepped over. -/
def rrStmts (m : ReturnModifier) (label : String) (found : Bool) :
    List Stmt → Except Err (Bool × List Stmt)
  | [] => .ok (found, [])
  | s :: rest =>
    match rrStmt m label true found s with
    | .error e => .error e
    | .ok (f1, s1, after) =>
      match rrStmts m label f1 rest with
      | .error e => .error e
      | .ok (f2, rest1) => .ok (f2, s1 :: (after.toList ++ rest1))
end

/-- Lines 326-333: the body with a final return ensured, split into the
statements before that return and the results of the return. -/
def splitFinalReturn (list : List Stmt) : List Stmt × List Expr :=
  match list.getLast? with
  | some (.ret results) => (list.dropLast, results)
  | _ => (list, [])

/-- The Go `replaceReturnStatements`, on the statement list of the block. -/
def replaceReturnStatements (funcName : String) (funcIdx : Nat) (stmt : List Stmt)
    (returnModifier : ReturnModifier) : Except Err (List Stmt) :=
  if stmt.length = 0 then .ok stmt
  else
    let sp := splitFinalReturn stmt
    let last : Except Err Stmt :=
      match returnModifier with
      | none => .ok (.empty false)
      | some f => f sp.2
    match last with
    | .error e => .error e
    | .ok l =>
      let label := exitLabel funcName funcIdx
      match rrStmts returnModifier label false (sp.1 ++ [l]) with
      | .error e => .error e
      | .ok (found, list) =>
        if found then .ok (list ++ [.labeled label (.empty true)]) else .ok list

/-! ## The call-site rewriter -/

/-- The Go `callToFuncDecl`, on the `Fun` field of the call: the registry
entry the call names, with its key. -/
def callToFuncDecl (funcMap : Registry) : Expr → Option (String × FuncDecl)
  | .ident name =>
    match funcMap.get name with
    | none => none
    | some info => some (name, info)
  | _ => none

/-- The loop of lines 143-148: one spec per target, `e.(*dst.Ident)` and
`frList[i]` unchecked. -/
def definitionSpecs (frList : List Field) (i : Nat) : List Expr → Except Err (List Spec)
  | [] => .ok []
  | .ident name :: rest =>
    match frList.get? i with
    | none => .error .indexOutOfRange
    | some fr =>
      match definitionSpecs frList (i + 1) rest with
      | .error e => .error e
      | .ok l => .ok (.value [name] (some fr.type) [] :: l)
  | _ :: _ => .error .typeAssertion

/-- Lines 137-148: the declaration inserted before a declaring assignment;
`funcDecl.Type.Results` is dereferenced unchecked. -/
def newDefinitions (lhs : List Expr) (funcDecl : FuncDecl) : Except Err Stmt :=
  match funcDecl.type.results with
  | none => .error .nilDeref
  | some list =>
    match definitionSpecs (flattenFields list) 0 lhs with
    | .error e => .error e
    | .ok specs => .ok (.declStmt .VAR specs)

/-- The recursive call `inlineFunc(inlineFuncMap, funcDecl).(*dst.FuncDecl)`:
from the registry and a declaration to the registry after the call and the
rewritten declaration. -/
abbrev Inliner := Registry → FuncDecl → Except Err (Registry × FuncDecl)

mutual
/-- The traversal of `inlineFunc` below an expression; it carries the
registry and `funcIdx`. -/
def ilExpr (rec : Inliner) (reg : Registry) (idx : Nat) :
    Expr → Except Err (Registry × Nat × Expr)
  | .ident name => .ok (reg, idx, .ident name)
  | .basicLit v => .ok (reg, idx, .basicLit v)
  | .binary x op y =>
    match ilExpr rec reg idx x with
    | .error e => .error e
    | .ok (r1, i1, x1) =>
      match ilExpr rec r1 i1 y with
      | .error e => .error e
      | .ok (r2, i2, y1) => .ok (r2, i2, .binary x1 op y1)
  | .selector x sel =>
    match ilExpr rec reg idx x with
    | .error e => .error e
    | .ok (r1, i1, x1) => .ok (r1, i1, .selector x1 sel)
  | .call fn args =>
    match ilExpr rec reg idx fn with
    | .error e => .error e
    | .ok (r1, i1, fn1) =>
      match ilExprs rec r1 i1 args with
      | .error e => .error e
      | .ok (r2, i2, args1) => .ok (r2, i2, .call fn1 args1)
  | .funcLit t body =>
    match ilStmts rec reg idx body with
    | .error e => .error e
    | .ok (r1, i1, body1) => .ok (r1, i1, .funcLit t body1)
/-- The traversal over a list of expressions. -/
def ilExprs (rec : Inliner) (reg : Registry) (idx : Nat) :
    List Expr → Except Err (Registry × Nat × List Expr)
  | [] => .ok (reg, idx, [])
  | e :: es =>
    match ilExpr rec reg idx e with
    | .error err => .error err
    | .ok (r1, i1, e1) =>
      match ilExprs rec r1 i1 es with
      | .error err => .error err
      | .ok (r2, i2, es1) => .ok (r2, i2, e1 :: es1)
/-- The traversal over the specs of a declaration. -/
def ilSpecs (rec : Inliner) (reg : Registry) (idx : Nat) :
    List Spec → Except Err (Registry × Nat × List Spec)
  | [] => .ok (reg, idx, [])
  | .value names type values :: rest =>
    match ilExprs rec reg idx values with
    | .error e => .error e
    | .ok (r1, i1, values1) =>
      match ilSpecs rec r1 i1 rest with
      | .error e => .error e
      | .ok (r2, i2, rest1) => .ok (r2, i2, .value names type values1 :: rest1)
/-- The `pre` function of `inlineFunc` at one statement, followed by the
traversal of the children.  `inList` tells whether the cursor is in a
statement list.  The result is the registry, `funcIdx`, the statement
inserted before the cursor, and the statement now at the cursor.

After `cursor.Replace` the traversal goes on through the children of the
ORIGINAL statement.  The targets of the new assignment are a clone made
before that, so the traversal of the original targets only moves the state.
The arguments of the call are shared with the parameter-binding statement,
so the binding holds the arguments as the traversal leaves them. -/
def ilStmt (rec : Inliner) (inList : Bool) (reg : Registry) (idx : Nat) :
    Stmt → Except Err (Registry × Nat × Option Stmt × Stmt)
  | .assign _ _ [] => .error .indexOutOfRange
  | .assign lhs tok (.call fn args :: rest) =>
    match callToFuncDecl reg fn with
    | none =>
      match ilExprs rec reg idx lhs with
      | .error e => .error e
      | .ok (r1, i1, lhs1) =>
        match ilExpr rec r1 i1 fn with
        | .error e => .error e
        | .ok (r2, i2, fn1) =>
          match ilExprs rec r2 i2 args with
          | .error e => .error e
          | .ok (r3, i3, args1) =>
            match ilExprs rec r3 i3 rest with
            | .error e => .error e
            | .ok (r4, i4, rest1) =>
              .ok (r4, i4, none, .assign lhs1 tok (.call fn1 args1 :: rest1))
    | some (key, info) =>
      match rec reg info with
      | .error e => .error e
      | .ok (r0, funcDecl) =>
        if rest.length > 0 then .error .multiRhs
        else
          let before : Except Err (Option Stmt) :=
            if tok = .DEFINE then
              match newDefinitions lhs funcDecl with
              | .error e => .error e
              | .ok s => if inList then .ok (some s) else .error .notInSlice
            else .ok none
          match before with
          | .error e => .error e
          | .ok before =>
            let rv := extractReturnValues funcDecl
            match replaceReturnStatements funcDecl.name idx funcDecl.body
                (some (captureModifier rv.2)) with
            | .error e => .error e
            | .ok body =>
              match getFormalParamReassignments funcDecl args with
              | .error e => .error e
              | .ok _ =>
                match ilExprs rec (r0.put key funcDecl) (idx + 1) lhs with
                | .error e => .error e
                | .ok (r1, i1, _) =>
                  match ilExpr rec r1 i1 fn with
                  | .error e => .error e
                  | .ok (r2, i2, _) =>
                    match ilExprs rec r2 i2 args with
                    | .error e => .error e
                    | .ok (r3, i3, args1) =>
                      match getFormalParamReassignments funcDecl args1 with
                      | .error e => .error e
                      | .ok reassignmentStmt =>
                        .ok (r3, i3, before, .block [rv.1,
                          .block (reassignmentStmt :: body),
                          .assign lhs .ASSIGN (rv.2.map .ident)])
  | .assign lhs tok (r :: rest) =>
    match ilExprs rec reg idx lhs with
    | .error e => .error e
    | .ok (r1, i1, lhs1) =>
      match ilExpr rec r1 i1 r with
      | .error e => .error e
      | .ok (r2, i2, rr1) =>
        match ilExprs rec r2 i2 rest with
        | .error e => .error e
        | .ok (r3, i3, rest1) => .ok (r3, i3, none, .assign lhs1 tok (rr1 :: rest1))
  | .exprStmt (.call fn args) =>
    match callToFuncDecl reg fn with
    | none =>
      match ilExpr rec reg idx fn with
      | .error e => .error e
      | .ok (r1, i1, fn1) =>
        match ilExprs rec r1 i1 args with
        | .error e => .error e
        | .ok (r2, i2, args1) => .ok (r2, i2, none, .exprStmt (.call fn1 args1))
    | some (key, info) =>
      match rec reg info with
      | .error e => .error e
      | .ok (r0, funcDecl) =>
        match getFormalParamReassignments funcDecl args with
        | .error e => .error e
        | .ok _ =>
          match replaceReturnStatements funcDecl.name idx funcDecl.body none with
          | .error e => .error e
          | .ok body =>
            match ilExpr rec (r0.put key funcDecl) (idx + 1) fn with
            | .error e => .error e
            | .ok (r2, i2, _) =>
              match ilExprs rec r2 i2 args with
              | .error e => .error e
              | .ok (r3, i3, args1) =>
                match getFormalParamReassignments funcDecl args1 with
                | .error e => .error e
                | .ok reassignments => .ok (r3, i3, none, .block (reassignments :: body))
  | .exprStmt x =>
    match ilExpr rec reg idx x with
    | .error e => .error e
    | .ok (r1, i1, x1) => .ok (r1, i1, none, .exprStmt x1)
  | .ret results =>
    match ilExprs rec reg idx results with
    | .error e => .error e
    | .ok (r1, i1, results1) => .ok (r1, i1, none, .ret results1)
  | .block list =>
    match ilStmts rec reg idx list with
    | .error e => .error e
    | .ok (r1, i1, list1) => .ok (r1, i1, none, .block list1)
  | .ifStmt init cond body els =>
    match ilOptStmt rec reg idx init with
    | .error e => .error e
    | .ok (r1, i1, init1) =>
      match ilExpr rec r1 i1 cond with
      | .error e => .error e
      | .ok (r2, i2, cond1) =>
        match ilStmts rec r2 i2 body with
        | .error e => .error e
        | .ok (r3, i3, body1) =>
          match ilOptStmt rec r3 i3 els with
          | .error e => .error e
          | .ok (r4, i4, els1) => .ok (r4, i4, none, .ifStmt init1 cond1 body1 els1)
  | .declStmt tok specs =>
    match ilSpecs rec reg idx specs with
    | .error e => .error e
    | .ok (r1, i1, specs1) => .ok (r1, i1, none, .declStmt tok specs1)
  | .empty i => .ok (reg, idx, none, .empty i)
  | .labeled l s =>
    match ilStmt rec false reg idx s with
    | .error e => .error e
    | .ok (r1, i1, _, s1) => .ok (r1, i1, none, .labeled l s1)
  | .branch tok l => .ok (reg, idx, none, .branch tok l)
/-- The traversal at a statement field that is not a list. -/
def ilOptStmt (rec : Inliner) (reg : Registry) (idx : Nat) :
    Option Stmt → Except Err (Registry × Nat × Option Stmt)
  | none => .ok (reg, idx, none)
  | some s =>
    match ilStmt rec false reg idx s with
    | .error e => .error e
    | .ok (r1, i1, _, s1) => .ok (r1, i1, some s1)
/-- The traversal over a statement list: a statement inserted before the
cursor stays in front of the statement that replaced it. -/
def ilStmts (rec : Inliner) (reg : Registry) (idx : Nat) :
    List Stmt → Except Err (Registry × Nat × List Stmt)
  | [] => .ok (reg, idx, [])
  | s :: rest =>
    match ilStmt rec true reg idx s with
    | .error e => .error e
    | .ok (r1, i1, before, s1) =>
      match ilStmts rec r1 i1 rest with
      | .error e => .error e
      | .ok (r2, i2, rest1) => .ok (r2, i2, before.toList ++ s1 :: rest1)
end

/-- The traversal at a top-level declaration. -/
def ilDecl (rec : Inliner) (reg : Registry) (idx : Nat) :
    Decl → Except Err (Registry × Nat × Decl)
  | .func d =>
    match ilStmts rec reg idx d.body with
    | .error e => .error e
    | .ok (r1, i1, body1) => .ok (r1, i1, .func { d with body := body1 })
  | .gen tok specs =>
    match ilSpecs rec reg idx specs with
    | .error e => .error e
    | .ok (r1, i1, specs1) => .ok (r1, i1, .gen tok specs1)

/-- The traversal over the declarations of a file. -/
def ilDecls (rec : Inliner) (reg : Registry) (idx : Nat) :
    List Decl → Except Err (Registry × Nat × List Decl)
  | [] => .ok (reg, idx, [])
  | d :: rest =>
    match ilDecl rec reg idx d with
    | .error e => .error e
    | .ok (r1, i1, d1) =>
      match ilDecls rec r1 i1 rest with
      | .error e => .error e
      | .ok (r2, i2, rest1) => .ok (r2, i2, d1 :: rest1)

/-- One run of `dstutil.Apply` from the root `n`, with `funcIdx` starting
at 0 (line 115). -/
def inlineNode (rec : Inliner) (reg : Registry) : Node → Except Err (Registry × Node)
  | .file f =>
    match ilDecls rec reg 0 f.decls with
    | .error e => .error e
    | .ok (r1, _, decls1) => .ok (r1, .file { f with decls := decls1 })
  | .funcDecl d =>
    match ilStmts rec reg 0 d.body with
    | .error e => .error e
    | .ok (r1, _, body1) => .ok (r1, .funcDecl { d with body := body1 })
  | .stmt s =>
    match ilStmt rec false reg 0 s with
    | .error e => .error e
    | .ok (r1, _, _, s1) => .ok (r1, .stmt s1)

/-- The Go `inlineFunc`.  The registry entries are rewritten in place by the
recursive calls (line 130 and line 198 pass the entry itself, not a clone),
so the registry after the call is part of the result.  `fuel` bounds the
depth of the recursion through callees. -/
def inlineFunc : Nat → Registry → Node → Except Err (Registry × Node)
  | 0, _, _ => .error .outOfFuel
  | fuel + 1, reg, n =>
    inlineNode (fun r d =>
      match inlineFunc fuel r (.funcDecl d) with
      | .error e => .error e
      | .ok (r1, .funcDecl d1) => .ok (r1, d1)
      | .ok _ => .error .typeAssertion) reg n

/-! ## Specification-level definitions -/


/-- Whether `extractInlineFuncs` keeps a declaration in its file. -/
def keptDecl : Decl → Bool
  | .func d => !isInline d
  | .gen _ _ => true

/-- The marked function declarations of a declaration list, in order. -/
def markedDecls : List Decl → List FuncDecl
  | [] => []
  | .func d :: rest => if isInline d then d :: markedDecls rest else markedDecls rest
  | .gen _ _ :: rest => markedDecls rest

/-- The marked function declarations of a list of files, in order. -/
def markedInFiles : List (String × File) → List FuncDecl
  | [] => []
  | (_, f) :: rest => markedDecls f.decls ++ markedInFiles rest

/-- The file with the marked declarations removed. -/
def stripFile (p : String × File) : String × File :=
  (p.1, { p.2 with decls := p.2.decls.filter keptDecl })

/-! ## Example programs -/

namespace Ex

/-- A field of type `int` with the given names. -/
def intField (names : List String) : Field := ⟨names, "int", none, []⟩

/-- The marker comment. -/
def marker : List String := ["// [always_inline]"]

/-- The marked `func f() int { return 1 }`. -/
def fOne : FuncDecl := ⟨marker, none, "f", ⟨[], some [intField []]⟩, [.ret [.basicLit "1"]]⟩

/-- The marked `func g() int { return 2 }`. -/
def gTwo : FuncDecl := ⟨marker, none, "g", ⟨[], some [intField []]⟩, [.ret [.basicLit "2"]]⟩

/-- The registry holding `f` and `g`. -/
def regFG : Registry := [("f", fOne), ("g", gTwo)]

/-- The statement `a, b = 1, f()`. -/
def assignSecondCall : Stmt :=
  .assign [.ident "a", .ident "b"] .ASSIGN [.basicLit "1", .call (.ident "f") []]

/-- The statement `a, b := f(), g()`. -/
def assignTwoCalls : Stmt :=
  .assign [.ident "a", .ident "b"] .DEFINE [.call (.ident "f") [], .call (.ident "g") []]

/-- The function `func main() { a, b = 1, f() }`. -/
def mainSecondCall : FuncDecl := ⟨[], none, "main", ⟨[], none⟩, [assignSecondCall]⟩

end Ex

/-! ## Observations on a rewritten tree -/

/-- The function declaration in a result of `inlineFunc`, when there is one. -/
def resultDecl : Except Err (Registry × Node) → Option FuncDecl
  | .ok (_, .funcDecl d) => some d
  | _ => none

/-- The registry in a result of `inlineFunc`, when there is one. -/
def resultRegistry : Except Err (Registry × Node) → Option Registry
  | .ok (r, _) => some r
  | .error _ => none

mutual
/-- The labels declared by a statement, in order.  Labels are scoped to the
function body, so blocks are entered and function literals are not. -/
def declaredLabels : Stmt → List String
  | .labeled l s => l :: declaredLabels s
  | .block list => declaredLabelsList list
  | .ifStmt init _ body els =>
    declaredLabelsOpt init ++ declaredLabelsList body ++ declaredLabelsOpt els
  | _ => []
/-- The labels declared by an optional statement. -/
def declaredLabelsOpt : Option Stmt → List String
  | none => []
  | some s => declaredLabels s
/-- The labels declared by a statement list. -/
def declaredLabelsList : List Stmt → List String
  | [] => []
  | s :: rest => declaredLabels s ++ declaredLabelsList rest
end

namespace Ex

/-- The marked `func g(x int) { if x > 0 { return }; println(x) }`. -/
def gEarly : FuncDecl := ⟨marker, none, "g", ⟨[intField ["x"]], none⟩,
  [.ifStmt none (.binary (.ident "x") ">" (.basicLit "0")) [.ret []] none,
   .exprStmt (.call (.ident "println") [.ident "x"])]⟩

/-- The marked `func f(x int) { g(x) }`. -/
def fCallsG : FuncDecl := ⟨marker, none, "f", ⟨[intField ["x"]], none⟩,
  [.exprStmt (.call (.ident "g") [.ident "x"])]⟩

/-- The registry holding `g` and `f`. -/
def regEarly : Registry := [("g", gEarly), ("f", fCallsG)]

/-- The function `func main() { g(1); f(2) }`. -/
def mainGF : FuncDecl := ⟨[], none, "main", ⟨[], none⟩,
  [.exprStmt (.call (.ident "g") [.basicLit "1"]),
   .exprStmt (.call (.ident "f") [.basicLit "2"])]⟩

/-- The marked `func f(int) int { return 1 }`, with an unnamed parameter. -/
def fUnnamed : FuncDecl := ⟨marker, none, "f", ⟨[intField []], some [intField []]⟩,
  [.ret [.basicLit "1"]]⟩

/-- The function `func main() { f(1) }`. -/
def mainCallsF : FuncDecl := ⟨[], none, "main", ⟨[], none⟩,
  [.exprStmt (.call (.ident "f") [.basicLit "1"])]⟩

end Ex

/-! ## A fragment of the Go semantics

Enough of the Go language specification to run straight-line integer code:
identifiers, decimal literals, `+`, `-`, `*` on the 64-bit `int` (wrapping
around); `var` declarations, assignments with `:=`, `=`, `+=`, `-=` and `*=`,
blocks, returns, and calls of declared functions as the single right-hand
expression of an assignment or as a statement.  Anything else has no value
here (`none`). -/

/-- The variables in scope with their values, innermost first. -/
abbrev Env := List (String × Int)

/-- The value of a variable: the innermost declaration wins. -/
def Env.get (env : Env) (x : String) : Option Int :=
  match env with
  | [] => none
  | (k, v) :: rest => if k = x then some v else Env.get rest x

/-- Assignment to the innermost declared variable of that name. -/
def Env.set (env : Env) (x : String) (v : Int) : Option Env :=
  match env with
  | [] => none
  | (k, w) :: rest =>
    if k = x then some ((k, v) :: rest)
    else
      match Env.set rest x v with
      | none => none
      | some rest1 => some ((k, w) :: rest1)

/-- The value of a decimal literal. -/
def litValue (s : String) : Int :=
  Int.ofNat (s.toList.foldl (fun acc c => acc * 10 + (c.toNat - 48)) 0)

/-- The value of a mathematical integer as a Go `int` of 64 bits: arithmetic
wraps around. -/
def wrapInt (v : Int) : Int :=
  (v + 9223372036854775808) % 18446744073709551616 - 9223372036854775808

/-- The value of a call-free expression. -/
def evalExpr (env : Env) : Expr → Option Int
  | .ident n => env.get n
  | .basicLit v => some (litValue v)
  | .binary x op y =>
    match evalExpr env x, evalExpr env y with
    | some a, some b =>
      if op = "+" then some (wrapInt (a + b))
      else if op = "-" then some (wrapInt (a - b))
      else if op = "*" then some (wrapInt (a * b))
      else none
    | _, _ => none
  | _ => none

/-- The values of a list of expressions, left to right. -/
def evalExprs (env : Env) : List Expr → Option (List Int)
  | [] => some []
  | e :: es =>
    match evalExpr env e, evalExprs env es with
    | some v, some vs => some (v :: vs)
    | _, _ => none

/-- Declare the variables of a list in order. -/
def declareAll (env : Env) : List String → List Int → Option Env
  | [], [] => some env
  | n :: ns, v :: vs => declareAll ((n, v) :: env) ns vs
  | _, _ => none

/-- Assign to the targets of a list in order. -/
def assignAll (env : Env) : List Expr → List Int → Option Env
  | [], [] => some env
  | .ident n :: ns, v :: vs =>
    match env.set n v with
    | none => none
    | some env1 => assignAll env1 ns vs
  | _, _ => none

/-- An assignment with an operator (`+=`, `-=`, `*=`) to one variable. -/
def compoundAssign (env : Env) (tok : Token) : List Expr → List Int → Option Env
  | [.ident n], [v] =>
    match env.get n with
    | none => none
    | some old =>
      match tok with
      | .ADD_ASSIGN => env.set n (wrapInt (old + v))
      | .SUB_ASSIGN => env.set n (wrapInt (old - v))
      | .MUL_ASSIGN => env.set n (wrapInt (old * v))
      | _ => none
  | _, _ => none

/-- The effect of an assignment statement with token `tok` on the
environment, once the values of the right-hand side are known. -/
def assignValues (env : Env) (lhs : List Expr) (tok : Token) (vals : List Int) : Option Env :=
  if tok = .DEFINE then
    declareAll env (lhs.map (fun e => match e with | .ident n => n | _ => "_")) vals
  else if tok = .ASSIGN then assignAll env lhs vals
  else compoundAssign env tok lhs vals

/-- A `var` declaration inside a function.  The scope of a declared variable
begins at the end of its spec, so the initial value of a spec is evaluated
with the earlier specs of the same declaration already in scope. -/
def execSpecs (env : Env) : List Spec → Option Env
  | [] => some env
  | .value [n] _ [] :: rest => execSpecs ((n, 0) :: env) rest
  | .value [n] _ [v] :: rest =>
    match evalExpr env v with
    | none => none
    | some x => execSpecs ((n, x) :: env) rest
  | _ => none

/-- The names of the flattened parameters. -/
def paramNames (d : FuncDecl) : List String :=
  (flattenFields d.type.params).map (fun p => p.names.headD "_")

mutual
/-- Run one statement: the environment afterwards and, after a `return`,
the returned values. -/
def execStmt (funcs : Registry) : Nat → Env → Stmt → Option (Env × Option (List Int))
  | 0, _, _ => none
  | _ + 1, env, .declStmt .VAR specs =>
    match execSpecs env specs with
    | none => none
    | some env1 => some (env1, none)
  | fuel + 1, env, .assign lhs tok [.call (.ident f) args] =>
    match funcs.get f, evalExprs env args with
    | some d, some vals =>
      match callFunc funcs fuel d vals with
      | none => none
      | some results =>
        match assignValues env lhs tok results with
        | none => none
        | some env1 => some (env1, none)
    | _, _ => none
  | _ + 1, env, .assign lhs tok rhs =>
    match evalExprs env rhs with
    | none => none
    | some vals =>
      match assignValues env lhs tok vals with
      | none => none
      | some env1 => some (env1, none)
  | fuel + 1, env, .exprStmt (.call (.ident f) args) =>
    match funcs.get f, evalExprs env args with
    | some d, some vals =>
      match callFunc funcs fuel d vals with
      | none => none
      | some _ => some (env, none)
    | _, _ => none
  | fuel + 1, env, .block list =>
    match execStmts funcs fuel env list with
    | none => none
    | some (env1, r) => some (env1.drop (env1.length - env.length), r)
  | _ + 1, env, .ret results =>
    match evalExprs env results with
    | none => none
    | some vals => some (env, some vals)
  | _ + 1, env, .empty _ => some (env, none)
  | _ + 1, _, _ => none
/-- Run a statement list, stopping at a `return`. -/
def execStmts (funcs : Registry) : Nat → Env → List Stmt → Option (Env × Option (List Int))
  | 0, _, _ => none
  | _ + 1, env, [] => some (env, none)
  | fuel + 1, env, s :: rest =>
    match execStmt funcs fuel env s with
    | none => none
    | some (env1, some vals) => some (env1, some vals)
    | some (env1, none) => execStmts funcs fuel env1 rest
/-- A normal call: the parameters are bound to the argument values in a new
scope, the body runs, the values of its `return` are the result. -/
def callFunc (funcs : Registry) : Nat → FuncDecl → List Int → Option (List Int)
  | 0, _, _ => none
  | fuel + 1, d, vals =>
    match declareAll [] (paramNames d) vals with
    | none => none
    | some env =>
      match execStmts funcs fuel env d.body with
      | some (_, some results) => some results
      | some (_, none) => some []
      | none => none
end

/-- The value of variable `x` after running the body of a function. -/
def valueAfter (funcs : Registry) (fuel : Nat) (body : List Stmt) (x : String) : Option Int :=
  match execStmts funcs fuel [] body with
  | some (env, _) => env.get x
  | none => none

namespace Ex

/-- The marked `func sub(a, b int) int { return a - b }`. -/
def sub : FuncDecl := ⟨marker, none, "sub", ⟨[intField ["a", "b"]], some [intField []]⟩,
  [.ret [.binary (.ident "a") "-" (.ident "b")]]⟩

/-- The function `func main() { var a int = 1; var b int = 2; x := sub(b, a) }`. -/
def mainSub : FuncDecl := ⟨[], none, "main", ⟨[], none⟩,
  [.declStmt .VAR [.value ["a"] (some "int") [.basicLit "1"]],
   .declStmt .VAR [.value ["b"] (some "int") [.basicLit "2"]],
   .assign [.ident "x"] .DEFINE [.call (.ident "sub") [.ident "b", .ident "a"]]]⟩

/-- The body `inlineFunc` returns for `mainSub`. -/
def mainSubInlined : List Stmt :=
  [.declStmt .VAR [.value ["a"] (some "int") [.basicLit "1"]],
   .declStmt .VAR [.value ["b"] (some "int") [.basicLit "2"]],
   .declStmt .VAR [.value ["x"] (some "int") []],
   .block [
     .declStmt .VAR [.value ["_rv_0"] (some "int") []],
     .block [
       .declStmt .VAR [.value ["a"] (some "int") [.ident "b"],
                       .value ["b"] (some "int") [.ident "a"]],
       .block [.assign [.ident "_rv_0"] .ASSIGN [.binary (.ident "a") "-" (.ident "b")]]],
     .assign [.ident "x"] .ASSIGN [.ident "_rv_0"]]]

end Ex

/-! ## Where calls of registered functions occur -/

/-- What a tree may hold: call sites of registered functions (an assignment
whose first right-hand expression is such a call, or such a call as a
statement), calls of registered functions in other expression positions, and
returns with such a call as a result. -/
structure Discipline where
  sites : Bool
  calls : Bool
  rets : Bool

/-- The expression is an identifier that is a key. -/
def isKeyIdent (K : String → Bool) : Expr → Bool
  | .ident n => K n
  | _ => false

/-- The expression is a call whose callee identifier is a key. -/
def isKeyCall (K : String → Bool) : Expr → Bool
  | .call fn _ => isKeyIdent K fn
  | _ => false

mutual
/-- The expression keeps the discipline `m` for the keys `K`. -/
def okExpr (K : String → Bool) (m : Discipline) : Expr → Bool
  | .ident _ => true
  | .basicLit _ => true
  | .binary x _ y => okExpr K m x && okExpr K m y
  | .selector x _ => okExpr K m x
  | .call fn args => (m.calls || !isKeyIdent K fn) && okExpr K m fn && okExprs K m args
  | .funcLit _ body => okStmts K m body
/-- Every expression of the list keeps the discipline. -/
def okExprs (K : String → Bool) (m : Discipline) : List Expr → Bool
  | [] => true
  | e :: es => okExpr K m e && okExprs K m es
/-- Every spec of the list keeps the discipline. -/
def okSpecs (K : String → Bool) (m : Discipline) : List Spec → Bool
  | [] => true
  | .value _ _ values :: rest => okExprs K m values && okSpecs K m rest
/-- The statement keeps the discipline.  The targets of a call site hold no
call site themselves, whatever `m.sites` is. -/
def okStmt (K : String → Bool) (m : Discipline) : Stmt → Bool
  | .assign lhs _ [] => okExprs K m lhs
  | .assign lhs _ (.call fn args :: rest) =>
    if isKeyIdent K fn then
      m.sites && okExprs K { m with sites := false } lhs && okExprs K m args && okExprs K m rest
    else okExprs K m lhs && okExpr K m fn && okExprs K m args && okExprs K m rest
  | .assign lhs _ (r :: rest) => okExprs K m lhs && okExpr K m r && okExprs K m rest
  | .exprStmt (.call fn args) =>
    if isKeyIdent K fn then m.sites && okExprs K m args
    else okExpr K m fn && okExprs K m args
  | .exprStmt x => okExpr K m x
  | .ret results => (m.rets || !results.any (isKeyCall K)) && okExprs K m results
  | .block list => okStmts K m list
  | .ifStmt init cond body els =>
    okOptStmt K m init && okExpr K m cond && okStmts K m body && okOptStmt K m els
  | .declStmt _ specs => okSpecs K m specs
  | .empty _ => true
  | .labeled _ s => okStmt K m s
  | .branch _ _ => true
/-- The optional statement keeps the discipline. -/
def okOptStmt (K : String → Bool) (m : Discipline) : Option Stmt → Bool
  | none => true
  | some s => okStmt K m s
/-- Every statement of the list keeps the discipline. -/
def okStmts (K : String → Bool) (m : Discipline) : List Stmt → Bool
  | [] => true
  | s :: rest => okStmt K m s && okStmts K m rest
end

/-- No call site of a registered function, anywhere in the tree. -/
def siteFree : Discipline := ⟨false, true, true⟩

/-- The recursive call built from `inlineFunc` with the given fuel. -/
def inlinerOf (fuel : Nat) : Inliner := fun r d =>
  match inlineFunc fuel r (.funcDecl d) with
  | .error e => .error e
  | .ok (r1, .funcDecl d1) => .ok (r1, d1)
  | .ok _ => .error .typeAssertion

namespace Ex

/-- The test `03-multi-return`: `func calcs(a, b int) (int, int, int)`. -/
def calcs3 : FuncDecl := ⟨marker, none, "calcs",
  ⟨[intField ["a", "b"]], some [intField [], intField [], intField []]⟩,
  [.ret [.binary (.ident "a") "+" (.ident "b"), .binary (.ident "a") "-" (.ident "b"),
         .binary (.ident "a") "*" (.ident "b")]]⟩

/-- The `fmt.Println` statement of the tests. -/
def printStmt (names : List String) : Stmt :=
  .exprStmt (.call (.selector (.ident "fmt") "Println") (names.map .ident))

/-- The call statement `x, y, z := calcs(7, 9)` of the tests. -/
def callCalcs (x y z : String) : Stmt :=
  .assign [.ident x, .ident y, .ident z] .DEFINE
    [.call (.ident "calcs") [.basicLit "7", .basicLit "9"]]

/-- The test `03-multi-return`: `main`. -/
def main3 : FuncDecl := ⟨[], none, "main", ⟨[], none⟩,
  [callCalcs "a" "b" "c", printStmt ["a", "b", "c"]]⟩

/-- The test `03-multi-return` as a package. -/
def pkg3 : Package := ⟨"main", [("main.go", ⟨"main", [.func calcs3, .func main3]⟩)]⟩

/-- The test `04-nested`: `func sum(a, b int) int { return a + b }`. -/
def sum4 : FuncDecl := ⟨marker, none, "sum", ⟨[intField ["a", "b"]], some [intField []]⟩,
  [.ret [.binary (.ident "a") "+" (.ident "b")]]⟩

/-- The test `04-nested`: `func mult(a, b int) int { return a * b }`. -/
def mult4 : FuncDecl := ⟨marker, none, "mult", ⟨[intField ["a", "b"]], some [intField []]⟩,
  [.ret [.binary (.ident "a") "*" (.ident "b")]]⟩

/-- The test `04-nested`: `func calcs(a, b int) (x, y, z int)`. -/
def calcs4 : FuncDecl := ⟨marker, none, "calcs",
  ⟨[intField ["a", "b"]], some [intField ["x", "y", "z"]]⟩,
  [.assign [.ident "s"] .DEFINE [.call (.ident "sum") [.ident "a", .ident "b"]],
   .assign [.ident "m"] .DEFINE [.call (.ident "mult") [.ident "a", .ident "b"]],
   .ret [.ident "s", .binary (.ident "a") "-" (.ident "b"), .ident "m"]]⟩

/-- The test `04-nested`: `main`. -/
def main4 : FuncDecl := ⟨[], none, "main", ⟨[], none⟩,
  [callCalcs "x" "y" "z", printStmt ["x", "y", "z"]]⟩

/-- The test `04-nested` as a package. -/
def pkg4 : Package :=
  ⟨"main", [("main.go", ⟨"main", [.func sum4, .func mult4, .func calcs4, .func main4]⟩)]⟩

/-- The registry of the test `04-nested`. -/
def reg4 : Registry := [("sum", sum4), ("mult", mult4), ("calcs", calcs4)]

end Ex

/-! ## The frame of the registry -/

/-- Two declarations that differ at most in their body. -/
def sameSignature (d d1 : FuncDecl) : Prop :=
  d1.decs = d.decs ∧ d1.recv = d.recv ∧ d1.name = d.name ∧ d1.type = d.type

/-- The declaration `d1` is `d` with at most its body rewritten, and is `d`
itself when the body of `d` holds no call site. -/
def Related (K : String → Bool) (d d1 : FuncDecl) : Prop :=
  sameSignature d d1 ∧ (okStmts K siteFree d.body = true → d1 = d)

/-- The registries have the same keys in the same order, and under each key
related declarations. -/
def Registry.Frame (K : String → Bool) (reg reg1 : Registry) : Prop :=
  List.Forall₂ (fun p q => q.1 = p.1 ∧ Related K p.2 q.2) reg reg1

/-- What the frame lemmas ask of the recursive call. -/
def Inliner.Framed (K : String → Bool) (rec : Inliner) : Prop :=
  ∀ reg d r0 d1, (∀ k, reg.has k = K k) → rec reg d = .ok (r0, d1) →
    Registry.Frame K reg r0 ∧ Related K d d1

/-- The discipline `m1` allows what `m` allows. -/
def Discipline.le (m m1 : Discipline) : Prop :=
  (m.sites = true → m1.sites = true) ∧ (m.calls = true → m1.calls = true) ∧
  (m.rets = true → m1.rets = true)

/-- A return modifier that builds statements keeping the discipline from the
results of a return that keeps it. -/
def ModOK (K : String → Bool) (m : Discipline) : ReturnModifier → Prop
  | none => True
  | some f => ∀ results r, okExprs K m results = true → results.any (isKeyCall K) = false →
      f results = .ok r → okStmt K m r = true

/-- The keys of the registry are `K`, and every body in it keeps the
discipline of a callee: call sites whose targets hold no call site, calls in
other positions as `c` says, no return of a call of a registered function. -/
def RegOK (K : String → Bool) (c : Bool) (reg : Registry) : Prop :=
  (∀ k, reg.has k = K k) ∧
  ∀ k d, reg.get k = some d → okStmts K ⟨true, c, false⟩ d.body = true

/-- What the site lemmas ask of the recursive call: it keeps the registry
in order and returns a body without call site. -/
def Inliner.Clean (K : String → Bool) (c : Bool) (rec : Inliner) : Prop :=
  ∀ reg d r0 d1, RegOK K c reg → okStmts K ⟨true, c, false⟩ d.body = true →
    rec reg d = .ok (r0, d1) → RegOK K c r0 ∧ okStmts K ⟨false, c, false⟩ d1.body = true

/-- The declaration keeps the discipline. -/
def okDecl (K : String → Bool) (m : Discipline) : Decl → Bool
  | .func d => okStmts K m d.body
  | .gen _ specs => okSpecs K m specs

/-- The root keeps the discipline. -/
def okNode (K : String → Bool) (m : Discipline) : Node → Bool
  | .file f => f.decls.all (okDecl K m)
  | .funcDecl d => okStmts K m d.body
  | .stmt s => okStmt K m s

/-- Call sites of registered functions wherever a statement stands, calls of
registered functions in any expression position; the targets of a call site
hold no call site. -/
def anySites : Discipline := ⟨true, true, true⟩

/-- The discipline `anySites`, and no return has a call of a registered
function as a result. -/
def calleeSites : Discipline := ⟨true, true, false⟩

/-- Every call of a registered function is a call site, and the targets of a
call site hold no call of a registered function. -/
def sitesOnly : Discipline := ⟨true, false, false⟩

/-- No call of a registered function, anywhere in the tree. -/
def callFree : Discipline := ⟨false, false, false⟩

/-- Every body of the registry keeps the discipline, for the keys of the
registry. -/
def Registry.bodiesOK (reg : Registry) (m : Discipline) : Bool :=
  reg.all (fun p => okStmts reg.has m p.2.body)

namespace Ex

/-- The file of the test `04-nested` after `extractInlineFuncs`. -/
def file4 : File := ⟨"main", [.func main4]⟩

/-- The function
`func h() int { var x = f(); println(f()); if f() > 0 { }; return f() }`:
calls of `f` as a var initialiser, a call argument, a condition and a return
result. -/
def callsElsewhere : FuncDecl := ⟨[], none, "h", ⟨[], some [intField []]⟩,
  [.declStmt .VAR [.value ["x"] none [.call (.ident "f") []]],
   .exprStmt (.call (.ident "println") [.call (.ident "f") []]),
   .ifStmt none (.binary (.call (.ident "f") []) ">" (.basicLit "0")) [] none,
   .ret [.call (.ident "f") []]]⟩

/-- The function `func main() { fmt.Println(calcs(7, 9)) }`. -/
def mainPrintsCalcs : FuncDecl := ⟨[], none, "main", ⟨[], none⟩,
  [.exprStmt (.call (.selector (.ident "fmt") "Println")
    [.call (.ident "calcs") [.basicLit "7", .basicLit "9"]])]⟩

/-- The marked `func pos(a, b int) int { if s := sum(a, b); s > 0 { return s }; return 0 }`:
the call of `sum` is the right-hand side of the assignment in the `if`. -/
def posInit : FuncDecl := ⟨marker, none, "pos", ⟨[intField ["a", "b"]], some [intField []]⟩,
  [.ifStmt (some (.assign [.ident "s"] .DEFINE [.call (.ident "sum") [.ident "a", .ident "b"]]))
     (.binary (.ident "s") ">" (.basicLit "0")) [.ret [.ident "s"]] none,
   .ret [.basicLit "0"]]⟩

/-- The function `func main() { p := pos(1, 2); fmt.Println(p) }`. -/
def mainCallsPos : FuncDecl := ⟨[], none, "main", ⟨[], none⟩,
  [.assign [.ident "p"] .DEFINE [.call (.ident "pos") [.basicLit "1", .basicLit "2"]],
   printStmt ["p"]]⟩

end Ex

namespace Ex

/-- The marked `func twice(a int) int { return sum(a, a) }`: it returns a call
of the registered `sum`. -/
def twice : FuncDecl := ⟨marker, none, "twice", ⟨[intField ["a"]], some [intField []]⟩,
  [.ret [.call (.ident "sum") [.ident "a", .ident "a"]]]⟩

/-- The function `func main() { x := twice(3) }`. -/
def mainCallsTwice : FuncDecl := ⟨[], none, "main", ⟨[], none⟩,
  [.assign [.ident "x"] .DEFINE [.call (.ident "twice") [.basicLit "3"]]]⟩

/-- The function `func main() { h(func() { f() }).x = g() }`: the target of
the call site of `g` holds a call site of `f`. -/
def mainSiteInTarget : FuncDecl := ⟨[], none, "main", ⟨[], none⟩,
  [.assign [.selector (.call (.ident "h")
      [.funcLit ⟨[], none⟩ [.exprStmt (.call (.ident "f") [])]]) "x"] .ASSIGN
    [.call (.ident "g") []]]⟩

end Ex

/-! ## Returns and jumps, as the specification words them -/

mutual
/-- The statement holds a return statement outside function literals. -/
def hasReturn : Stmt → Bool
  | .ret _ => true
  | .block list => hasReturns list
  | .ifStmt init _ body els => hasReturnOpt init || hasReturns body || hasReturnOpt els
  | .labeled _ s => hasReturn s
  | _ => false
/-- The optional statement holds a return statement outside function literals. -/
def hasReturnOpt : Option Stmt → Bool
  | none => false
  | some s => hasReturn s
/-- Some statement of the list holds a return statement outside function
literals. -/
def hasReturns : List Stmt → Bool
  | [] => false
  | s :: rest => hasReturn s || hasReturns rest
end

mutual
/-- The statement with every return statement outside function literals
replaced by an unconditional jump to `label`. -/
def jumpStmt (label : String) : Stmt → Stmt
  | .ret _ => .branch .GOTO (some label)
  | .block list => .block (jumpStmts label list)
  | .ifStmt init cond body els =>
    .ifStmt (jumpOptStmt label init) cond (jumpStmts label body) (jumpOptStmt label els)
  | .labeled l s => .labeled l (jumpStmt label s)
  | s => s
/-- The same, on an optional statement. -/
def jumpOptStmt (label : String) : Option Stmt → Option Stmt
  | none => none
  | some s => some (jumpStmt label s)
/-- The same, on a statement list. -/
def jumpStmts (label : String) : List Stmt → List Stmt
  | [] => []
  | s :: rest => jumpStmt label s :: jumpStmts label rest
end

/-- The names a statement declares, when it is a declaration statement. -/
def declaredNames : Stmt → List String
  | .declStmt _ specs => (specs.map (fun s => match s with | .value names _ _ => names)).flatten
  | _ => []

/-- The assignment `name = r` of a captured result. -/
def captureAssign (name : String) (r : Expr) : Stmt := .assign [.ident name] .ASSIGN [r]

namespace Ex

/-- The body `inlineFunc` returns for `x, y, z := calcs(7, 9)` followed by
the print statement, with the `calcs` of the test `03-multi-return`. -/
def mainCalcsInlined : List Stmt :=
  [.declStmt .VAR [.value ["x"] (some "int") [], .value ["y"] (some "int") [],
                   .value ["z"] (some "int") []],
   .block [
     .declStmt .VAR [.value ["_rv_0"] (some "int") [], .value ["_rv_1"] (some "int") [],
                     .value ["_rv_2"] (some "int") []],
     .block [
       .declStmt .VAR [.value ["a"] (some "int") [.basicLit "7"],
                       .value ["b"] (some "int") [.basicLit "9"]],
       .block [
         .assign [.ident "_rv_0"] .ASSIGN [.binary (.ident "a") "+" (.ident "b")],
         .assign [.ident "_rv_1"] .ASSIGN [.binary (.ident "a") "-" (.ident "b")],
         .assign [.ident "_rv_2"] .ASSIGN [.binary (.ident "a") "*" (.ident "b")]]],
     .assign [.ident "x", .ident "y", .ident "z"] .ASSIGN
       [.ident "_rv_0", .ident "_rv_1", .ident "_rv_2"]],
   printStmt ["x", "y", "z"]]

/-- The statement `g(1)`. -/
def callG : Stmt := .exprStmt (.call (.ident "g") [.basicLit "1"])

end Ex

/-! ## Fields, bindings and the capture rewriting, as the specification words them -/

/-- The field each entry of the flattened list comes from: a field is listed
once per name, and once when it has no name. -/
def fieldOrigins (fs : List Field) : List Field :=
  (fs.map (fun f => List.replicate (max 1 f.names.length) f)).flatten

/-- The spec binding a formal parameter to an argument: the parameter's
name, its declared type, and the argument as the only value. -/
def bindingSpec (p : Field) (a : Expr) : Spec := .value p.names (some p.type) [a]

namespace Ex

/-- The declaration `func foo(a int, b string) { }` of the documentation of
`getFormalParamReassignments`. -/
def foo : FuncDecl := ⟨marker, none, "foo",
  ⟨[intField ["a"], ⟨["b"], "string", none, []⟩], none⟩, []⟩

/-- The declaration `func id(a int) int { return a }`. -/
def idA : FuncDecl := ⟨marker, none, "id", ⟨[intField ["a"]], some [intField []]⟩,
  [.ret [.ident "a"]]⟩

end Ex

/-- The number a list of decimal digit characters denotes, continuing from `acc`. -/
def digitsValue (acc : Nat) (ds : List Char) : Nat :=
  ds.foldl (fun a c => a * 10 + (c.toNat - 48)) acc

/-- The spec declaring the target `t` with the type of the result `fr`. -/
def definitionSpec (t : String) (fr : Field) : Spec := .value [t] (some fr.type) []

namespace Ex

/-- The marked `func double(a int) int { return a + a }`. -/
def double : FuncDecl := ⟨marker, none, "double", ⟨[intField ["a"]], some [intField []]⟩,
  [.ret [.binary (.ident "a") "+" (.ident "a")]]⟩

/-- The function `func main() { x := 5; x += double(1) }`. -/
def mainAddAssign : FuncDecl := ⟨[], none, "main", ⟨[], none⟩,
  [.assign [.ident "x"] .DEFINE [.basicLit "5"],
   .assign [.ident "x"] .ADD_ASSIGN [.call (.ident "double") [.basicLit "1"]]]⟩

/-- The block that replaces an assignment to `x` of the call `double(1)`. -/
def doubleInlined : Stmt :=
  .block [.declStmt .VAR [.value ["_rv_0"] (some "int") []],
    .block [.declStmt .VAR [.value ["a"] (some "int") [.basicLit "1"]],
      .block [.assign [.ident "_rv_0"] .ASSIGN [.binary (.ident "a") "+" (.ident "a")]]],
    .assign [.ident "x"] .ASSIGN [.ident "_rv_0"]]

end Ex

mutual
/-- Every return statement outside function literals sits in a statement
list; `inList` tells whether the statement itself does. -/
def returnsListed (inList : Bool) : Stmt → Bool
  | .ret _ => inList
  | .block list => returnsListedAll list
  | .ifStmt init _ body els =>
    returnsListedOpt init && returnsListedAll body && returnsListedOpt els
  | .labeled _ s => returnsListed false s
  | _ => true
/-- The same, for a statement field that is not a list. -/
def returnsListedOpt : Option Stmt → Bool
  | none => true
  | some s => returnsListed false s
/-- The same, for the statements of a list. -/
def returnsListedAll : List Stmt → Bool
  | [] => true
  | s :: rest => returnsListed true s && returnsListedAll rest
end

mutual
/-- Every return statement outside function literals has at least `k` result
expressions. -/
def returnsCarry (k : Nat) : Stmt → Bool
  | .ret results => decide (k ≤ results.length)
  | .block list => returnsCarryAll k list
  | .ifStmt init _ body els =>
    returnsCarryOpt k init && returnsCarryAll k body && returnsCarryOpt k els
  | .labeled _ s => returnsCarry k s
  | _ => true
/-- The same, for an optional statement. -/
def returnsCarryOpt (k : Nat) : Option Stmt → Bool
  | none => true
  | some s => returnsCarry k s
/-- The same, for the statements of a list. -/
def returnsCarryAll (k : Nat) : List Stmt → Bool
  | [] => true
  | s :: rest => returnsCarry k s && returnsCarryAll k rest
end

/-- The jump that follows a rewritten return in a statement list. -/
def jumpAfter (label : String) : Stmt → Option Stmt
  | .ret _ => some (.branch .GOTO (some label))
  | _ => none

mutual
/-- The statement with every return statement outside function literals
replaced by the block of the positional assignments of its results to the
capture variables `names`, followed in its statement list by a jump to
`label`. -/
def captureStmt (names : List String) (label : String) : Stmt → Stmt
  | .ret results => .block (List.zipWith captureAssign names results)
  | .block list => .block (captureStmts names label list)
  | .ifStmt init cond body els =>
    .ifStmt (captureOptStmt names label init) cond (captureStmts names label body)
      (captureOptStmt names label els)
  | .labeled l s => .labeled l (captureStmt names label s)
  | s => s
/-- The same, on an optional statement. -/
def captureOptStmt (names : List String) (label : String) : Option Stmt → Option Stmt
  | none => none
  | some s => some (captureStmt names label s)
/-- The same, on a statement list. -/
def captureStmts (names : List String) (label : String) : List Stmt → List Stmt
  | [] => []
  | s :: rest =>
    captureStmt names label s :: ((jumpAfter label s).toList ++ captureStmts names label rest)
end

namespace Ex

/-- The body of `func diff(a, b int) int { if a > b { return a - b }; return b - a }`. -/
def diffBody : List Stmt :=
  [.ifStmt none (.binary (.ident "a") ">" (.ident "b"))
     [.ret [.binary (.ident "a") "-" (.ident "b")]] none,
   .ret [.binary (.ident "b") "-" (.ident "a")]]

/-- The body of `func sign(x int) int { if x > 0 { return 1 } else { return 2 } }`: it
ends in an `if` statement, both branches return. -/
def signBody : List Stmt :=
  [.ifStmt none (.binary (.ident "x") ">" (.basicLit "0"))
     [.ret [.basicLit "1"]] (some (.block [.ret [.basicLit "2"]]))]

/-- The body of
`func pick(x int) int { if x > 0 { goto L }; return 1; L: return 2; return 3 }`:
the second return is the statement of a label. -/
def pickBody : List Stmt :=
  [.ifStmt none (.binary (.ident "x") ">" (.basicLit "0")) [.branch .GOTO (some "L")] none,
   .ret [.basicLit "1"],
   .labeled "L" (.ret [.basicLit "2"]),
   .ret [.basicLit "3"]]

end Ex

mutual
/-- The labels the `goto` statements of a statement jump to, outside
function literals. -/
def gotoTargets : Stmt → List String
  | .branch .GOTO (some l) => [l]
  | .block list => gotoTargetsAll list
  | .ifStmt init _ body els => gotoTargetsOpt init ++ gotoTargetsAll body ++ gotoTargetsOpt els
  | .labeled _ s => gotoTargets s
  | _ => []
/-- The same, for an optional statement. -/
def gotoTargetsOpt : Option Stmt → List String
  | none => []
  | some s => gotoTargets s
/-- The same, for a statement list. -/
def gotoTargetsAll : List Stmt → List String
  | [] => []
  | s :: rest => gotoTargets s ++ gotoTargetsAll rest
end

/-- What the specification says of the exit label `label` in the result `out`
of rewriting the body `stmt`: the labeled no-op closes the result exactly when
the body holds, outside function literals, a return other than its final
statement; and a `goto` of the result that is not one of the body jumps to
that label, which then closes the result. -/
def ExitLabelOK (label : String) (stmt out : List Stmt) : Prop :=
  (out.getLast? = some (.labeled label (.empty true)) ↔
    hasReturns (splitFinalReturn stmt).1 = true) ∧
  ∀ t ∈ gotoTargetsAll out, t ∈ gotoTargetsAll stmt ∨
    (t = label ∧ out.getLast? = some (.labeled label (.empty true)))

namespace Ex

/-- The body of `func must(x int) int { if x > 0 { return 1 }; panic("neg") }`: a
return that is not the final statement, and no final return. -/
def mustBody : List Stmt :=
  [.ifStmt none (.binary (.ident "x") ">" (.basicLit "0")) [.ret [.basicLit "1"]] none,
   .exprStmt (.call (.ident "panic") [.basicLit "\"neg\""])]

end Ex

mutual
/-- The function literals of an expression, outermost ones, left to right. -/
def funcLitsExpr : Expr → List Expr
  | .funcLit t body => [.funcLit t body]
  | .binary x _ y => funcLitsExpr x ++ funcLitsExpr y
  | .selector x _ => funcLitsExpr x
  | .call fn args => funcLitsExpr fn ++ funcLitsExprs args
  | _ => []
/-- The same, for a list of expressions. -/
def funcLitsExprs : List Expr → List Expr
  | [] => []
  | e :: es => funcLitsExpr e ++ funcLitsExprs es
end

/-- The function literals in the values of a list of specs. -/
def funcLitsSpecs : List Spec → List Expr
  | [] => []
  | .value _ _ values :: rest => funcLitsExprs values ++ funcLitsSpecs rest

mutual
/-- The function literals of a statement, outermost ones, in source order. -/
def funcLits : Stmt → List Expr
  | .assign lhs _ rhs => funcLitsExprs lhs ++ funcLitsExprs rhs
  | .exprStmt x => funcLitsExpr x
  | .ret results => funcLitsExprs results
  | .block list => funcLitsAll list
  | .ifStmt init cond body els =>
    funcLitsOpt init ++ funcLitsExpr cond ++ funcLitsAll body ++ funcLitsOpt els
  | .declStmt _ specs => funcLitsSpecs specs
  | .labeled _ s => funcLits s
  | _ => []
/-- The same, for an optional statement. -/
def funcLitsOpt : Option Stmt → List Expr
  | none => []
  | some s => funcLits s
/-- The same, for a statement list. -/
def funcLitsAll : List Stmt → List Expr
  | [] => []
  | s :: rest => funcLits s ++ funcLitsAll rest
end

namespace Ex

/-- The body of `func one() (x int) { x = 1; return }`: a named result and a
return without results. -/
def namedResultBody : List Stmt :=
  [.assign [.ident "x"] .ASSIGN [.basicLit "1"], .ret []]

/-- The function literal `func() int { return 3 }`. -/
def three : Expr := .funcLit ⟨[], some [intField []]⟩ [.ret [.basicLit "3"]]

/-- The body of
`func lit(x int) int { f := func() int { return 3 }; if x > 0 { return f() }; return 0 }`. -/
def litBody : List Stmt :=
  [.assign [.ident "f"] .DEFINE [three],
   .ifStmt none (.binary (.ident "x") ">" (.basicLit "0"))
     [.ret [.call (.ident "f") []]] none,
   .ret [.basicLit "0"]]

end Ex

/-! ## Trees the call-site rewriter leaves as they are, and the blocks it builds -/

mutual
/-- The expression holds, in its function literals, only plain statements. -/
def plainExpr (K : String → Bool) : Expr → Bool
  | .ident _ => true
  | .basicLit _ => true
  | .binary x _ y => plainExpr K x && plainExpr K y
  | .selector x _ => plainExpr K x
  | .call fn args => plainExpr K fn && plainExprs K args
  | .funcLit _ body => plainStmts K body
/-- The same, for a list of expressions. -/
def plainExprs (K : String → Bool) : List Expr → Bool
  | [] => true
  | e :: es => plainExpr K e && plainExprs K es
/-- The same, for the values of a list of specs. -/
def plainSpecs (K : String → Bool) : List Spec → Bool
  | [] => true
  | .value _ _ values :: rest => plainExprs K values && plainSpecs K rest
/-- The statement is plain for the keys `K`: it holds no call site of a
registered function (no assignment whose first right-hand expression is a call
of a key, no call of a key as a statement), and every assignment in it has a
right-hand expression, as in every parsed program. -/
def plainStmt (K : String → Bool) : Stmt → Bool
  | .assign _ _ [] => false
  | .assign lhs _ (r :: rest) =>
    !isKeyCall K r && plainExprs K lhs && plainExpr K r && plainExprs K rest
  | .exprStmt x => !isKeyCall K x && plainExpr K x
  | .ret results => plainExprs K results
  | .block list => plainStmts K list
  | .ifStmt init cond body els =>
    plainOptStmt K init && plainExpr K cond && plainStmts K body && plainOptStmt K els
  | .declStmt _ specs => plainSpecs K specs
  | .empty _ => true
  | .labeled _ s => plainStmt K s
  | .branch _ _ => true
/-- The same, for an optional statement. -/
def plainOptStmt (K : String → Bool) : Option Stmt → Bool
  | none => true
  | some s => plainStmt K s
/-- The same, for a statement list. -/
def plainStmts (K : String → Bool) : List Stmt → Bool
  | [] => true
  | s :: rest => plainStmt K s && plainStmts K rest
end

/-- The statements of a body rewritten in capture mode, as the specification
words it: the statements before the final return with every return replaced
by its assignments and a jump to `label`, the block of the assignments of the
final return, and the labeled no-op when a return was replaced. -/
def captureBody (names : List String) (label : String) (body : List Stmt) : List Stmt :=
  captureStmts names label (splitFinalReturn body).1 ++
    [.block (List.zipWith captureAssign names (splitFinalReturn body).2)] ++
    (if hasReturns (splitFinalReturn body).1 then [.labeled label (.empty true)] else [])

/-- The statements of a body rewritten in discard mode, as the specification
words it: nothing for an empty body; else the statements before the final
return with every return replaced by a jump to `label`, a no-op in place of
the final return, and the labeled no-op when a return was replaced. -/
def discardBody (label : String) : List Stmt → List Stmt
  | [] => []
  | s :: rest =>
    jumpStmts label (splitFinalReturn (s :: rest)).1 ++ [.empty false] ++
      (if hasReturns (splitFinalReturn (s :: rest)).1 then [.labeled label (.empty true)]
        else [])

/-- The parameter-binding statement, as the specification words it: one
declaration binding each flattened parameter to its argument, or an empty
statement when there is none. -/
def bindingStmt (decl : FuncDecl) : List Expr → Stmt
  | [] => .empty false
  | a :: args =>
    .declStmt .VAR (List.zipWith bindingSpec (flattenFields decl.type.params) (a :: args))

namespace Ex

/-- The marked `func sign(x int) int { if x > 0 { return 1 } else { return 2 } }`. -/
def signDecl : FuncDecl := ⟨marker, none, "sign", ⟨[intField ["x"]], some [intField []]⟩,
  signBody⟩

/-- The function `func main() { r := sign(1) }`. -/
def mainCallsSign : FuncDecl := ⟨[], none, "main", ⟨[], none⟩,
  [.assign [.ident "r"] .DEFINE [.call (.ident "sign") [.basicLit "1"]]]⟩

/-- The marked `func loop() int { x := loop(); return x }`, which inlines itself. -/
def loopDecl : FuncDecl := ⟨marker, none, "loop", ⟨[], some [intField []]⟩,
  [.assign [.ident "x"] .DEFINE [.call (.ident "loop") []], .ret [.ident "x"]]⟩

/-- The function `func main() { r := loop() }`. -/
def mainCallsLoop : FuncDecl := ⟨[], none, "main", ⟨[], none⟩,
  [.assign [.ident "r"] .DEFINE [.call (.ident "loop") []]]⟩

/-- The marked `func spin() { spin() }`, which inlines itself. -/
def spinDecl : FuncDecl := ⟨marker, none, "spin", ⟨[], none⟩,
  [.exprStmt (.call (.ident "spin") [])]⟩

/-- The function `func main() { spin() }`. -/
def mainCallsSpin : FuncDecl := ⟨[], none, "main", ⟨[], none⟩,
  [.exprStmt (.call (.ident "spin") [])]⟩

/-- The marked `func drop(int) { }`, whose parameter has no name. -/
def dropDecl : FuncDecl := ⟨marker, none, "drop", ⟨[intField []], none⟩, []⟩

/-- The function `func main() { drop(1) }`. -/
def mainCallsDrop : FuncDecl := ⟨[], none, "main", ⟨[], none⟩,
  [.exprStmt (.call (.ident "drop") [.basicLit "1"])]⟩

/-- The function `func main() { if s := f(); s > 0 { } }`: the declaring
assignment is the init statement of the `if`. -/
def mainIfInit : FuncDecl := ⟨[], none, "main", ⟨[], none⟩,
  [.ifStmt (some (.assign [.ident "s"] .DEFINE [.call (.ident "f") []]))
    (.binary (.ident "s") ">" (.basicLit "0")) [] none]⟩

/-- The function `func main() { goto L; L: s := f(); println(s) }`: the
declaring assignment is the statement of a label. -/
def mainLabeledDefine : FuncDecl := ⟨[], none, "main", ⟨[], none⟩,
  [.branch .GOTO (some "L"),
   .labeled "L" (.assign [.ident "s"] .DEFINE [.call (.ident "f") []]),
   .exprStmt (.call (.ident "println") [.ident "s"])]⟩

end Ex

namespace Ex

/-- The function `func main() { g(1) }`. -/
def mainCallsG : FuncDecl := ⟨[], none, "main", ⟨[], none⟩, [callG]⟩

/-- The function `func main() { f(2) }`, where `f` calls `g`. -/
def mainCallsFTwo : FuncDecl := ⟨[], none, "main", ⟨[], none⟩,
  [.exprStmt (.call (.ident "f") [.basicLit "2"])]⟩

/-- The block that replaces `g(x)` in the body of `f`. -/
def gOfXInlined : Stmt :=
  .block [.declStmt .VAR [.value ["x"] (some "int") [.ident "x"]],
    .ifStmt none (.binary (.ident "x") ">" (.basicLit "0"))
      [.branch .GOTO (some "g_return_0")] none,
    .exprStmt (.call (.ident "println") [.ident "x"]),
    .empty false,
    .labeled "g_return_0" (.empty true)]

/-- The function `func main() { var a, b, c int; a, b, c = calcs(7, 9) }`. -/
def mainAssignCalcs : FuncDecl := ⟨[], none, "main", ⟨[], none⟩,
  [.declStmt .VAR [.value ["a", "b", "c"] (some "int") []],
   .assign [.ident "a", .ident "b", .ident "c"] .ASSIGN
     [.call (.ident "calcs") [.basicLit "7", .basicLit "9"]]]⟩

end Ex

/-! # Theorems -/

theorem Registry.get_put_same (r : Registry) (k : String) (d : FuncDecl) :
    (r.put k d).get k = some d := by
  induction r with
  | nil => simp [Registry.put, Registry.get]
  | cons p rest ih =>
    obtain ⟨k1, v⟩ := p
    by_cases h : k1 = k
    · simp [Registry.put, Registry.get, h]
    · simp [Registry.put, Registry.get, h, ih]

theorem Registry.get_put_other (r : Registry) (k k1 : String) (d : FuncDecl) (h : k ≠ k1) :
    (r.put k d).get k1 = r.get k1 := by
  induction r with
  | nil => simp [Registry.put, Registry.get, h]
  | cons p rest ih =>
    obtain ⟨k2, v⟩ := p
    by_cases h2 : k2 = k
    · subst h2; simp [Registry.put, Registry.get, h]
    · by_cases h3 : k2 = k1
      · subst h3; simp [Registry.put, Registry.get, h2]
      · simp [Registry.put, Registry.get, h2, h3, ih]

theorem containsChars_iff (s sub : List Char) : containsChars s sub = true ↔ sub <:+: s := by
  induction s with
  | nil => simp [containsChars, List.isEmpty_iff]
  | cons c cs ih =>
    simp only [containsChars, Bool.or_eq_true, ih, List.isPrefixOf_iff_prefix]
    constructor
    · rintro (h | h)
      · exact h.isInfix
      · exact List.IsInfix.trans h (List.suffix_cons c cs).isInfix
    · intro h
      rcases List.infix_cons_iff.mp h with h | h
      · exact Or.inl h
      · exact Or.inr h

theorem extractDecls_snd (rMap : Registry) (decls : List Decl) :
    (extractDecls rMap decls).2 = decls.filter keptDecl := by
  induction decls generalizing rMap with
  | nil => rfl
  | cons d rest ih =>
    cases d with
    | func d =>
      by_cases h : isInline d
      · simp [extractDecls, h, keptDecl, ih]
      · simp [extractDecls, h, keptDecl, ih]
    | gen tok specs => simp [extractDecls, keptDecl, ih]

theorem extractDecls_get (rMap : Registry) (decls : List Decl) (name : String) (d : FuncDecl)
    (h : (extractDecls rMap decls).1.get name = some d) :
    rMap.get name = some d ∨ (d ∈ markedDecls decls ∧ d.name = name) := by
  induction decls generalizing rMap with
  | nil => exact Or.inl h
  | cons x rest ih =>
    cases x with
    | func f =>
      by_cases hf : isInline f
      · simp only [extractDecls, hf, if_true] at h
        rcases ih _ h with h1 | ⟨h1, h2⟩
        · by_cases hn : f.name = name
          · subst hn
            rw [Registry.get_put_same] at h1
            right
            simp only [Option.some.injEq] at h1
            subst h1
            simp [markedDecls, hf]
          · rw [Registry.get_put_other _ _ _ _ hn] at h1
            exact Or.inl h1
        · right; simp [markedDecls, hf, h1, h2]
      · simp only [extractDecls, hf] at h
        rcases ih _ h with h1 | ⟨h1, h2⟩
        · exact Or.inl h1
        · right; simp [markedDecls, hf, h1, h2]
    | gen tok specs =>
      simp only [extractDecls] at h
      rcases ih _ h with h1 | ⟨h1, h2⟩
      · exact Or.inl h1
      · right; simp [markedDecls, h1, h2]

theorem extractDecls_has (rMap : Registry) (decls : List Decl) (name : String) :
    (extractDecls rMap decls).1.has name = true ↔
      (rMap.has name = true ∨ ∃ d ∈ markedDecls decls, d.name = name) := by
  induction decls generalizing rMap with
  | nil => simp [extractDecls, markedDecls]
  | cons x rest ih =>
    cases x with
    | func f =>
      by_cases hf : isInline f
      · simp only [extractDecls, hf, if_true, ih, markedDecls, List.mem_cons, exists_eq_or_imp]
        by_cases hn : f.name = name
        · subst hn; simp [Registry.has, Registry.get_put_same]
        · simp [Registry.has, Registry.get_put_other _ _ _ _ hn, hn]
      · simp [extractDecls, hf, ih, markedDecls]
    | gen tok specs => simp [extractDecls, ih, markedDecls]

theorem extractFiles_snd (rMap : Registry) (files : List (String × File)) :
    (extractFiles rMap files).2 = files.map stripFile := by
  induction files generalizing rMap with
  | nil => rfl
  | cons p rest ih =>
    obtain ⟨fn, f⟩ := p
    simp [extractFiles, ih, stripFile, extractDecls_snd]

theorem extractFiles_get (rMap : Registry) (files : List (String × File)) (name : String)
    (d : FuncDecl) (h : (extractFiles rMap files).1.get name = some d) :
    rMap.get name = some d ∨ (d ∈ markedInFiles files ∧ d.name = name) := by
  induction files generalizing rMap with
  | nil => exact Or.inl h
  | cons p rest ih =>
    obtain ⟨fn, f⟩ := p
    simp only [extractFiles] at h
    rcases ih _ h with h1 | ⟨h1, h2⟩
    · rcases extractDecls_get _ _ _ _ h1 with h3 | ⟨h3, h4⟩
      · exact Or.inl h3
      · right; simp [markedInFiles, h3, h4]
    · right; simp [markedInFiles, h1, h2]

theorem extractFiles_has (rMap : Registry) (files : List (String × File)) (name : String) :
    (extractFiles rMap files).1.has name = true ↔
      (rMap.has name = true ∨ ∃ d ∈ markedInFiles files, d.name = name) := by
  induction files generalizing rMap with
  | nil => simp [extractFiles, markedInFiles]
  | cons p rest ih =>
    obtain ⟨fn, f⟩ := p
    simp only [extractFiles, ih, extractDecls_has, markedInFiles, List.mem_append]
    constructor
    · rintro ((h | ⟨d, h1, h2⟩) | ⟨d, h1, h2⟩)
      · exact Or.inl h
      · exact Or.inr ⟨d, Or.inl h1, h2⟩
      · exact Or.inr ⟨d, Or.inr h1, h2⟩
    · rintro (h | ⟨d, h1 | h1, h2⟩)
      · exact Or.inl (Or.inl h)
      · exact Or.inl (Or.inr ⟨d, h1, h2⟩)
      · exact Or.inr ⟨d, h1, h2⟩

theorem mem_markedDecls (decls : List Decl) (d : FuncDecl) :
    d ∈ markedDecls decls ↔ (Decl.func d ∈ decls ∧
      ∃ dec ∈ d.decs, "[always_inline]".toList <:+: dec.toList) := by
  have hin : ∀ f : FuncDecl, isInline f = true ↔
      ∃ dec ∈ f.decs, "[always_inline]".toList <:+: dec.toList := by
    intro f
    simp [isInline, strContains, containsChars_iff]
  induction decls with
  | nil => simp [markedDecls]
  | cons x rest ih =>
    cases x with
    | func f =>
      by_cases hf : isInline f
      · simp only [markedDecls, hf, if_true, List.mem_cons, ih, Decl.func.injEq]
        constructor
        · rintro (h | h)
          · subst h; exact ⟨Or.inl rfl, (hin d).mp hf⟩
          · exact ⟨Or.inr h.1, h.2⟩
        · rintro ⟨h | h, h2⟩
          · exact Or.inl h
          · exact Or.inr ⟨h, h2⟩
      · have hf1 : isInline f = false := by simpa using hf
        simp only [markedDecls, hf1, Bool.false_eq_true, if_false, List.mem_cons, ih,
          Decl.func.injEq]
        constructor
        · rintro ⟨h, h2⟩; exact ⟨Or.inr h, h2⟩
        · rintro ⟨h | h, h2⟩
          · subst h; exact absurd ((hin d).mpr h2) hf
          · exact ⟨h, h2⟩
    | gen tok specs => simp [markedDecls, ih]

/-- C8: `extractInlineFuncs` returns a registry whose keys are exactly the names
of the function declarations with a leading decoration containing
`[always_inline]`, each key mapped to such a declaration of that name, and
leaves every file with exactly those declarations removed, the others
unchanged and in order. -/
theorem extractInlineFuncs_registry_and_files (pkg : Package) :
    (∀ name, (extractInlineFuncs pkg).1.has name = true ↔
        ∃ d ∈ markedInFiles pkg.files, d.name = name) ∧
    (∀ name d, (extractInlineFuncs pkg).1.get name = some d →
        d ∈ markedInFiles pkg.files ∧ d.name = name) ∧
    (extractInlineFuncs pkg).2.files = pkg.files.map stripFile ∧
    (extractInlineFuncs pkg).2.name = pkg.name ∧
    (∀ (decls : List Decl) (d : FuncDecl), d ∈ markedDecls decls ↔
        (Decl.func d ∈ decls ∧ ∃ dec ∈ d.decs, "[always_inline]".toList <:+: dec.toList)) ∧
    (∀ x : Decl, keptDecl x = false ↔
        ∃ d, x = .func d ∧ ∃ dec ∈ d.decs, "[always_inline]".toList <:+: dec.toList) := by
  have hin : ∀ f : FuncDecl, isInline f = true ↔
      ∃ dec ∈ f.decs, "[always_inline]".toList <:+: dec.toList := by
    intro f
    simp [isInline, strContains, containsChars_iff]
  refine ⟨?_, ?_, ?_, rfl, mem_markedDecls, ?_⟩
  · intro name
    have h := extractFiles_has [] pkg.files name
    simpa [extractInlineFuncs, Registry.has, Registry.get] using h
  · intro name d h
    rcases extractFiles_get [] pkg.files name d h with h1 | h1
    · simp [Registry.get] at h1
    · exact h1
  · simp [extractInlineFuncs, extractFiles_snd]
  · intro x
    cases x with
    | func f => simpa [keptDecl] using hin f
    | gen tok specs => simp [keptDecl]

/-- C3: evaluation of the code where the claim fails.  With `f` and `g`
registered, `a, b := f(), g()` raises the unsupported-construct condition, but
`a, b = 1, f()`, whose call to `f` is the second right-hand expression, is
returned unchanged: only `n.Rhs[0]` is examined. -/
theorem inlineFunc_multi_rhs_second_call_passes :
    inlineFunc 2 Ex.regFG (.funcDecl ⟨[], none, "main", ⟨[], none⟩, [Ex.assignTwoCalls]⟩)
      = .error .multiRhs ∧
    inlineFunc 2 Ex.regFG (.funcDecl Ex.mainSecondCall)
      = .ok (Ex.regFG, .funcDecl Ex.mainSecondCall) ∧
    (∀ fuel, inlineFunc (fuel + 1) Ex.regFG (.funcDecl Ex.mainSecondCall)
      = .ok (Ex.regFG, .funcDecl Ex.mainSecondCall)) :=
  ⟨rfl, rfl, fun _ => rfl⟩

/-- C4: evaluation of the code where the claim fails.  In `g(1); f(2)`, where
`g` has an early return and `f` calls `g`, both call sites of `g` are rewritten
with an exit label, and both labels are `g_return_0`: the counter of the
nested `inlineFunc` call starts again at 0. -/
theorem inlineFunc_nested_exit_labels_collide :
    (resultDecl (inlineFunc 3 Ex.regEarly (.funcDecl Ex.mainGF))).map
        (fun d => declaredLabelsList d.body) = some ["g_return_0", "g_return_0"] ∧
    ¬ (["g_return_0", "g_return_0"] : List String).Nodup := by
  refine ⟨rfl, ?_⟩
  decide

/-- C10: evaluation of the code where the claim fails.  A marked function with
an unnamed parameter, called as a statement, makes `inlineFunc` fail with an
index out of range at `formalParam.Names[0]`, whatever the fuel. -/
theorem inlineFunc_unnamed_parameter_panics (fuel : Nat) :
    inlineFunc (fuel + 2) [("f", Ex.fUnnamed)] (.funcDecl Ex.mainCallsF)
      = .error .indexOutOfRange ∧
    getFormalParamReassignments Ex.fUnnamed [.basicLit "1"] = .error .indexOutOfRange :=
  ⟨rfl, rfl⟩

/-- C1: evaluation of the code where the claim fails.  For `x := sub(b, a)`
with `a = 1`, `b = 2` and `func sub(a, b int) int { return a - b }`, the
normal call gives `x = 1`.  `inlineFunc` binds the parameters with
`var (a int = b; b int = a)`, whose second spec reads the new `a`: the
parameter `b` receives 2, not the value 1 of its argument, and the rewritten
program gives `x = 0`. -/
theorem inlineFunc_parameter_binding_changes_value :
    (resultDecl (inlineFunc 2 [("sub", Ex.sub)] (.funcDecl Ex.mainSub))).map (fun d => d.body)
      = some Ex.mainSubInlined ∧
    getFormalParamReassignments Ex.sub [.ident "b", .ident "a"]
      = .ok (.declStmt .VAR [.value ["a"] (some "int") [.ident "b"],
                            .value ["b"] (some "int") [.ident "a"]]) ∧
    valueAfter [("sub", Ex.sub)] 20 Ex.mainSub.body "x" = some 1 ∧
    valueAfter [] 20 Ex.mainSubInlined "x" = some 0 ∧
    execSpecs [("b", 2), ("a", 1)] [.value ["a"] (some "int") [.ident "b"],
        .value ["b"] (some "int") [.ident "a"]]
      = some [("b", 2), ("a", 2), ("b", 2), ("a", 1)] :=
  ⟨rfl, rfl, rfl, rfl, rfl⟩

theorem callToFuncDecl_none {K : String → Bool} {reg : Registry} (hK : ∀ k, reg.has k = K k)
    (fn : Expr) (h : isKeyIdent K fn = false) : callToFuncDecl reg fn = none := by
  cases fn <;> simp [callToFuncDecl]
  rename_i name
  have h1 := hK name
  simp only [isKeyIdent] at h
  rw [h] at h1
  cases hg : reg.get name with
  | none => rfl
  | some d => simp [Registry.has, hg] at h1

theorem callToFuncDecl_some {K : String → Bool} {reg : Registry} (hK : ∀ k, reg.has k = K k)
    {fn : Expr} {key : String} {info : FuncDecl} (h : callToFuncDecl reg fn = some (key, info)) :
    fn = .ident key ∧ reg.get key = some info ∧ isKeyIdent K fn = true := by
  cases fn <;> simp [callToFuncDecl] at h
  rename_i name
  split at h
  · cases h
  · rename_i info1 hi
    simp only [Option.some.injEq, Prod.mk.injEq] at h
    obtain ⟨rfl, rfl⟩ := h
    refine ⟨rfl, hi, ?_⟩
    have h1 := hK name
    simp only [Registry.has, hi, Option.isSome_some] at h1
    simp [isKeyIdent, ← h1]

mutual
theorem ilExpr_same {K : String → Bool} (rec : Inliner) :
    ∀ (e : Expr) (reg : Registry) (idx : Nat) (r : Registry) (i : Nat) (e1 : Expr),
      (∀ k, reg.has k = K k) → okExpr K siteFree e = true →
      ilExpr rec reg idx e = .ok (r, i, e1) → r = reg ∧ i = idx ∧ e1 = e
  | .ident _, reg, idx, _, _, _, hK, hok, h => by
    simp only [ilExpr, Except.ok.injEq, Prod.mk.injEq] at h
    obtain ⟨rfl, rfl, rfl⟩ := h
    exact ⟨rfl, rfl, rfl⟩
  | .basicLit _, reg, idx, _, _, _, hK, hok, h => by
    simp only [ilExpr, Except.ok.injEq, Prod.mk.injEq] at h
    obtain ⟨rfl, rfl, rfl⟩ := h
    exact ⟨rfl, rfl, rfl⟩
  | .binary x _ y, reg, idx, _, _, _, hK, hok, h => by
    simp only [okExpr, Bool.and_eq_true] at hok
    simp only [ilExpr] at h
    split at h
    · cases h
    · rename_i r0_0 r0_1 r0_2 h0
      obtain ⟨rfl, rfl, rfl⟩ := ilExpr_same rec x _ _ _ _ _ hK hok.1 h0
      split at h
      · cases h
      · rename_i r1_0 r1_1 r1_2 h1
        obtain ⟨rfl, rfl, rfl⟩ := ilExpr_same rec y _ _ _ _ _ hK hok.2 h1
        simp only [Except.ok.injEq, Prod.mk.injEq] at h
        obtain ⟨rfl, rfl, rfl⟩ := h
        exact ⟨rfl, rfl, rfl⟩
  | .selector x _, reg, idx, _, _, _, hK, hok, h => by
    simp only [okExpr] at hok
    simp only [ilExpr] at h
    split at h
    · cases h
    · rename_i r0_0 r0_1 r0_2 h0
      obtain ⟨rfl, rfl, rfl⟩ := ilExpr_same rec x _ _ _ _ _ hK hok h0
      simp only [Except.ok.injEq, Prod.mk.injEq] at h
      obtain ⟨rfl, rfl, rfl⟩ := h
      exact ⟨rfl, rfl, rfl⟩
  | .call fn args, reg, idx, _, _, _, hK, hok, h => by
    simp only [okExpr, Bool.and_eq_true] at hok
    simp only [ilExpr] at h
    split at h
    · cases h
    · rename_i r0_0 r0_1 r0_2 h0
      obtain ⟨rfl, rfl, rfl⟩ := ilExpr_same rec fn _ _ _ _ _ hK hok.1.2 h0
      split at h
      · cases h
      · rename_i r1_0 r1_1 r1_2 h1
        obtain ⟨rfl, rfl, rfl⟩ := ilExprs_same rec args _ _ _ _ _ hK hok.2 h1
        simp only [Except.ok.injEq, Prod.mk.injEq] at h
        obtain ⟨rfl, rfl, rfl⟩ := h
        exact ⟨rfl, rfl, rfl⟩
  | .funcLit _ body, reg, idx, _, _, _, hK, hok, h => by
    simp only [okExpr] at hok
    simp only [ilExpr] at h
    split at h
    · cases h
    · rename_i r0_0 r0_1 r0_2 h0
      obtain ⟨rfl, rfl, rfl⟩ := ilStmts_same rec body _ _ _ _ _ hK hok h0
      simp only [Except.ok.injEq, Prod.mk.injEq] at h
      obtain ⟨rfl, rfl, rfl⟩ := h
      exact ⟨rfl, rfl, rfl⟩
termination_by structural e => e
theorem ilExprs_same {K : String → Bool} (rec : Inliner) :
    ∀ (e : List Expr) (reg : Registry) (idx : Nat) (r : Registry) (i : Nat) (e1 : List Expr),
      (∀ k, reg.has k = K k) → okExprs K siteFree e = true →
      ilExprs rec reg idx e = .ok (r, i, e1) → r = reg ∧ i = idx ∧ e1 = e
  | [], reg, idx, _, _, _, hK, hok, h => by
    simp only [ilExprs, Except.ok.injEq, Prod.mk.injEq] at h
    obtain ⟨rfl, rfl, rfl⟩ := h
    exact ⟨rfl, rfl, rfl⟩
  | x :: rest, reg, idx, _, _, _, hK, hok, h => by
    simp only [okExprs, Bool.and_eq_true] at hok
    simp only [ilExprs] at h
    split at h
    · cases h
    · rename_i r0_0 r0_1 r0_2 h0
      obtain ⟨rfl, rfl, rfl⟩ := ilExpr_same rec x _ _ _ _ _ hK hok.1 h0
      split at h
      · cases h
      · rename_i r1_0 r1_1 r1_2 h1
        obtain ⟨rfl, rfl, rfl⟩ := ilExprs_same rec rest _ _ _ _ _ hK hok.2 h1
        simp only [Except.ok.injEq, Prod.mk.injEq] at h
        obtain ⟨rfl, rfl, rfl⟩ := h
        exact ⟨rfl, rfl, rfl⟩
termination_by structural e => e
theorem ilSpecs_same {K : String → Bool} (rec : Inliner) :
    ∀ (e : List Spec) (reg : Registry) (idx : Nat) (r : Registry) (i : Nat) (e1 : List Spec),
      (∀ k, reg.has k = K k) → okSpecs K siteFree e = true →
      ilSpecs rec reg idx e = .ok (r, i, e1) → r = reg ∧ i = idx ∧ e1 = e
  | [], reg, idx, _, _, _, hK, hok, h => by
    simp only [ilSpecs, Except.ok.injEq, Prod.mk.injEq] at h
    obtain ⟨rfl, rfl, rfl⟩ := h
    exact ⟨rfl, rfl, rfl⟩
  | .value _ _ values :: rest, reg, idx, _, _, _, hK, hok, h => by
    simp only [okSpecs, Bool.and_eq_true] at hok
    simp only [ilSpecs] at h
    split at h
    · cases h
    · rename_i r0_0 r0_1 r0_2 h0
      obtain ⟨rfl, rfl, rfl⟩ := ilExprs_same rec values _ _ _ _ _ hK hok.1 h0
      split at h
      · cases h
      · rename_i r1_0 r1_1 r1_2 h1
        obtain ⟨rfl, rfl, rfl⟩ := ilSpecs_same rec rest _ _ _ _ _ hK hok.2 h1
        simp only [Except.ok.injEq, Prod.mk.injEq] at h
        obtain ⟨rfl, rfl, rfl⟩ := h
        exact ⟨rfl, rfl, rfl⟩
termination_by structural e => e
theorem ilStmt_same {K : String → Bool} (rec : Inliner) :
    ∀ (e : Stmt) (inList : Bool) (reg : Registry) (idx : Nat) (r : Registry) (i : Nat)
      (b : Option Stmt) (e1 : Stmt), (∀ k, reg.has k = K k) →
      okStmt K siteFree e = true → ilStmt rec inList reg idx e = .ok (r, i, b, e1) →
      r = reg ∧ i = idx ∧ b = none ∧ e1 = e
  | .assign lhs tok rhs, _, reg, idx, _, _, _, _, hK, hok, h => by
    cases rhs with
    | nil => simp [ilStmt] at h
    | cons r0 rest =>
      cases r0
      case call fn args =>
        simp only [okStmt] at hok
        split at hok
        · simp [siteFree] at hok
        · rename_i hk
          simp only [Bool.and_eq_true] at hok
          simp only [ilStmt, callToFuncDecl_none hK fn (by simpa using hk)] at h
          split at h
          · cases h
          · rename_i r0_0 r0_1 r0_2 h0
            obtain ⟨rfl, rfl, rfl⟩ := ilExprs_same rec lhs _ _ _ _ _ hK hok.1.1.1 h0
            split at h
            · cases h
            · rename_i r1_0 r1_1 r1_2 h1
              obtain ⟨rfl, rfl, rfl⟩ := ilExpr_same rec fn _ _ _ _ _ hK hok.1.1.2 h1
              split at h
              · cases h
              · rename_i r2_0 r2_1 r2_2 h2
                obtain ⟨rfl, rfl, rfl⟩ := ilExprs_same rec args _ _ _ _ _ hK hok.1.2 h2
                split at h
                · cases h
                · rename_i r3_0 r3_1 r3_2 h3
                  obtain ⟨rfl, rfl, rfl⟩ := ilExprs_same rec rest _ _ _ _ _ hK hok.2 h3
                  simp only [Except.ok.injEq, Prod.mk.injEq] at h
                  obtain ⟨rfl, rfl, rfl, rfl⟩ := h
                  exact ⟨rfl, rfl, rfl, rfl⟩
      all_goals
        simp only [okStmt, Bool.and_eq_true] at hok
        simp only [ilStmt] at h
        split at h
        · cases h
        · rename_i r0_0 r0_1 r0_2 h0
          obtain ⟨rfl, rfl, rfl⟩ := ilExprs_same rec lhs _ _ _ _ _ hK hok.1.1 h0
          split at h
          · cases h
          · rename_i r1_0 r1_1 r1_2 h1
            obtain ⟨rfl, rfl, rfl⟩ := ilExpr_same rec _ _ _ _ _ _ hK hok.1.2 h1
            split at h
            · cases h
            · rename_i r2_0 r2_1 r2_2 h2
              obtain ⟨rfl, rfl, rfl⟩ := ilExprs_same rec rest _ _ _ _ _ hK hok.2 h2
              simp only [Except.ok.injEq, Prod.mk.injEq] at h
              obtain ⟨rfl, rfl, rfl, rfl⟩ := h
              exact ⟨rfl, rfl, rfl, rfl⟩
  | .exprStmt x, _, reg, idx, _, _, _, _, hK, hok, h => by
    cases x
    case call fn args =>
      simp only [okStmt] at hok
      split at hok
      · simp [siteFree] at hok
      · rename_i hk
        simp only [Bool.and_eq_true] at hok
        simp only [ilStmt, callToFuncDecl_none hK fn (by simpa using hk)] at h
        split at h
        · cases h
        · rename_i r0_0 r0_1 r0_2 h0
          obtain ⟨rfl, rfl, rfl⟩ := ilExpr_same rec fn _ _ _ _ _ hK hok.1 h0
          split at h
          · cases h
          · rename_i r1_0 r1_1 r1_2 h1
            obtain ⟨rfl, rfl, rfl⟩ := ilExprs_same rec args _ _ _ _ _ hK hok.2 h1
            simp only [Except.ok.injEq, Prod.mk.injEq] at h
            obtain ⟨rfl, rfl, rfl, rfl⟩ := h
            exact ⟨rfl, rfl, rfl, rfl⟩
    all_goals
      simp only [okStmt] at hok
      simp only [ilStmt] at h
      split at h
      · cases h
      · rename_i r0_0 r0_1 r0_2 h0
        obtain ⟨rfl, rfl, rfl⟩ := ilExpr_same rec _ _ _ _ _ _ hK hok h0
        simp only [Except.ok.injEq, Prod.mk.injEq] at h
        obtain ⟨rfl, rfl, rfl, rfl⟩ := h
        exact ⟨rfl, rfl, rfl, rfl⟩
  | .ret results, _, reg, idx, _, _, _, _, hK, hok, h => by
    simp only [okStmt, Bool.and_eq_true] at hok
    simp only [ilStmt] at h
    split at h
    · cases h
    · rename_i r0_0 r0_1 r0_2 h0
      obtain ⟨rfl, rfl, rfl⟩ := ilExprs_same rec results _ _ _ _ _ hK hok.2 h0
      simp only [Except.ok.injEq, Prod.mk.injEq] at h
      obtain ⟨rfl, rfl, rfl, rfl⟩ := h
      exact ⟨rfl, rfl, rfl, rfl⟩
  | .block list, _, reg, idx, _, _, _, _, hK, hok, h => by
    simp only [okStmt] at hok
    simp only [ilStmt] at h
    split at h
    · cases h
    · rename_i r0_0 r0_1 r0_2 h0
      obtain ⟨rfl, rfl, rfl⟩ := ilStmts_same rec list _ _ _ _ _ hK hok h0
      simp only [Except.ok.injEq, Prod.mk.injEq] at h
      obtain ⟨rfl, rfl, rfl, rfl⟩ := h
      exact ⟨rfl, rfl, rfl, rfl⟩
  | .ifStmt init cond body els, _, reg, idx, _, _, _, _, hK, hok, h => by
    simp only [okStmt, Bool.and_eq_true] at hok
    simp only [ilStmt] at h
    split at h
    · cases h
    · rename_i r0_0 r0_1 r0_2 h0
      obtain ⟨rfl, rfl, rfl⟩ := ilOptStmt_same rec init _ _ _ _ _ hK hok.1.1.1 h0
      split at h
      · cases h
      · rename_i r1_0 r1_1 r1_2 h1
        obtain ⟨rfl, rfl, rfl⟩ := ilExpr_same rec cond _ _ _ _ _ hK hok.1.1.2 h1
        split at h
        · cases h
        · rename_i r2_0 r2_1 r2_2 h2
          obtain ⟨rfl, rfl, rfl⟩ := ilStmts_same rec body _ _ _ _ _ hK hok.1.2 h2
          split at h
          · cases h
          · rename_i r3_0 r3_1 r3_2 h3
            obtain ⟨rfl, rfl, rfl⟩ := ilOptStmt_same rec els _ _ _ _ _ hK hok.2 h3
            simp only [Except.ok.injEq, Prod.mk.injEq] at h
            obtain ⟨rfl, rfl, rfl, rfl⟩ := h
            exact ⟨rfl, rfl, rfl, rfl⟩
  | .declStmt _ specs, _, reg, idx, _, _, _, _, hK, hok, h => by
    simp only [okStmt] at hok
    simp only [ilStmt] at h
    split at h
    · cases h
    · rename_i r0_0 r0_1 r0_2 h0
      obtain ⟨rfl, rfl, rfl⟩ := ilSpecs_same rec specs _ _ _ _ _ hK hok h0
      simp only [Except.ok.injEq, Prod.mk.injEq] at h
      obtain ⟨rfl, rfl, rfl, rfl⟩ := h
      exact ⟨rfl, rfl, rfl, rfl⟩
  | .empty _, _, reg, idx, _, _, _, _, hK, hok, h => by
    simp only [ilStmt, Except.ok.injEq, Prod.mk.injEq] at h
    obtain ⟨rfl, rfl, rfl, rfl⟩ := h
    exact ⟨rfl, rfl, rfl, rfl⟩
  | .labeled _ s, _, reg, idx, _, _, _, _, hK, hok, h => by
    simp only [okStmt] at hok
    simp only [ilStmt] at h
    split at h
    · cases h
    · rename_i r0_0 r0_1 r0_2 r0_3 h0
      obtain ⟨rfl, rfl, rfl, rfl⟩ := ilStmt_same rec s _ _ _ _ _ _ _ hK hok h0
      simp only [Except.ok.injEq, Prod.mk.injEq] at h
      obtain ⟨rfl, rfl, rfl, rfl⟩ := h
      exact ⟨rfl, rfl, rfl, rfl⟩
  | .branch _ _, _, reg, idx, _, _, _, _, hK, hok, h => by
    simp only [ilStmt, Except.ok.injEq, Prod.mk.injEq] at h
    obtain ⟨rfl, rfl, rfl, rfl⟩ := h
    exact ⟨rfl, rfl, rfl, rfl⟩
termination_by structural e => e
theorem ilOptStmt_same {K : String → Bool} (rec : Inliner) :
    ∀ (e : Option Stmt) (reg : Registry) (idx : Nat) (r : Registry) (i : Nat) (e1 : Option Stmt),
      (∀ k, reg.has k = K k) → okOptStmt K siteFree e = true →
      ilOptStmt rec reg idx e = .ok (r, i, e1) → r = reg ∧ i = idx ∧ e1 = e
  | none, reg, idx, _, _, _, hK, hok, h => by
    simp only [ilOptStmt, Except.ok.injEq, Prod.mk.injEq] at h
    obtain ⟨rfl, rfl, rfl⟩ := h
    exact ⟨rfl, rfl, rfl⟩
  | some s, reg, idx, _, _, _, hK, hok, h => by
    simp only [okOptStmt] at hok
    simp only [ilOptStmt] at h
    split at h
    · cases h
    · rename_i r0_0 r0_1 r0_2 r0_3 h0
      obtain ⟨rfl, rfl, rfl, rfl⟩ := ilStmt_same rec s _ _ _ _ _ _ _ hK hok h0
      simp only [Except.ok.injEq, Prod.mk.injEq] at h
      obtain ⟨rfl, rfl, rfl⟩ := h
      exact ⟨rfl, rfl, rfl⟩
termination_by structural e => e
theorem ilStmts_same {K : String → Bool} (rec : Inliner) :
    ∀ (e : List Stmt) (reg : Registry) (idx : Nat) (r : Registry) (i : Nat) (e1 : List Stmt),
      (∀ k, reg.has k = K k) → okStmts K siteFree e = true →
      ilStmts rec reg idx e = .ok (r, i, e1) → r = reg ∧ i = idx ∧ e1 = e
  | [], reg, idx, _, _, _, hK, hok, h => by
    simp only [ilStmts, Except.ok.injEq, Prod.mk.injEq] at h
    obtain ⟨rfl, rfl, rfl⟩ := h
    exact ⟨rfl, rfl, rfl⟩
  | s :: rest, reg, idx, _, _, _, hK, hok, h => by
    simp only [okStmts, Bool.and_eq_true] at hok
    simp only [ilStmts] at h
    split at h
    · cases h
    · rename_i r0_0 r0_1 r0_2 r0_3 h0
      obtain ⟨rfl, rfl, rfl, rfl⟩ := ilStmt_same rec s _ _ _ _ _ _ _ hK hok.1 h0
      split at h
      · cases h
      · rename_i r1_0 r1_1 r1_2 h1
        obtain ⟨rfl, rfl, rfl⟩ := ilStmts_same rec rest _ _ _ _ _ hK hok.2 h1
        simp only [Except.ok.injEq, Prod.mk.injEq, Option.toList, List.nil_append] at h
        obtain ⟨rfl, rfl, rfl⟩ := h
        exact ⟨rfl, rfl, rfl⟩
termination_by structural e => e
end

theorem Related.same (K : String → Bool) (d : FuncDecl) : Related K d d :=
  ⟨⟨rfl, rfl, rfl, rfl⟩, fun _ => rfl⟩

theorem Related.chain {K : String → Bool} {a b c : FuncDecl} (h1 : Related K a b)
    (h2 : Related K b c) : Related K a c := by
  refine ⟨⟨h2.1.1.trans h1.1.1, h2.1.2.1.trans h1.1.2.1, h2.1.2.2.1.trans h1.1.2.2.1,
    h2.1.2.2.2.trans h1.1.2.2.2⟩, ?_⟩
  intro ha
  have hb := h1.2 ha
  subst hb
  exact h2.2 ha

theorem Registry.Frame.refl (K : String → Bool) (reg : Registry) : Registry.Frame K reg reg := by
  induction reg with
  | nil => exact List.Forall₂.nil
  | cons p rest ih => exact List.Forall₂.cons ⟨rfl, Related.same K _⟩ ih

theorem Registry.Frame.trans {K : String → Bool} {a b c : Registry}
    (h1 : Registry.Frame K a b) (h2 : Registry.Frame K b c) : Registry.Frame K a c := by
  induction h1 generalizing c with
  | nil => cases h2; exact List.Forall₂.nil
  | cons hp _ ih =>
    cases h2 with
    | cons hq hrest => exact List.Forall₂.cons ⟨hq.1.trans hp.1, hp.2.chain hq.2⟩ (ih hrest)

theorem Registry.Frame.get {K : String → Bool} {a b : Registry} (h : Registry.Frame K a b)
    (k : String) :
    (a.get k = none ∧ b.get k = none) ∨
    ∃ d d1, a.get k = some d ∧ b.get k = some d1 ∧ Related K d d1 := by
  induction h with
  | nil => exact Or.inl ⟨rfl, rfl⟩
  | @cons p q l1 l2 hp _ ih =>
    obtain ⟨k1, v1⟩ := p
    obtain ⟨k2, v2⟩ := q
    obtain ⟨hk, hs⟩ := hp
    simp only at hk hs
    subst hk
    by_cases hkk : k2 = k
    · right; exact ⟨v1, v2, by simp [Registry.get, hkk], by simp [Registry.get, hkk], hs⟩
    · simpa [Registry.get, hkk] using ih

theorem Registry.Frame.keys {K : String → Bool} {a b : Registry} (h : Registry.Frame K a b) :
    b.keys = a.keys := by
  induction h with
  | nil => rfl
  | cons hp _ ih => simp [Registry.keys] at ih ⊢; exact ⟨hp.1, ih⟩

theorem Registry.Frame.has {K : String → Bool} {a b : Registry} (h : Registry.Frame K a b)
    (k : String) : b.has k = a.has k := by
  rcases h.get k with ⟨h1, h2⟩ | ⟨d, d1, h1, h2, _⟩ <;> simp [Registry.has, h1, h2]

theorem Registry.Frame.put {K : String → Bool} {reg0 reg : Registry} (key : String)
    (d0 d1 : FuncDecl) (hf : Registry.Frame K reg0 reg) (hg : reg0.get key = some d0)
    (hs : Related K d0 d1) : Registry.Frame K reg0 (reg.put key d1) := by
  induction hf with
  | nil => simp [Registry.get] at hg
  | @cons p q l1 l2 hp hrest ih =>
    obtain ⟨k1, v1⟩ := p
    obtain ⟨k2, v2⟩ := q
    obtain ⟨hk, hr⟩ := hp
    simp only at hk hr
    subst hk
    by_cases hkk : k2 = key
    · simp only [Registry.get, hkk, if_true, Option.some.injEq] at hg
      subst hg
      simp only [Registry.put, hkk, if_true]
      exact List.Forall₂.cons ⟨rfl, hs⟩ hrest
    · simp only [Registry.get, hkk, if_false] at hg
      simp only [Registry.put, hkk, if_false]
      exact List.Forall₂.cons ⟨rfl, hr⟩ (ih hg)

/-- The registry after the recursive call on an entry, with the entry
replaced by the rewritten declaration, is in the frame of the first
registry. -/
theorem Registry.Frame.step {K : String → Bool} {rec : Inliner} (hrec : rec.Framed K)
    {reg0 reg r0 : Registry} (hK : ∀ k, reg0.has k = K k) (hf : Registry.Frame K reg0 reg)
    {fn : Expr} {key : String} {info funcDecl : FuncDecl}
    (hc : callToFuncDecl reg fn = some (key, info)) (hr : rec reg info = .ok (r0, funcDecl)) :
    Registry.Frame K reg0 (r0.put key funcDecl) := by
  have hKr : ∀ k, reg.has k = K k := fun k => (hf.has k).trans (hK k)
  obtain ⟨_, hget, _⟩ := callToFuncDecl_some hKr hc
  obtain ⟨hf1, hs⟩ := hrec _ _ _ _ hKr hr
  rcases hf.get key with ⟨_, h2⟩ | ⟨d, d1, h1, h2, h3⟩
  · rw [hget] at h2; cases h2
  · rw [hget] at h2
    simp only [Option.some.injEq] at h2
    subst h2
    exact Registry.Frame.put key d funcDecl (hf.trans hf1) h1 (h3.chain hs)

mutual
theorem ilExpr_frame {K : String → Bool} {rec : Inliner} (hrec : rec.Framed K)
    {reg0 : Registry} (hK : ∀ k, reg0.has k = K k) :
    ∀ (e : Expr) (reg : Registry) (idx : Nat) (r : Registry) (i : Nat) (e1 : Expr),
      Registry.Frame K reg0 reg → ilExpr rec reg idx e = .ok (r, i, e1) → Registry.Frame K reg0 r
  | .ident _, reg, idx, _, _, _, hf, h => by
    simp only [ilExpr, Except.ok.injEq, Prod.mk.injEq] at h
    obtain ⟨rfl, _⟩ := h
    exact hf
  | .basicLit _, reg, idx, _, _, _, hf, h => by
    simp only [ilExpr, Except.ok.injEq, Prod.mk.injEq] at h
    obtain ⟨rfl, _⟩ := h
    exact hf
  | .binary x _ y, reg, idx, _, _, _, hf, h => by
    simp only [ilExpr] at h
    split at h
    · cases h
    · rename_i r0_0 r0_1 r0_2 h0
      have f0 := ilExpr_frame hrec hK x _ _ _ _ _ hf h0
      split at h
      · cases h
      · rename_i r1_0 r1_1 r1_2 h1
        have f1 := ilExpr_frame hrec hK y _ _ _ _ _ f0 h1
        simp only [Except.ok.injEq, Prod.mk.injEq] at h
        obtain ⟨rfl, _⟩ := h
        exact f1
  | .selector x _, reg, idx, _, _, _, hf, h => by
    simp only [ilExpr] at h
    split at h
    · cases h
    · rename_i r0_0 r0_1 r0_2 h0
      have f0 := ilExpr_frame hrec hK x _ _ _ _ _ hf h0
      simp only [Except.ok.injEq, Prod.mk.injEq] at h
      obtain ⟨rfl, _⟩ := h
      exact f0
  | .call fn args, reg, idx, _, _, _, hf, h => by
    simp only [ilExpr] at h
    split at h
    · cases h
    · rename_i r0_0 r0_1 r0_2 h0
      have f0 := ilExpr_frame hrec hK fn _ _ _ _ _ hf h0
      split at h
      · cases h
      · rename_i r1_0 r1_1 r1_2 h1
        have f1 := ilExprs_frame hrec hK args _ _ _ _ _ f0 h1
        simp only [Except.ok.injEq, Prod.mk.injEq] at h
        obtain ⟨rfl, _⟩ := h
        exact f1
  | .funcLit _ body, reg, idx, _, _, _, hf, h => by
    simp only [ilExpr] at h
    split at h
    · cases h
    · rename_i r0_0 r0_1 r0_2 h0
      have f0 := ilStmts_frame hrec hK body _ _ _ _ _ hf h0
      simp only [Except.ok.injEq, Prod.mk.injEq] at h
      obtain ⟨rfl, _⟩ := h
      exact f0
termination_by structural e => e
theorem ilExprs_frame {K : String → Bool} {rec : Inliner} (hrec : rec.Framed K)
    {reg0 : Registry} (hK : ∀ k, reg0.has k = K k) :
    ∀ (e : List Expr) (reg : Registry) (idx : Nat) (r : Registry) (i : Nat) (e1 : List Expr),
      Registry.Frame K reg0 reg → ilExprs rec reg idx e = .ok (r, i, e1) → Registry.Frame K reg0 r
  | [], reg, idx, _, _, _, hf, h => by
    simp only [ilExprs, Except.ok.injEq, Prod.mk.injEq] at h
    obtain ⟨rfl, _⟩ := h
    exact hf
  | x :: rest, reg, idx, _, _, _, hf, h => by
    simp only [ilExprs] at h
    split at h
    · cases h
    · rename_i r0_0 r0_1 r0_2 h0
      have f0 := ilExpr_frame hrec hK x _ _ _ _ _ hf h0
      split at h
      · cases h
      · rename_i r1_0 r1_1 r1_2 h1
        have f1 := ilExprs_frame hrec hK rest _ _ _ _ _ f0 h1
        simp only [Except.ok.injEq, Prod.mk.injEq] at h
        obtain ⟨rfl, _⟩ := h
        exact f1
termination_by structural e => e
theorem ilSpecs_frame {K : String → Bool} {rec : Inliner} (hrec : rec.Framed K)
    {reg0 : Registry} (hK : ∀ k, reg0.has k = K k) :
    ∀ (e : List Spec) (reg : Registry) (idx : Nat) (r : Registry) (i : Nat) (e1 : List Spec),
      Registry.Frame K reg0 reg → ilSpecs rec reg idx e = .ok (r, i, e1) → Registry.Frame K reg0 r
  | [], reg, idx, _, _, _, hf, h => by
    simp only [ilSpecs, Except.ok.injEq, Prod.mk.injEq] at h
    obtain ⟨rfl, _⟩ := h
    exact hf
  | .value _ _ values :: rest, reg, idx, _, _, _, hf, h => by
    simp only [ilSpecs] at h
    split at h
    · cases h
    · rename_i r0_0 r0_1 r0_2 h0
      have f0 := ilExprs_frame hrec hK values _ _ _ _ _ hf h0
      split at h
      · cases h
      · rename_i r1_0 r1_1 r1_2 h1
        have f1 := ilSpecs_frame hrec hK rest _ _ _ _ _ f0 h1
        simp only [Except.ok.injEq, Prod.mk.injEq] at h
        obtain ⟨rfl, _⟩ := h
        exact f1
termination_by structural e => e
theorem ilStmt_frame {K : String → Bool} {rec : Inliner} (hrec : rec.Framed K)
    {reg0 : Registry} (hK : ∀ k, reg0.has k = K k) :
    ∀ (e : Stmt) (inList : Bool) (reg : Registry) (idx : Nat) (r : Registry) (i : Nat)
      (b : Option Stmt) (e1 : Stmt), Registry.Frame K reg0 reg →
      ilStmt rec inList reg idx e = .ok (r, i, b, e1) → Registry.Frame K reg0 r
  | .assign lhs _ rhs, _, reg, idx, _, _, _, _, hf, h => by
    cases rhs with
    | nil => simp [ilStmt] at h
    | cons r0 rest =>
      cases r0
      case call fn args =>
        simp only [ilStmt] at h
        split at h
        · -- not a registered callee
          split at h
          · cases h
          · rename_i r0_0 r0_1 r0_2 h0
            have f0 := ilExprs_frame hrec hK lhs _ _ _ _ _ hf h0
            split at h
            · cases h
            · rename_i r1_0 r1_1 r1_2 h1
              have f1 := ilExpr_frame hrec hK fn _ _ _ _ _ f0 h1
              split at h
              · cases h
              · rename_i r2_0 r2_1 r2_2 h2
                have f2 := ilExprs_frame hrec hK args _ _ _ _ _ f1 h2
                split at h
                · cases h
                · rename_i r3_0 r3_1 r3_2 h3
                  have f3 := ilExprs_frame hrec hK rest _ _ _ _ _ f2 h3
                  simp only [Except.ok.injEq, Prod.mk.injEq] at h
                  obtain ⟨rfl, _⟩ := h
                  exact f3
        · rename_i key info hc
          split at h
          · cases h
          · rename_i r0 funcDecl hr
            have fs := Registry.Frame.step hrec hK hf hc hr
            split at h
            · cases h
            · split at h
              · cases h
              · split at h
                · cases h
                · split at h
                  · cases h
                  · split at h
                    · cases h
                    · rename_i r1 i1 l1 h1
                      have f1 := ilExprs_frame hrec hK lhs _ _ _ _ _ fs h1
                      split at h
                      · cases h
                      · rename_i r2 i2 x2 h2
                        have f2 := ilExpr_frame hrec hK fn _ _ _ _ _ f1 h2
                        split at h
                        · cases h
                        · rename_i r3 i3 a3 h3
                          have f3 := ilExprs_frame hrec hK args _ _ _ _ _ f2 h3
                          split at h
                          · cases h
                          · simp only [Except.ok.injEq, Prod.mk.injEq] at h
                            obtain ⟨rfl, _⟩ := h
                            exact f3
      all_goals
        simp only [ilStmt] at h
        split at h
        · cases h
        · rename_i r0_0 r0_1 r0_2 h0
          have f0 := ilExprs_frame hrec hK lhs _ _ _ _ _ hf h0
          split at h
          · cases h
          · rename_i r1_0 r1_1 r1_2 h1
            have f1 := ilExpr_frame hrec hK _ _ _ _ _ _ f0 h1
            split at h
            · cases h
            · rename_i r2_0 r2_1 r2_2 h2
              have f2 := ilExprs_frame hrec hK rest _ _ _ _ _ f1 h2
              simp only [Except.ok.injEq, Prod.mk.injEq] at h
              obtain ⟨rfl, _⟩ := h
              exact f2
  | .exprStmt x, _, reg, idx, _, _, _, _, hf, h => by
    cases x
    case call fn args =>
      simp only [ilStmt] at h
      split at h
      ·
        split at h
        · cases h
        · rename_i r0_0 r0_1 r0_2 h0
          have f0 := ilExpr_frame hrec hK fn _ _ _ _ _ hf h0
          split at h
          · cases h
          · rename_i r1_0 r1_1 r1_2 h1
            have f1 := ilExprs_frame hrec hK args _ _ _ _ _ f0 h1
            simp only [Except.ok.injEq, Prod.mk.injEq] at h
            obtain ⟨rfl, _⟩ := h
            exact f1
      · rename_i key info hc
        split at h
        · cases h
        · rename_i r0 funcDecl hr
          have fs := Registry.Frame.step hrec hK hf hc hr
          split at h
          · cases h
          · split at h
            · cases h
            · split at h
              · cases h
              · rename_i r2 i2 x2 h2
                have f2 := ilExpr_frame hrec hK fn _ _ _ _ _ fs h2
                split at h
                · cases h
                · rename_i r3 i3 a3 h3
                  have f3 := ilExprs_frame hrec hK args _ _ _ _ _ f2 h3
                  split at h
                  · cases h
                  · simp only [Except.ok.injEq, Prod.mk.injEq] at h
                    obtain ⟨rfl, _⟩ := h
                    exact f3
    all_goals
      simp only [ilStmt] at h
      split at h
      · cases h
      · rename_i r0_0 r0_1 r0_2 h0
        have f0 := ilExpr_frame hrec hK _ _ _ _ _ _ hf h0
        simp only [Except.ok.injEq, Prod.mk.injEq] at h
        obtain ⟨rfl, _⟩ := h
        exact f0
  | .ret results, _, reg, idx, _, _, _, _, hf, h => by
    simp only [ilStmt] at h
    split at h
    · cases h
    · rename_i r0_0 r0_1 r0_2 h0
      have f0 := ilExprs_frame hrec hK results _ _ _ _ _ hf h0
      simp only [Except.ok.injEq, Prod.mk.injEq] at h
      obtain ⟨rfl, _⟩ := h
      exact f0
  | .block list, _, reg, idx, _, _, _, _, hf, h => by
    simp only [ilStmt] at h
    split at h
    · cases h
    · rename_i r0_0 r0_1 r0_2 h0
      have f0 := ilStmts_frame hrec hK list _ _ _ _ _ hf h0
      simp only [Except.ok.injEq, Prod.mk.injEq] at h
      obtain ⟨rfl, _⟩ := h
      exact f0
  | .ifStmt init cond body els, _, reg, idx, _, _, _, _, hf, h => by
    simp only [ilStmt] at h
    split at h
    · cases h
    · rename_i r0_0 r0_1 r0_2 h0
      have f0 := ilOptStmt_frame hrec hK init _ _ _ _ _ hf h0
      split at h
      · cases h
      · rename_i r1_0 r1_1 r1_2 h1
        have f1 := ilExpr_frame hrec hK cond _ _ _ _ _ f0 h1
        split at h
        · cases h
        · rename_i r2_0 r2_1 r2_2 h2
          have f2 := ilStmts_frame hrec hK body _ _ _ _ _ f1 h2
          split at h
          · cases h
          · rename_i r3_0 r3_1 r3_2 h3
            have f3 := ilOptStmt_frame hrec hK els _ _ _ _ _ f2 h3
            simp only [Except.ok.injEq, Prod.mk.injEq] at h
            obtain ⟨rfl, _⟩ := h
            exact f3
  | .declStmt _ specs, _, reg, idx, _, _, _, _, hf, h => by
    simp only [ilStmt] at h
    split at h
    · cases h
    · rename_i r0_0 r0_1 r0_2 h0
      have f0 := ilSpecs_frame hrec hK specs _ _ _ _ _ hf h0
      simp only [Except.ok.injEq, Prod.mk.injEq] at h
      obtain ⟨rfl, _⟩ := h
      exact f0
  | .empty _, _, reg, idx, _, _, _, _, hf, h => by
    simp only [ilStmt, Except.ok.injEq, Prod.mk.injEq] at h
    obtain ⟨rfl, _⟩ := h
    exact hf
  | .labeled _ s, _, reg, idx, _, _, _, _, hf, h => by
    simp only [ilStmt] at h
    split at h
    · cases h
    · rename_i r0_0 r0_1 r0_2 r0_3 h0
      have f0 := ilStmt_frame hrec hK s _ _ _ _ _ _ _ hf h0
      simp only [Except.ok.injEq, Prod.mk.injEq] at h
      obtain ⟨rfl, _⟩ := h
      exact f0
  | .branch _ _, _, reg, idx, _, _, _, _, hf, h => by
    simp only [ilStmt, Except.ok.injEq, Prod.mk.injEq] at h
    obtain ⟨rfl, _⟩ := h
    exact hf
termination_by structural e => e
theorem ilOptStmt_frame {K : String → Bool} {rec : Inliner} (hrec : rec.Framed K)
    {reg0 : Registry} (hK : ∀ k, reg0.has k = K k) :
    ∀ (e : Option Stmt) (reg : Registry) (idx : Nat) (r : Registry) (i : Nat) (e1 : Option Stmt),
      Registry.Frame K reg0 reg → ilOptStmt rec reg idx e = .ok (r, i, e1) → Registry.Frame K reg0 r
  | none, reg, idx, _, _, _, hf, h => by
    simp only [ilOptStmt, Except.ok.injEq, Prod.mk.injEq] at h
    obtain ⟨rfl, _⟩ := h
    exact hf
  | some s, reg, idx, _, _, _, hf, h => by
    simp only [ilOptStmt] at h
    split at h
    · cases h
    · rename_i r0_0 r0_1 r0_2 r0_3 h0
      have f0 := ilStmt_frame hrec hK s _ _ _ _ _ _ _ hf h0
      simp only [Except.ok.injEq, Prod.mk.injEq] at h
      obtain ⟨rfl, _⟩ := h
      exact f0
termination_by structural e => e
theorem ilStmts_frame {K : String → Bool} {rec : Inliner} (hrec : rec.Framed K)
    {reg0 : Registry} (hK : ∀ k, reg0.has k = K k) :
    ∀ (e : List Stmt) (reg : Registry) (idx : Nat) (r : Registry) (i : Nat) (e1 : List Stmt),
      Registry.Frame K reg0 reg → ilStmts rec reg idx e = .ok (r, i, e1) → Registry.Frame K reg0 r
  | [], reg, idx, _, _, _, hf, h => by
    simp only [ilStmts, Except.ok.injEq, Prod.mk.injEq] at h
    obtain ⟨rfl, _⟩ := h
    exact hf
  | s :: rest, reg, idx, _, _, _, hf, h => by
    simp only [ilStmts] at h
    split at h
    · cases h
    · rename_i r0_0 r0_1 r0_2 r0_3 h0
      have f0 := ilStmt_frame hrec hK s _ _ _ _ _ _ _ hf h0
      split at h
      · cases h
      · rename_i r1_0 r1_1 r1_2 h1
        have f1 := ilStmts_frame hrec hK rest _ _ _ _ _ f0 h1
        simp only [Except.ok.injEq, Prod.mk.injEq] at h
        obtain ⟨rfl, _⟩ := h
        exact f1
termination_by structural e => e
end

theorem ilDecl_frame {K : String → Bool} {rec : Inliner} (hrec : rec.Framed K)
    {reg0 : Registry} (hK : ∀ k, reg0.has k = K k) (d : Decl) (reg : Registry) (idx : Nat)
    (r : Registry) (i : Nat) (d1 : Decl) (hf : Registry.Frame K reg0 reg)
    (h : ilDecl rec reg idx d = .ok (r, i, d1)) : Registry.Frame K reg0 r := by
  cases d with
  | func f =>
    simp only [ilDecl] at h
    split at h
    · cases h
    · rename_i r1 i1 b1 h1
      simp only [Except.ok.injEq, Prod.mk.injEq] at h
      obtain ⟨rfl, _⟩ := h
      exact ilStmts_frame hrec hK _ _ _ _ _ _ hf h1
  | gen tok specs =>
    simp only [ilDecl] at h
    split at h
    · cases h
    · rename_i r1 i1 b1 h1
      simp only [Except.ok.injEq, Prod.mk.injEq] at h
      obtain ⟨rfl, _⟩ := h
      exact ilSpecs_frame hrec hK _ _ _ _ _ _ hf h1

theorem ilDecls_frame {K : String → Bool} {rec : Inliner} (hrec : rec.Framed K)
    {reg0 : Registry} (hK : ∀ k, reg0.has k = K k) (ds : List Decl) :
    ∀ (reg : Registry) (idx : Nat) (r : Registry) (i : Nat) (ds1 : List Decl),
      Registry.Frame K reg0 reg → ilDecls rec reg idx ds = .ok (r, i, ds1) →
      Registry.Frame K reg0 r := by
  induction ds with
  | nil =>
    intro reg idx r i ds1 hf h
    simp only [ilDecls, Except.ok.injEq, Prod.mk.injEq] at h
    obtain ⟨rfl, _⟩ := h
    exact hf
  | cons d rest ih =>
    intro reg idx r i ds1 hf h
    simp only [ilDecls] at h
    split at h
    · cases h
    · rename_i r1 i1 d1 h1
      split at h
      · cases h
      · rename_i r2 i2 rest1 h2
        simp only [Except.ok.injEq, Prod.mk.injEq] at h
        obtain ⟨rfl, _⟩ := h
        exact ih _ _ _ _ _ (ilDecl_frame hrec hK _ _ _ _ _ _ hf h1) h2

theorem inlineNode_frame {K : String → Bool} {rec : Inliner} (hrec : rec.Framed K)
    {reg : Registry} (hK : ∀ k, reg.has k = K k) (n : Node) (r : Registry) (n1 : Node)
    (h : inlineNode rec reg n = .ok (r, n1)) : Registry.Frame K reg r := by
  cases n with
  | file f =>
    simp only [inlineNode] at h
    split at h
    · cases h
    · rename_i r1 i1 b1 h1
      simp only [Except.ok.injEq, Prod.mk.injEq] at h
      obtain ⟨rfl, _⟩ := h
      exact ilDecls_frame hrec hK _ _ _ _ _ _ (Registry.Frame.refl K reg) h1
  | funcDecl d =>
    simp only [inlineNode] at h
    split at h
    · cases h
    · rename_i r1 i1 b1 h1
      simp only [Except.ok.injEq, Prod.mk.injEq] at h
      obtain ⟨rfl, _⟩ := h
      exact ilStmts_frame hrec hK _ _ _ _ _ _ (Registry.Frame.refl K reg) h1
  | stmt s =>
    simp only [inlineNode] at h
    split at h
    · cases h
    · rename_i r1 i1 b1 s1 h1
      simp only [Except.ok.injEq, Prod.mk.injEq] at h
      obtain ⟨rfl, _⟩ := h
      exact ilStmt_frame hrec hK _ _ _ _ _ _ _ _ (Registry.Frame.refl K reg) h1

theorem inlineFunc_succ (fuel : Nat) (reg : Registry) (n : Node) :
    inlineFunc (fuel + 1) reg n = inlineNode (inlinerOf fuel) reg n := rfl

/-- The recursive call returns the declaration with its body rewritten by
the statement traversal. -/
theorem inlinerOf_ok {fuel : Nat} {reg r0 : Registry} {d d1 : FuncDecl}
    (h : inlinerOf fuel reg d = .ok (r0, d1)) :
    ∃ f i body1, fuel = f + 1 ∧ ilStmts (inlinerOf f) reg 0 d.body = .ok (r0, i, body1) ∧
      d1 = { d with body := body1 } := by
  cases fuel with
  | zero => simp [inlinerOf, inlineFunc] at h
  | succ f =>
    simp only [inlinerOf, inlineFunc_succ, inlineNode] at h
    split at h
    · cases h
    · rename_i r1 n1 hn
      split at hn
      · cases hn
      · rename_i r2 i2 b2 h2
        simp only [Except.ok.injEq, Prod.mk.injEq, Node.funcDecl.injEq] at hn h
        obtain ⟨rfl, rfl⟩ := hn
        obtain ⟨rfl, rfl⟩ := h
        exact ⟨f, i2, b2, rfl, h2, rfl⟩
    · rename_i hne hn
      split at hn
      · cases hn
      · rename_i r2 i2 b2 h2
        simp only [Except.ok.injEq] at hn
        exact absurd hn.symm (hne _ _)

theorem inlinerOf_framed (K : String → Bool) : ∀ fuel, (inlinerOf fuel).Framed K := by
  intro fuel
  induction fuel with
  | zero =>
    intro reg d r0 d1 _ h
    simp [inlinerOf, inlineFunc] at h
  | succ f ih =>
    intro reg d r0 d1 hK h
    obtain ⟨f1, i, body1, hf, hb, rfl⟩ := inlinerOf_ok h
    simp only [Nat.add_right_cancel_iff] at hf
    subst hf
    refine ⟨ilStmts_frame ih hK _ _ _ _ _ _ (Registry.Frame.refl K reg) hb,
      ⟨rfl, rfl, rfl, rfl⟩, ?_⟩
    intro hs
    obtain ⟨_, _, hb1⟩ := ilStmts_same _ d.body _ _ _ _ _ hK hs hb
    rw [hb1]

theorem inlineFunc_frame (fuel : Nat) (reg : Registry) (n : Node) (r : Registry) (n1 : Node)
    (h : inlineFunc fuel reg n = .ok (r, n1)) : Registry.Frame reg.has reg r := by
  cases fuel with
  | zero => simp [inlineFunc] at h
  | succ f =>
    rw [inlineFunc_succ] at h
    exact inlineNode_frame (inlinerOf_framed reg.has f) (fun _ => rfl) n r n1 h

/-- C9, as the code has it: `inlineFunc` keeps the keys of the registry and,
under each key, the decorations, receiver, name, parameters and results of
the declaration; it leaves an entry whose body holds no call site of a
registered function unchanged, and can rewrite the body of the others. -/
theorem inlineFunc_registry_frame (fuel : Nat) (reg : Registry) (n : Node) (reg1 : Registry)
    (n1 : Node) (h : inlineFunc fuel reg n = .ok (reg1, n1)) :
    reg1.keys = reg.keys ∧
    ∀ k d, reg.get k = some d →
      ∃ d1, reg1.get k = some d1 ∧ d1.decs = d.decs ∧ d1.recv = d.recv ∧ d1.name = d.name ∧
        d1.type = d.type ∧ (okStmts reg.has siteFree d.body = true → d1 = d) := by
  have hf := inlineFunc_frame fuel reg n reg1 n1 h
  refine ⟨hf.keys, ?_⟩
  intro k d hd
  rcases hf.get k with ⟨h1, _⟩ | ⟨d0, d1, h1, h2, h3⟩
  · rw [hd] at h1; cases h1
  · rw [hd] at h1
    simp only [Option.some.injEq] at h1
    subst h1
    exact ⟨d1, h2, h3.1.1, h3.1.2.1, h3.1.2.2.1, h3.1.2.2.2, h3.2⟩

/-- C9, witness: the registry of the test `04-nested` after `inlineFunc` on
`main`. -/
theorem inlineFunc_registry_frame_witness :
    (∃ reg1 n1, inlineFunc 3 Ex.reg4 (.funcDecl Ex.main4) = .ok (reg1, n1) ∧
      reg1.keys = Ex.reg4.keys ∧
      ∀ k d, Ex.reg4.get k = some d →
        ∃ d1, reg1.get k = some d1 ∧ d1.decs = d.decs ∧ d1.recv = d.recv ∧ d1.name = d.name ∧
          d1.type = d.type ∧ (okStmts Ex.reg4.has siteFree d.body = true → d1 = d)) :=
  ⟨_, _, rfl, inlineFunc_registry_frame 3 Ex.reg4 (.funcDecl Ex.main4) _ _ rfl⟩

/-- C9, counterexample: after `inlineFunc` on the `main` of the test
`04-nested`, the registry entry `calcs` is no longer the declaration stored
before the call: its body of 3 statements has become one of 5. -/
theorem inlineFunc_rewrites_registry_entry :
    (Ex.reg4.get "calcs").map (fun d => d.body.length) = some 3 ∧
    ((resultRegistry (inlineFunc 3 Ex.reg4 (.funcDecl Ex.main4))).bind
        (fun r => r.get "calcs")).map (fun d => d.body.length) = some 5 ∧
    (resultRegistry (inlineFunc 3 Ex.reg4 (.funcDecl Ex.main4))).bind
        (fun r => r.get "calcs") ≠ Ex.reg4.get "calcs" := by
  refine ⟨rfl, rfl, ?_⟩
  intro h
  have h1 := congrArg (Option.map (fun d => d.body.length)) h
  revert h1
  decide

mutual
theorem okExpr_mono {K : String → Bool} :
    ∀ (e : Expr) (m m1 : Discipline), m.le m1 → okExpr K m e = true → okExpr K m1 e = true
  | .ident _, _, _, _, _ => by simp [okExpr]
  | .basicLit _, _, _, _, _ => by simp [okExpr]
  | .binary x _ y, m, m1, hle, h => by
    simp only [okExpr, Bool.and_eq_true] at h ⊢
    exact ⟨okExpr_mono x m m1 hle h.1, okExpr_mono y m m1 hle h.2⟩
  | .selector x _, m, m1, hle, h => by
    simp only [okExpr] at h ⊢
    exact okExpr_mono x m m1 hle h
  | .call fn args, m, m1, hle, h => by
    simp only [okExpr, Bool.and_eq_true, Bool.or_eq_true] at h ⊢
    refine ⟨⟨?_, okExpr_mono fn m m1 hle h.1.2⟩, okExprs_mono args m m1 hle h.2⟩
    rcases h.1.1 with hc | hc
    · exact Or.inl (hle.2.1 hc)
    · exact Or.inr hc
  | .funcLit _ body, m, m1, hle, h => by
    simp only [okExpr] at h ⊢
    exact okStmts_mono body m m1 hle h
termination_by structural e => e
theorem okExprs_mono {K : String → Bool} :
    ∀ (e : List Expr) (m m1 : Discipline), m.le m1 → okExprs K m e = true →
      okExprs K m1 e = true
  | [], _, _, _, _ => by simp [okExprs]
  | x :: rest, m, m1, hle, h => by
    simp only [okExprs, Bool.and_eq_true] at h ⊢
    exact ⟨okExpr_mono x m m1 hle h.1, okExprs_mono rest m m1 hle h.2⟩
termination_by structural e => e
theorem okSpecs_mono {K : String → Bool} :
    ∀ (e : List Spec) (m m1 : Discipline), m.le m1 → okSpecs K m e = true →
      okSpecs K m1 e = true
  | [], _, _, _, _ => by simp [okSpecs]
  | .value _ _ values :: rest, m, m1, hle, h => by
    simp only [okSpecs, Bool.and_eq_true] at h ⊢
    exact ⟨okExprs_mono values m m1 hle h.1, okSpecs_mono rest m m1 hle h.2⟩
termination_by structural e => e
theorem okStmt_mono {K : String → Bool} :
    ∀ (e : Stmt) (m m1 : Discipline), m.le m1 → okStmt K m e = true → okStmt K m1 e = true
  | .assign lhs _ rhs, m, m1, hle, h => by
    cases rhs with
    | nil =>
      simp only [okStmt] at h ⊢
      exact okExprs_mono lhs m m1 hle h
    | cons r0 rest =>
      cases r0
      case call fn args =>
        cases hk : isKeyIdent K fn
        · simp only [okStmt, hk, Bool.false_eq_true, if_false, Bool.and_eq_true] at h ⊢
          exact ⟨⟨⟨okExprs_mono lhs m m1 hle h.1.1.1, okExpr_mono fn m m1 hle h.1.1.2⟩,
            okExprs_mono args m m1 hle h.1.2⟩, okExprs_mono rest m m1 hle h.2⟩
        · simp only [okStmt, hk, if_true, Bool.and_eq_true] at h ⊢
          exact ⟨⟨⟨hle.1 h.1.1.1, okExprs_mono lhs { m with sites := false }
            { m1 with sites := false } ⟨fun hf => hf, hle.2.1, hle.2.2⟩ h.1.1.2⟩,
            okExprs_mono args m m1 hle h.1.2⟩, okExprs_mono rest m m1 hle h.2⟩
      all_goals
        simp only [okStmt, Bool.and_eq_true] at h ⊢
        exact ⟨⟨okExprs_mono lhs m m1 hle h.1.1, okExpr_mono _ m m1 hle h.1.2⟩,
          okExprs_mono rest m m1 hle h.2⟩
  | .exprStmt x, m, m1, hle, h => by
    cases x
    case call fn args =>
      cases hk : isKeyIdent K fn
      · simp only [okStmt, hk, Bool.false_eq_true, if_false, Bool.and_eq_true] at h ⊢
        exact ⟨okExpr_mono fn m m1 hle h.1, okExprs_mono args m m1 hle h.2⟩
      · simp only [okStmt, hk, if_true, Bool.and_eq_true] at h ⊢
        exact ⟨hle.1 h.1, okExprs_mono args m m1 hle h.2⟩
    all_goals
      simp only [okStmt] at h ⊢
      exact okExpr_mono _ m m1 hle h
  | .ret results, m, m1, hle, h => by
    simp only [okStmt, Bool.and_eq_true, Bool.or_eq_true] at h ⊢
    refine ⟨?_, okExprs_mono results m m1 hle h.2⟩
    rcases h.1 with hc | hc
    · exact Or.inl (hle.2.2 hc)
    · exact Or.inr hc
  | .block list, m, m1, hle, h => by
    simp only [okStmt] at h ⊢
    exact okStmts_mono list m m1 hle h
  | .ifStmt init cond body els, m, m1, hle, h => by
    simp only [okStmt, Bool.and_eq_true] at h ⊢
    exact ⟨⟨⟨okOptStmt_mono init m m1 hle h.1.1.1, okExpr_mono cond m m1 hle h.1.1.2⟩,
      okStmts_mono body m m1 hle h.1.2⟩, okOptStmt_mono els m m1 hle h.2⟩
  | .declStmt _ specs, m, m1, hle, h => by
    simp only [okStmt] at h ⊢
    exact okSpecs_mono specs m m1 hle h
  | .empty _, _, _, _, _ => by simp [okStmt]
  | .labeled _ s, m, m1, hle, h => by
    simp only [okStmt] at h ⊢
    exact okStmt_mono s m m1 hle h
  | .branch _ _, _, _, _, _ => by simp [okStmt]
termination_by structural e => e
theorem okOptStmt_mono {K : String → Bool} :
    ∀ (e : Option Stmt) (m m1 : Discipline), m.le m1 → okOptStmt K m e = true →
      okOptStmt K m1 e = true
  | none, _, _, _, _ => by simp [okOptStmt]
  | some s, m, m1, hle, h => by
    simp only [okOptStmt] at h ⊢
    exact okStmt_mono s m m1 hle h
termination_by structural e => e
theorem okStmts_mono {K : String → Bool} :
    ∀ (e : List Stmt) (m m1 : Discipline), m.le m1 → okStmts K m e = true →
      okStmts K m1 e = true
  | [], _, _, _, _ => by simp [okStmts]
  | s :: rest, m, m1, hle, h => by
    simp only [okStmts, Bool.and_eq_true] at h ⊢
    exact ⟨okStmt_mono s m m1 hle h.1, okStmts_mono rest m m1 hle h.2⟩
termination_by structural e => e
end

mutual
theorem rrExpr_id : ∀ e : Expr, rrExpr e = e
  | .ident _ => by simp [rrExpr]
  | .basicLit _ => by simp [rrExpr]
  | .binary x _ y => by simp [rrExpr, rrExpr_id x, rrExpr_id y]
  | .selector x _ => by simp [rrExpr, rrExpr_id x]
  | .call fn args => by simp [rrExpr, rrExpr_id fn, rrExprs_id args]
  | .funcLit _ _ => by simp [rrExpr]
termination_by structural e => e
theorem rrExprs_id : ∀ e : List Expr, rrExprs e = e
  | [] => by simp [rrExprs]
  | x :: rest => by simp [rrExprs, rrExpr_id x, rrExprs_id rest]
termination_by structural e => e
end

theorem rrSpecs_id : ∀ e : List Spec, rrSpecs e = e
  | [] => by simp [rrSpecs]
  | .value _ _ values :: rest => by simp [rrSpecs, rrExprs_id values, rrSpecs_id rest]

theorem okStmts_append (K : String → Bool) (m : Discipline) (a b : List Stmt) :
    okStmts K m (a ++ b) = (okStmts K m a && okStmts K m b) := by
  induction a with
  | nil => simp [okStmts]
  | cons s rest ih => simp [okStmts, ih, Bool.and_assoc]

theorem okExprs_get {K : String → Bool} {m : Discipline} :
    ∀ (es : List Expr) (i : Nat) (e : Expr), okExprs K m es = true → es.get? i = some e →
      okExpr K m e = true
  | [], _, _, _, h => by simp at h
  | x :: rest, 0, e, hok, h => by
    simp only [okExprs, Bool.and_eq_true] at hok
    simp only [List.get?_cons_zero, Option.some.injEq] at h
    subst h
    exact hok.1
  | x :: rest, i + 1, e, hok, h => by
    simp only [okExprs, Bool.and_eq_true] at hok
    simp only [List.get?_cons_succ] at h
    exact okExprs_get rest i e hok.2 h

theorem keyCall_get {K : String → Bool} :
    ∀ (es : List Expr) (i : Nat) (e : Expr), es.any (isKeyCall K) = false →
      es.get? i = some e → isKeyCall K e = false
  | [], _, _, _, h => by simp at h
  | x :: rest, 0, e, hok, h => by
    simp only [List.any_cons, Bool.or_eq_false_iff] at hok
    simp only [List.get?_cons_zero, Option.some.injEq] at h
    subst h
    exact hok.1
  | x :: rest, i + 1, e, hok, h => by
    simp only [List.any_cons, Bool.or_eq_false_iff] at hok
    simp only [List.get?_cons_succ] at h
    exact keyCall_get rest i e hok.2 h

theorem okExprs_idents (K : String → Bool) (m : Discipline) (names : List String) :
    okExprs K m (names.map .ident) = true := by
  induction names with
  | nil => simp [okExprs]
  | cons n rest ih => simp [okExprs, okExpr, ih]

theorem okSpecs_retval (K : String → Bool) (m : Discipline) (fs : List Field) :
    ∀ i, okSpecs K m (retvalSpecsFrom i fs) = true := by
  induction fs with
  | nil => intro i; simp [retvalSpecsFrom, okSpecs]
  | cons f rest ih => intro i; simp [retvalSpecsFrom, okSpecs, okExprs, ih]

theorem okStmt_extractReturnValues (K : String → Bool) (m : Discipline) (d : FuncDecl) :
    okStmt K m (extractReturnValues d).1 = true := by
  unfold extractReturnValues
  split
  · simp [okStmt]
  · simp [okStmt, okSpecs_retval]

theorem okSpecs_definitionSpecs (K : String → Bool) (m : Discipline) (frList : List Field) :
    ∀ (lhs : List Expr) (i : Nat) (specs : List Spec),
      definitionSpecs frList i lhs = .ok specs → okSpecs K m specs = true := by
  intro lhs
  induction lhs with
  | nil =>
    intro i specs h
    simp only [definitionSpecs, Except.ok.injEq] at h
    subst h
    simp [okSpecs]
  | cons e rest ih =>
    intro i specs h
    cases e <;> simp only [definitionSpecs] at h
    case ident name =>
      split at h
      · cases h
      · split at h
        · cases h
        · rename_i l hl
          simp only [Except.ok.injEq] at h
          subst h
          simp [okSpecs, okExprs, ih _ _ hl]
    all_goals cases h

theorem okStmt_newDefinitions (K : String → Bool) (m : Discipline) (lhs : List Expr)
    (d : FuncDecl) (s : Stmt) (h : newDefinitions lhs d = .ok s) : okStmt K m s = true := by
  unfold newDefinitions at h
  split at h
  · cases h
  · split at h
    · cases h
    · rename_i specs hs
      simp only [Except.ok.injEq] at h
      subst h
      simp [okStmt, okSpecs_definitionSpecs K m _ _ _ _ hs]

theorem okSpecs_reassignmentSpecs (K : String → Bool) (m : Discipline) (args : List Expr)
    (hargs : okExprs K m args = true) :
    ∀ (ps : List Field) (i : Nat) (specs : List Spec),
      reassignmentSpecs args i ps = .ok specs → okSpecs K m specs = true := by
  intro ps
  induction ps with
  | nil =>
    intro i specs h
    simp only [reassignmentSpecs, Except.ok.injEq] at h
    subst h
    simp [okSpecs]
  | cons p rest ih =>
    intro i specs h
    simp only [reassignmentSpecs] at h
    split at h
    · cases h
    · split at h
      · cases h
      · rename_i a ha
        split at h
        · cases h
        · rename_i l hl
          simp only [Except.ok.injEq] at h
          subst h
          simp [okSpecs, okExprs, ih _ _ hl, okExprs_get args _ a hargs ha]

theorem okStmt_getFormalParamReassignments (K : String → Bool) (m : Discipline)
    (d : FuncDecl) (args : List Expr) (s : Stmt) (hargs : okExprs K m args = true)
    (h : getFormalParamReassignments d args = .ok s) : okStmt K m s = true := by
  unfold getFormalParamReassignments at h
  split at h
  · cases h
  · simp only [Except.ok.injEq] at h
    subst h
    simp [okStmt]
  · rename_i s0 specs hs
    simp only [Except.ok.injEq] at h
    subst h
    simpa [okStmt] using okSpecs_reassignmentSpecs K m args hargs _ _ _ hs

theorem okExpr_ident (K : String → Bool) (m : Discipline) (name : String) :
    okExpr K m (.ident name) = true := by
  simp [okExpr]

theorem okStmt_captureAssign (K : String → Bool) (m : Discipline) (name : String) (r : Expr)
    (hr : okExpr K m r = true) (hk : isKeyCall K r = false) :
    okStmt K m (.assign [.ident name] .ASSIGN [r]) = true := by
  cases r
  case call fn args =>
    simp only [isKeyCall] at hk
    simp only [okExpr, Bool.and_eq_true] at hr
    simp [okStmt, hk, okExprs, okExpr, hr.1.2, hr.2]
  all_goals simp [okStmt, okExprs, hr, okExpr_ident]

theorem okStmts_captureAssignments (K : String → Bool) (m : Discipline) (results : List Expr)
    (hr : okExprs K m results = true) (hk : results.any (isKeyCall K) = false) :
    ∀ (names : List String) (i : Nat) (l : List Stmt),
      captureAssignments results i names = .ok l → okStmts K m l = true := by
  intro names
  induction names with
  | nil =>
    intro i l h
    simp only [captureAssignments, Except.ok.injEq] at h
    subst h
    simp [okStmts]
  | cons n rest ih =>
    intro i l h
    simp only [captureAssignments] at h
    split at h
    · cases h
    · rename_i r hg
      split at h
      · cases h
      · rename_i l1 hl
        simp only [Except.ok.injEq] at h
        subst h
        simp only [okStmts, Bool.and_eq_true]
        exact ⟨okStmt_captureAssign K m n r (okExprs_get results _ r hr hg)
          (keyCall_get results _ r hk hg), ih _ _ hl⟩

theorem modOK_capture (K : String → Bool) (m : Discipline) (names : List String) :
    ModOK K m (some (captureModifier names)) := by
  intro results r hr hk h
  unfold captureModifier at h
  split at h
  · cases h
  · rename_i l hl
    simp only [Except.ok.injEq] at h
    subst h
    simpa [okStmt] using okStmts_captureAssignments K m results hr hk names 0 l hl

mutual
theorem rrStmt_ok {K : String → Bool} {m : Discipline} {md : ReturnModifier}
    (hm : m.rets = false) (hmod : ModOK K m md) (label : String) :
    ∀ (e : Stmt) (inList found f : Bool) (s1 : Stmt) (after : Option Stmt),
      okStmt K m e = true → rrStmt md label inList found e = .ok (f, s1, after) →
      okStmt K m s1 = true ∧ okOptStmt K m after = true
  | .ret results, inList, _, _, _, _, hok, h => by
    simp only [okStmt, hm, Bool.false_or, Bool.and_eq_true, Bool.not_eq_true'] at hok
    cases md with
    | none =>
      simp only [rrStmt, Except.ok.injEq, Prod.mk.injEq] at h
      obtain ⟨_, rfl, rfl⟩ := h
      simp [okStmt, okOptStmt]
    | some fm =>
      simp only [rrStmt] at h
      split at h
      · cases h
      · rename_i r hr
        cases inList
        · simp at h
        · simp only [if_true, Except.ok.injEq, Prod.mk.injEq] at h
          obtain ⟨_, rfl, rfl⟩ := h
          exact ⟨hmod results r hok.2 hok.1 hr, by simp [okStmt, okOptStmt]⟩
  | .assign _ _ _, _, _, _, _, _, hok, h => by
    simp only [rrStmt, rrExprs_id, Except.ok.injEq, Prod.mk.injEq] at h
    obtain ⟨_, rfl, rfl⟩ := h
    exact ⟨hok, by simp [okOptStmt]⟩
  | .exprStmt _, _, _, _, _, _, hok, h => by
    simp only [rrStmt, rrExpr_id, Except.ok.injEq, Prod.mk.injEq] at h
    obtain ⟨_, rfl, rfl⟩ := h
    exact ⟨hok, by simp [okOptStmt]⟩
  | .block list, _, _, _, _, _, hok, h => by
    simp only [okStmt] at hok
    simp only [rrStmt] at h
    split at h
    · cases h
    · rename_i f1 l1 h1
      simp only [Except.ok.injEq, Prod.mk.injEq] at h
      obtain ⟨_, rfl, rfl⟩ := h
      exact ⟨by simpa [okStmt] using rrStmts_ok hm hmod label list _ _ _ hok h1,
        by simp [okOptStmt]⟩
  | .ifStmt init cond body els, _, _, _, _, _, hok, h => by
    simp only [okStmt, Bool.and_eq_true] at hok
    simp only [rrStmt] at h
    split at h
    · cases h
    · rename_i f1 i1 h1
      split at h
      · cases h
      · rename_i f2 b1 h2
        split at h
        · cases h
        · rename_i f3 e1 h3
          simp only [Except.ok.injEq, Prod.mk.injEq] at h
          obtain ⟨_, rfl, rfl⟩ := h
          refine ⟨?_, by simp [okOptStmt]⟩
          simp only [okStmt, Bool.and_eq_true, rrExpr_id]
          exact ⟨⟨⟨rrOptStmt_ok hm hmod label init _ _ _ hok.1.1.1 h1, hok.1.1.2⟩,
            rrStmts_ok hm hmod label body _ _ _ hok.1.2 h2⟩,
            rrOptStmt_ok hm hmod label els _ _ _ hok.2 h3⟩
  | .declStmt _ _, _, _, _, _, _, hok, h => by
    simp only [rrStmt, rrSpecs_id, Except.ok.injEq, Prod.mk.injEq] at h
    obtain ⟨_, rfl, rfl⟩ := h
    exact ⟨hok, by simp [okOptStmt]⟩
  | .empty _, _, _, _, _, _, hok, h => by
    simp only [rrStmt, Except.ok.injEq, Prod.mk.injEq] at h
    obtain ⟨_, rfl, rfl⟩ := h
    exact ⟨hok, by simp [okOptStmt]⟩
  | .labeled _ s, _, _, _, _, _, hok, h => by
    simp only [okStmt] at hok
    simp only [rrStmt] at h
    split at h
    · cases h
    · rename_i f1 s1 a1 h1
      simp only [Except.ok.injEq, Prod.mk.injEq] at h
      obtain ⟨_, rfl, rfl⟩ := h
      exact ⟨by simpa [okStmt] using (rrStmt_ok hm hmod label s _ _ _ _ _ hok h1).1,
        by simp [okOptStmt]⟩
  | .branch _ _, _, _, _, _, _, hok, h => by
    simp only [rrStmt, Except.ok.injEq, Prod.mk.injEq] at h
    obtain ⟨_, rfl, rfl⟩ := h
    exact ⟨hok, by simp [okOptStmt]⟩
termination_by structural e => e
theorem rrOptStmt_ok {K : String → Bool} {m : Discipline} {md : ReturnModifier}
    (hm : m.rets = false) (hmod : ModOK K m md) (label : String) :
    ∀ (e : Option Stmt) (found f : Bool) (e1 : Option Stmt),
      okOptStmt K m e = true → rrOptStmt md label found e = .ok (f, e1) →
      okOptStmt K m e1 = true
  | none, _, _, _, _, h => by
    simp only [rrOptStmt, Except.ok.injEq, Prod.mk.injEq] at h
    obtain ⟨_, rfl⟩ := h
    simp [okOptStmt]
  | some s, _, _, _, hok, h => by
    simp only [okOptStmt] at hok
    simp only [rrOptStmt] at h
    split at h
    · cases h
    · rename_i f1 s1 a1 h1
      simp only [Except.ok.injEq, Prod.mk.injEq] at h
      obtain ⟨_, rfl⟩ := h
      simpa [okOptStmt] using (rrStmt_ok hm hmod label s _ _ _ _ _ hok h1).1
termination_by structural e => e
theorem rrStmts_ok {K : String → Bool} {m : Discipline} {md : ReturnModifier}
    (hm : m.rets = false) (hmod : ModOK K m md) (label : String) :
    ∀ (e : List Stmt) (found f : Bool) (e1 : List Stmt),
      okStmts K m e = true → rrStmts md label found e = .ok (f, e1) →
      okStmts K m e1 = true
  | [], _, _, _, _, h => by
    simp only [rrStmts, Except.ok.injEq, Prod.mk.injEq] at h
    obtain ⟨_, rfl⟩ := h
    simp [okStmts]
  | s :: rest, _, _, _, hok, h => by
    simp only [okStmts, Bool.and_eq_true] at hok
    simp only [rrStmts] at h
    split at h
    · cases h
    · rename_i f1 s1 a1 h1
      split at h
      · cases h
      · rename_i f2 rest1 h2
        simp only [Except.ok.injEq, Prod.mk.injEq] at h
        obtain ⟨_, rfl⟩ := h
        have p1 := rrStmt_ok hm hmod label s _ _ _ _ _ hok.1 h1
        have p2 := rrStmts_ok hm hmod label rest _ _ _ hok.2 h2
        cases a1 with
        | none => simp [okStmts, p1.1, p2]
        | some a => simpa [okStmts, p1.1, p2, okOptStmt] using p1.2
termination_by structural e => e
end

theorem splitFinalReturn_ok {K : String → Bool} {m : Discipline} (hm : m.rets = false)
    (list : List Stmt) (hok : okStmts K m list = true) :
    okStmts K m (splitFinalReturn list).1 = true ∧
    okExprs K m (splitFinalReturn list).2 = true ∧
    (splitFinalReturn list).2.any (isKeyCall K) = false := by
  unfold splitFinalReturn
  split
  · rename_i results hl
    have happ := List.dropLast_append_getLast? _ (by simpa using hl)
    rw [← happ, okStmts_append] at hok
    simp only [okStmts, okStmt, hm, Bool.false_or, Bool.and_eq_true, Bool.not_eq_true',
      Bool.and_true] at hok
    exact ⟨hok.1, hok.2.2, hok.2.1⟩
  · exact ⟨hok, by simp [okExprs], by simp⟩

theorem replaceReturnStatements_ok {K : String → Bool} {m : Discipline} {md : ReturnModifier}
    (hm : m.rets = false) (hmod : ModOK K m md) (funcName : String) (funcIdx : Nat)
    (stmt out : List Stmt) (hok : okStmts K m stmt = true)
    (h : replaceReturnStatements funcName funcIdx stmt md = .ok out) :
    okStmts K m out = true := by
  unfold replaceReturnStatements at h
  split at h
  · simp only [Except.ok.injEq] at h
    subst h
    exact hok
  · obtain ⟨h1, h2, h3⟩ := splitFinalReturn_ok hm stmt hok
    simp only at h
    split at h
    · cases h
    · rename_i l hl
      have hlok : okStmt K m l = true := by
        cases md with
        | none =>
          simp only [Except.ok.injEq] at hl
          subst hl
          simp [okStmt]
        | some f => exact hmod _ _ h2 h3 hl
      split at h
      · cases h
      · rename_i found list hr
        have hin : okStmts K m ((splitFinalReturn stmt).1 ++ [l]) = true := by
          simp [okStmts_append, okStmts, h1, hlok]
        have hout := rrStmts_ok hm hmod _ _ _ _ _ hin hr
        split at h
        · simp only [Except.ok.injEq] at h
          subst h
          simp [okStmts_append, okStmts, okStmt, hout]
        · simp only [Except.ok.injEq] at h
          subst h
          exact hout

theorem Registry.has_put (r : Registry) (key : String) (d : FuncDecl) (k : String)
    (hk : r.has key = true) : (r.put key d).has k = r.has k := by
  by_cases h : key = k
  · subst h
    simp [Registry.has, Registry.get_put_same] at hk ⊢
    exact hk
  · simp [Registry.has, Registry.get_put_other _ _ _ _ h]

theorem RegOK.store {K : String → Bool} {c : Bool} {reg : Registry} (h : RegOK K c reg)
    (key : String) (d : FuncDecl) (hk : K key = true)
    (hd : okStmts K ⟨true, c, false⟩ d.body = true) : RegOK K c (reg.put key d) := by
  refine ⟨?_, ?_⟩
  · intro k
    rw [Registry.has_put _ _ _ _ (by rw [h.1]; exact hk)]
    exact h.1 k
  · intro k d1 hg
    by_cases hkk : key = k
    · subst hkk
      rw [Registry.get_put_same] at hg
      simp only [Option.some.injEq] at hg
      subst hg
      exact hd
    · rw [Registry.get_put_other _ _ _ _ hkk] at hg
      exact h.2 k d1 hg

theorem ilExpr_keyIdent {K : String → Bool} {rec : Inliner} {reg r : Registry} {idx i : Nat}
    {e e1 : Expr} (h : ilExpr rec reg idx e = .ok (r, i, e1)) :
    isKeyIdent K e1 = isKeyIdent K e := by
  cases e <;> simp only [ilExpr] at h
  case ident n =>
    simp only [Except.ok.injEq, Prod.mk.injEq] at h
    obtain ⟨_, _, rfl⟩ := h
    rfl
  case basicLit v =>
    simp only [Except.ok.injEq, Prod.mk.injEq] at h
    obtain ⟨_, _, rfl⟩ := h
    rfl
  case binary x op y =>
    split at h
    · cases h
    · split at h
      · cases h
      · simp only [Except.ok.injEq, Prod.mk.injEq] at h
        obtain ⟨_, _, rfl⟩ := h
        rfl
  case call fn args =>
    split at h
    · cases h
    · split at h
      · cases h
      · simp only [Except.ok.injEq, Prod.mk.injEq] at h
        obtain ⟨_, _, rfl⟩ := h
        rfl
  all_goals
    split at h
    · cases h
    · simp only [Except.ok.injEq, Prod.mk.injEq] at h
      obtain ⟨_, _, rfl⟩ := h
      rfl

theorem ilExpr_keyCall {K : String → Bool} {rec : Inliner} {reg r : Registry} {idx i : Nat}
    {e e1 : Expr} (h : ilExpr rec reg idx e = .ok (r, i, e1)) :
    isKeyCall K e1 = isKeyCall K e := by
  cases e <;> simp only [ilExpr] at h
  case ident n =>
    simp only [Except.ok.injEq, Prod.mk.injEq] at h
    obtain ⟨_, _, rfl⟩ := h
    rfl
  case basicLit v =>
    simp only [Except.ok.injEq, Prod.mk.injEq] at h
    obtain ⟨_, _, rfl⟩ := h
    rfl
  case binary x op y =>
    split at h
    · cases h
    · split at h
      · cases h
      · simp only [Except.ok.injEq, Prod.mk.injEq] at h
        obtain ⟨_, _, rfl⟩ := h
        rfl
  case call fn args =>
    split at h
    · cases h
    · rename_i r1 i1 fn1 h1
      split at h
      · cases h
      · simp only [Except.ok.injEq, Prod.mk.injEq] at h
        obtain ⟨_, _, rfl⟩ := h
        simp only [isKeyCall]
        exact ilExpr_keyIdent h1
  all_goals
    split at h
    · cases h
    · simp only [Except.ok.injEq, Prod.mk.injEq] at h
      obtain ⟨_, _, rfl⟩ := h
      rfl

theorem ilExprs_keyCall {K : String → Bool} {rec : Inliner} :
    ∀ (es : List Expr) (reg : Registry) (idx : Nat) (r : Registry) (i : Nat) (es1 : List Expr),
      ilExprs rec reg idx es = .ok (r, i, es1) →
      es1.any (isKeyCall K) = es.any (isKeyCall K) := by
  intro es
  induction es with
  | nil =>
    intro reg idx r i es1 h
    simp only [ilExprs, Except.ok.injEq, Prod.mk.injEq] at h
    obtain ⟨_, _, rfl⟩ := h
    rfl
  | cons e rest ih =>
    intro reg idx r i es1 h
    simp only [ilExprs] at h
    split at h
    · cases h
    · rename_i r1 i1 e1 h1
      split at h
      · cases h
      · rename_i r2 i2 rest1 h2
        simp only [Except.ok.injEq, Prod.mk.injEq] at h
        obtain ⟨_, _, rfl⟩ := h
        simp [List.any_cons, ilExpr_keyCall (K := K) h1, ih _ _ _ _ _ h2]

theorem isKeyIdent_of_none {K : String → Bool} {reg : Registry} (hK : ∀ k, reg.has k = K k)
    (fn : Expr) (h : callToFuncDecl reg fn = none) : isKeyIdent K fn = false := by
  cases fn <;> simp only [isKeyIdent]
  rename_i name
  simp only [callToFuncDecl] at h
  split at h
  · rename_i hg
    rw [← hK name]
    simp [Registry.has, hg]
  · cases h

theorem okStmt_assign_other (K : String → Bool) (m : Discipline) (lhs : List Expr) (tok : Token)
    (r : Expr) (rest : List Expr) (hk : isKeyCall K r = false)
    (h : (okExprs K m lhs = true ∧ okExpr K m r = true) ∧ okExprs K m rest = true) :
    okStmt K m (.assign lhs tok (r :: rest)) = true := by
  cases r
  case call fn args =>
    simp only [isKeyCall] at hk
    have h2 := h.1.2
    simp only [okExpr, Bool.and_eq_true] at h2
    simp [okStmt, hk, h.1.1, h.2, h2.1.2, h2.2]
  all_goals simp [okStmt, h.1.1, h.1.2, h.2]

theorem okStmt_exprStmt_other (K : String → Bool) (m : Discipline) (x : Expr)
    (hk : isKeyCall K x = false) (h : okExpr K m x = true) :
    okStmt K m (.exprStmt x) = true := by
  cases x
  case call fn args =>
    simp only [isKeyCall] at hk
    simp only [okExpr, Bool.and_eq_true] at h
    simp [okStmt, hk, h.1.2, h.2]
  all_goals simp [okStmt, h]

theorem okStmt_finalAssign (K : String → Bool) (m : Discipline) (lhs : List Expr)
    (names : List String) (h : okExprs K m lhs = true) :
    okStmt K m (.assign lhs .ASSIGN (names.map .ident)) = true := by
  cases names with
  | nil => simpa [okStmt] using h
  | cons n rest => simp [okStmt, h, okExpr_ident, okExprs_idents]

mutual
theorem ilExpr_clean {K : String → Bool} {c : Bool} {rec : Inliner} (hrec : rec.Clean K c) (rt : Bool) :
    ∀ (e : Expr) (reg : Registry) (idx : Nat) (r : Registry) (i : Nat) (e1 : Expr),
      RegOK K c reg → okExpr K ⟨true, c, rt⟩ e = true →
      ilExpr rec reg idx e = .ok (r, i, e1) →
      RegOK K c r ∧ okExpr K ⟨false, c, rt⟩ e1 = true
  | .ident _, reg, idx, _, _, _, hR, hok, h => by
    simp only [ilExpr, Except.ok.injEq, Prod.mk.injEq] at h
    obtain ⟨rfl, _, rfl⟩ := h
    exact ⟨hR, by simp [okExpr]⟩
  | .basicLit _, reg, idx, _, _, _, hR, hok, h => by
    simp only [ilExpr, Except.ok.injEq, Prod.mk.injEq] at h
    obtain ⟨rfl, _, rfl⟩ := h
    exact ⟨hR, by simp [okExpr]⟩
  | .binary x _ y, reg, idx, _, _, _, hR, hok, h => by
    simp only [okExpr, Bool.and_eq_true] at hok
    simp only [ilExpr] at h
    split at h
    · cases h
    · rename_i r0_0 r0_1 r0_2 h0
      obtain ⟨hR0, p0⟩ := ilExpr_clean hrec rt x _ _ _ _ _ hR hok.1 h0
      split at h
      · cases h
      · rename_i r1_0 r1_1 r1_2 h1
        obtain ⟨hR1, p1⟩ := ilExpr_clean hrec rt y _ _ _ _ _ hR0 hok.2 h1
        simp only [Except.ok.injEq, Prod.mk.injEq] at h
        obtain ⟨rfl, _, rfl⟩ := h
        refine ⟨hR1, ?_⟩
        simp only [okExpr, Bool.and_eq_true]
        exact ⟨p0, p1⟩
  | .selector x _, reg, idx, _, _, _, hR, hok, h => by
    simp only [okExpr] at hok
    simp only [ilExpr] at h
    split at h
    · cases h
    · rename_i r0_0 r0_1 r0_2 h0
      obtain ⟨hR0, p0⟩ := ilExpr_clean hrec rt x _ _ _ _ _ hR hok h0
      simp only [Except.ok.injEq, Prod.mk.injEq] at h
      obtain ⟨rfl, _, rfl⟩ := h
      refine ⟨hR0, ?_⟩
      simp only [okExpr, Bool.and_eq_true]
      exact p0
  | .call fn args, reg, idx, _, _, _, hR, hok, h => by
    simp only [okExpr, Bool.and_eq_true] at hok
    simp only [ilExpr] at h
    split at h
    · cases h
    · rename_i r0_0 r0_1 r0_2 h0
      obtain ⟨hR0, p0⟩ := ilExpr_clean hrec rt fn _ _ _ _ _ hR hok.1.2 h0
      split at h
      · cases h
      · rename_i r1_0 r1_1 r1_2 h1
        obtain ⟨hR1, p1⟩ := ilExprs_clean hrec rt args _ _ _ _ _ hR0 hok.2 h1
        simp only [Except.ok.injEq, Prod.mk.injEq] at h
        obtain ⟨rfl, _, rfl⟩ := h
        refine ⟨hR1, ?_⟩
        simp only [okExpr, Bool.and_eq_true]
        exact ⟨⟨by rw [ilExpr_keyIdent h0]; exact hok.1.1, p0⟩, p1⟩
  | .funcLit _ body, reg, idx, _, _, _, hR, hok, h => by
    simp only [okExpr] at hok
    simp only [ilExpr] at h
    split at h
    · cases h
    · rename_i r0_0 r0_1 r0_2 h0
      obtain ⟨hR0, p0⟩ := ilStmts_clean hrec rt body _ _ _ _ _ hR hok h0
      simp only [Except.ok.injEq, Prod.mk.injEq] at h
      obtain ⟨rfl, _, rfl⟩ := h
      refine ⟨hR0, ?_⟩
      simp only [okExpr, Bool.and_eq_true]
      exact p0
termination_by structural e => e
theorem ilExprs_clean {K : String → Bool} {c : Bool} {rec : Inliner} (hrec : rec.Clean K c) (rt : Bool) :
    ∀ (e : List Expr) (reg : Registry) (idx : Nat) (r : Registry) (i : Nat) (e1 : List Expr),
      RegOK K c reg → okExprs K ⟨true, c, rt⟩ e = true →
      ilExprs rec reg idx e = .ok (r, i, e1) →
      RegOK K c r ∧ okExprs K ⟨false, c, rt⟩ e1 = true
  | [], reg, idx, _, _, _, hR, hok, h => by
    simp only [ilExprs, Except.ok.injEq, Prod.mk.injEq] at h
    obtain ⟨rfl, _, rfl⟩ := h
    exact ⟨hR, by simp [okExprs]⟩
  | x :: rest, reg, idx, _, _, _, hR, hok, h => by
    simp only [okExprs, Bool.and_eq_true] at hok
    simp only [ilExprs] at h
    split at h
    · cases h
    · rename_i r0_0 r0_1 r0_2 h0
      obtain ⟨hR0, p0⟩ := ilExpr_clean hrec rt x _ _ _ _ _ hR hok.1 h0
      split at h
      · cases h
      · rename_i r1_0 r1_1 r1_2 h1
        obtain ⟨hR1, p1⟩ := ilExprs_clean hrec rt rest _ _ _ _ _ hR0 hok.2 h1
        simp only [Except.ok.injEq, Prod.mk.injEq] at h
        obtain ⟨rfl, _, rfl⟩ := h
        refine ⟨hR1, ?_⟩
        simp only [okExprs, Bool.and_eq_true]
        exact ⟨p0, p1⟩
termination_by structural e => e
theorem ilSpecs_clean {K : String → Bool} {c : Bool} {rec : Inliner} (hrec : rec.Clean K c) (rt : Bool) :
    ∀ (e : List Spec) (reg : Registry) (idx : Nat) (r : Registry) (i : Nat) (e1 : List Spec),
      RegOK K c reg → okSpecs K ⟨true, c, rt⟩ e = true →
      ilSpecs rec reg idx e = .ok (r, i, e1) →
      RegOK K c r ∧ okSpecs K ⟨false, c, rt⟩ e1 = true
  | [], reg, idx, _, _, _, hR, hok, h => by
    simp only [ilSpecs, Except.ok.injEq, Prod.mk.injEq] at h
    obtain ⟨rfl, _, rfl⟩ := h
    exact ⟨hR, by simp [okSpecs]⟩
  | .value _ _ values :: rest, reg, idx, _, _, _, hR, hok, h => by
    simp only [okSpecs, Bool.and_eq_true] at hok
    simp only [ilSpecs] at h
    split at h
    · cases h
    · rename_i r0_0 r0_1 r0_2 h0
      obtain ⟨hR0, p0⟩ := ilExprs_clean hrec rt values _ _ _ _ _ hR hok.1 h0
      split at h
      · cases h
      · rename_i r1_0 r1_1 r1_2 h1
        obtain ⟨hR1, p1⟩ := ilSpecs_clean hrec rt rest _ _ _ _ _ hR0 hok.2 h1
        simp only [Except.ok.injEq, Prod.mk.injEq] at h
        obtain ⟨rfl, _, rfl⟩ := h
        refine ⟨hR1, ?_⟩
        simp only [okSpecs, Bool.and_eq_true]
        exact ⟨p0, p1⟩
termination_by structural e => e
theorem ilStmt_clean {K : String → Bool} {c : Bool} {rec : Inliner} (hrec : rec.Clean K c) (rt : Bool) :
    ∀ (e : Stmt) (inList : Bool) (reg : Registry) (idx : Nat) (r : Registry) (i : Nat)
      (b : Option Stmt) (e1 : Stmt), RegOK K c reg →
      okStmt K ⟨true, c, rt⟩ e = true → ilStmt rec inList reg idx e = .ok (r, i, b, e1) →
      RegOK K c r ∧ okOptStmt K ⟨false, c, rt⟩ b = true ∧ okStmt K ⟨false, c, rt⟩ e1 = true
  | .assign lhs tok rhs, _, reg, idx, _, _, _, _, hR, hok, h => by
    cases rhs with
    | nil => simp [ilStmt] at h
    | cons r0 rest =>
      cases r0
      case call fn args =>
        simp only [ilStmt] at h
        split at h
        · rename_i hnone
          have hk := isKeyIdent_of_none hR.1 fn hnone
          simp only [okStmt, hk, Bool.false_eq_true, if_false, Bool.and_eq_true] at hok
          split at h
          · cases h
          · rename_i r0_0 r0_1 r0_2 h0
            obtain ⟨hR0, p0⟩ := ilExprs_clean hrec rt lhs _ _ _ _ _ hR hok.1.1.1 h0
            split at h
            · cases h
            · rename_i r1_0 r1_1 r1_2 h1
              obtain ⟨hR1, p1⟩ := ilExpr_clean hrec rt fn _ _ _ _ _ hR0 hok.1.1.2 h1
              split at h
              · cases h
              · rename_i r2_0 r2_1 r2_2 h2
                obtain ⟨hR2, p2⟩ := ilExprs_clean hrec rt args _ _ _ _ _ hR1 hok.1.2 h2
                split at h
                · cases h
                · rename_i r3_0 r3_1 r3_2 h3
                  obtain ⟨hR3, p3⟩ := ilExprs_clean hrec rt rest _ _ _ _ _ hR2 hok.2 h3
                  simp only [Except.ok.injEq, Prod.mk.injEq] at h
                  obtain ⟨rfl, _, rfl, rfl⟩ := h
                  refine ⟨hR3, by simp [okOptStmt], ?_⟩
                  simp only [okStmt, ilExpr_keyIdent (K := K) h1, hk, Bool.false_eq_true, if_false,
                    Bool.and_eq_true]
                  exact ⟨⟨⟨p0, p1⟩, p2⟩, p3⟩
        · rename_i key info hc
          obtain ⟨hfn, hget, hk⟩ := callToFuncDecl_some hR.1 hc
          simp only [okStmt, hk, if_true, Bool.and_eq_true] at hok
          obtain ⟨⟨⟨_, hl⟩, ha⟩, _⟩ := hok
          split at h
          · cases h
          · rename_i r0 funcDecl hr
            obtain ⟨hR0, hbody⟩ := hrec _ _ _ _ hR (hR.2 key info hget) hr
            have hKkey : K key = true := by rw [hfn] at hk; exact hk
            have hRp := hR0.store key funcDecl hKkey
              (okStmts_mono _ _ _ (by simp [Discipline.le]) hbody)
            have hmod := modOK_capture K ⟨false, c, false⟩ (extractReturnValues funcDecl).2
            split at h
            · cases h
            · split at h
              · cases h
              · rename_i before hbefore
                split at h
                · cases h
                · rename_i body hb
                  split at h
                  · cases h
                  ·
                    split at h
                    · cases h
                    · rename_i r1 i1 l1 h1
                      obtain ⟨hR1, _⟩ := ilExprs_clean hrec rt lhs _ _ _ _ _ hRp
                        (okExprs_mono lhs _ _ (by simp [Discipline.le]) hl) h1
                      split at h
                      · cases h
                      · rename_i r2 i2 f2 h2
                        obtain ⟨hR2, _⟩ := ilExpr_clean hrec rt fn _ _ _ _ _ hR1
                          (by rw [hfn]; simp [okExpr]) h2
                        split at h
                        · cases h
                        · rename_i r3 i3 a3 h3
                          obtain ⟨hR3, pa⟩ := ilExprs_clean hrec rt args _ _ _ _ _ hR2 ha h3
                          split at h
                          · cases h
                          · rename_i reassign hre
                            simp only [Except.ok.injEq, Prod.mk.injEq] at h
                            obtain ⟨rfl, _, rfl, rfl⟩ := h
                            have hbin := replaceReturnStatements_ok (K := K) (m := ⟨false, c, false⟩) rfl hmod _ _ _ _ hbody hb
                            have hbout := okStmts_mono body _ ⟨false, c, rt⟩ (by simp [Discipline.le]) hbin
                            have hre1 := okStmt_getFormalParamReassignments K ⟨false, c, rt⟩ _ _ _ pa hre
                            refine ⟨hR3, ?_, ?_⟩
                            · split at hbefore
                              · split at hbefore
                                · cases hbefore
                                · rename_i s0 hs0
                                  split at hbefore
                                  · simp only [Except.ok.injEq] at hbefore
                                    subst hbefore
                                    simpa [okOptStmt] using okStmt_newDefinitions K _ _ _ _ hs0
                                  · cases hbefore
                              · simp only [Except.ok.injEq] at hbefore
                                subst hbefore
                                simp [okOptStmt]
                            · simp only [okStmt, okStmts, Bool.and_eq_true, Bool.and_true]
                              exact ⟨okStmt_extractReturnValues K _ _, ⟨hre1, hbout⟩,
                                okStmt_finalAssign K _ lhs _ hl⟩
      all_goals
        simp only [okStmt, Bool.and_eq_true] at hok
        simp only [ilStmt] at h
        split at h
        · cases h
        · rename_i r0_0 r0_1 r0_2 h0
          obtain ⟨hR0, p0⟩ := ilExprs_clean hrec rt lhs _ _ _ _ _ hR hok.1.1 h0
          split at h
          · cases h
          · rename_i r1_0 r1_1 r1_2 h1
            obtain ⟨hR1, p1⟩ := ilExpr_clean hrec rt _ _ _ _ _ _ hR0 hok.1.2 h1
            split at h
            · cases h
            · rename_i r2_0 r2_1 r2_2 h2
              obtain ⟨hR2, p2⟩ := ilExprs_clean hrec rt rest _ _ _ _ _ hR1 hok.2 h2
              simp only [Except.ok.injEq, Prod.mk.injEq] at h
              obtain ⟨rfl, _, rfl, rfl⟩ := h
              refine ⟨hR2, by simp [okOptStmt], ?_⟩
              have hshape : isKeyCall K r1_2 = false := by
                rw [ilExpr_keyCall (K := K) h1]; rfl
              exact okStmt_assign_other K _ _ _ _ _ hshape ⟨⟨p0, p1⟩, p2⟩
  | .exprStmt x, _, reg, idx, _, _, _, _, hR, hok, h => by
    cases x
    case call fn args =>
      simp only [ilStmt] at h
      split at h
      · rename_i hnone
        have hk := isKeyIdent_of_none hR.1 fn hnone
        simp only [okStmt, hk, Bool.false_eq_true, if_false, Bool.and_eq_true] at hok
        split at h
        · cases h
        · rename_i r0_0 r0_1 r0_2 h0
          obtain ⟨hR0, p0⟩ := ilExpr_clean hrec rt fn _ _ _ _ _ hR hok.1 h0
          split at h
          · cases h
          · rename_i r1_0 r1_1 r1_2 h1
            obtain ⟨hR1, p1⟩ := ilExprs_clean hrec rt args _ _ _ _ _ hR0 hok.2 h1
            simp only [Except.ok.injEq, Prod.mk.injEq] at h
            obtain ⟨rfl, _, rfl, rfl⟩ := h
            refine ⟨hR1, by simp [okOptStmt], ?_⟩
            simp only [okStmt, ilExpr_keyIdent (K := K) h0, hk, Bool.false_eq_true, if_false,
              Bool.and_eq_true]
            exact ⟨p0, p1⟩
      · rename_i key info hc
        obtain ⟨hfn, hget, hk⟩ := callToFuncDecl_some hR.1 hc
        simp only [okStmt, hk, if_true, Bool.and_eq_true] at hok
        obtain ⟨_, ha⟩ := hok
        split at h
        · cases h
        · rename_i r0 funcDecl hr
          obtain ⟨hR0, hbody⟩ := hrec _ _ _ _ hR (hR.2 key info hget) hr
          have hKkey : K key = true := by rw [hfn] at hk; exact hk
          have hRp := hR0.store key funcDecl hKkey
            (okStmts_mono _ _ _ (by simp [Discipline.le]) hbody)
          have hmod : ModOK K ⟨false, c, false⟩ none := trivial
          split at h
          · cases h
          · split at h
            · cases h
            · rename_i body hb
              split at h
              · cases h
              · rename_i r2 i2 f2 h2
                obtain ⟨hR2, _⟩ := ilExpr_clean hrec rt fn _ _ _ _ _ hRp
                  (by rw [hfn]; simp [okExpr]) h2
                split at h
                · cases h
                · rename_i r3 i3 a3 h3
                  obtain ⟨hR3, pa⟩ := ilExprs_clean hrec rt args _ _ _ _ _ hR2 ha h3
                  split at h
                  · cases h
                  · rename_i reassign hre
                    simp only [Except.ok.injEq, Prod.mk.injEq] at h
                    obtain ⟨rfl, _, rfl, rfl⟩ := h
                    have hbin := replaceReturnStatements_ok (K := K) (m := ⟨false, c, false⟩) rfl hmod _ _ _ _ hbody hb
                    have hbout := okStmts_mono body _ ⟨false, c, rt⟩ (by simp [Discipline.le]) hbin
                    have hre1 := okStmt_getFormalParamReassignments K ⟨false, c, rt⟩ _ _ _ pa hre
                    refine ⟨hR3, by simp [okOptStmt], ?_⟩
                    simp only [okStmt, okStmts, Bool.and_eq_true]
                    exact ⟨hre1, hbout⟩
    all_goals
      simp only [okStmt] at hok
      simp only [ilStmt] at h
      split at h
      · cases h
      · rename_i r0_0 r0_1 r0_2 h0
        obtain ⟨hR0, p0⟩ := ilExpr_clean hrec rt _ _ _ _ _ _ hR hok h0
        simp only [Except.ok.injEq, Prod.mk.injEq] at h
        obtain ⟨rfl, _, rfl, rfl⟩ := h
        refine ⟨hR0, by simp [okOptStmt], ?_⟩
        have hshape : isKeyCall K r0_2 = false := by
          rw [ilExpr_keyCall (K := K) h0]; rfl
        exact okStmt_exprStmt_other K _ _ hshape p0
  | .ret results, _, reg, idx, _, _, _, _, hR, hok, h => by
    simp only [okStmt, Bool.and_eq_true] at hok
    simp only [ilStmt] at h
    split at h
    · cases h
    · rename_i r0_0 r0_1 r0_2 h0
      obtain ⟨hR0, p0⟩ := ilExprs_clean hrec rt results _ _ _ _ _ hR hok.2 h0
      simp only [Except.ok.injEq, Prod.mk.injEq] at h
      obtain ⟨rfl, _, rfl, rfl⟩ := h
      refine ⟨hR0, by simp [okOptStmt], ?_⟩
      simp only [okStmt, Bool.and_eq_true]
      exact ⟨by rw [ilExprs_keyCall _ _ _ _ _ _ h0]; exact hok.1, p0⟩
  | .block list, _, reg, idx, _, _, _, _, hR, hok, h => by
    simp only [okStmt] at hok
    simp only [ilStmt] at h
    split at h
    · cases h
    · rename_i r0_0 r0_1 r0_2 h0
      obtain ⟨hR0, p0⟩ := ilStmts_clean hrec rt list _ _ _ _ _ hR hok h0
      simp only [Except.ok.injEq, Prod.mk.injEq] at h
      obtain ⟨rfl, _, rfl, rfl⟩ := h
      refine ⟨hR0, by simp [okOptStmt], ?_⟩
      simp only [okStmt, Bool.and_eq_true]
      exact p0
  | .ifStmt init cond body els, _, reg, idx, _, _, _, _, hR, hok, h => by
    simp only [okStmt, Bool.and_eq_true] at hok
    simp only [ilStmt] at h
    split at h
    · cases h
    · rename_i r0_0 r0_1 r0_2 h0
      obtain ⟨hR0, p0⟩ := ilOptStmt_clean hrec rt init _ _ _ _ _ hR hok.1.1.1 h0
      split at h
      · cases h
      · rename_i r1_0 r1_1 r1_2 h1
        obtain ⟨hR1, p1⟩ := ilExpr_clean hrec rt cond _ _ _ _ _ hR0 hok.1.1.2 h1
        split at h
        · cases h
        · rename_i r2_0 r2_1 r2_2 h2
          obtain ⟨hR2, p2⟩ := ilStmts_clean hrec rt body _ _ _ _ _ hR1 hok.1.2 h2
          split at h
          · cases h
          · rename_i r3_0 r3_1 r3_2 h3
            obtain ⟨hR3, p3⟩ := ilOptStmt_clean hrec rt els _ _ _ _ _ hR2 hok.2 h3
            simp only [Except.ok.injEq, Prod.mk.injEq] at h
            obtain ⟨rfl, _, rfl, rfl⟩ := h
            refine ⟨hR3, by simp [okOptStmt], ?_⟩
            simp only [okStmt, Bool.and_eq_true]
            exact ⟨⟨⟨p0, p1⟩, p2⟩, p3⟩
  | .declStmt _ specs, _, reg, idx, _, _, _, _, hR, hok, h => by
    simp only [okStmt] at hok
    simp only [ilStmt] at h
    split at h
    · cases h
    · rename_i r0_0 r0_1 r0_2 h0
      obtain ⟨hR0, p0⟩ := ilSpecs_clean hrec rt specs _ _ _ _ _ hR hok h0
      simp only [Except.ok.injEq, Prod.mk.injEq] at h
      obtain ⟨rfl, _, rfl, rfl⟩ := h
      refine ⟨hR0, by simp [okOptStmt], ?_⟩
      simp only [okStmt, Bool.and_eq_true]
      exact p0
  | .empty _, _, reg, idx, _, _, _, _, hR, hok, h => by
    simp only [ilStmt, Except.ok.injEq, Prod.mk.injEq] at h
    obtain ⟨rfl, _, rfl, rfl⟩ := h
    exact ⟨hR, by simp [okOptStmt], by simp [okStmt]⟩
  | .labeled _ s, _, reg, idx, _, _, _, _, hR, hok, h => by
    simp only [okStmt] at hok
    simp only [ilStmt] at h
    split at h
    · cases h
    · rename_i r0_0 r0_1 r0_2 r0_3 h0
      obtain ⟨hR0, q0, p0⟩ := ilStmt_clean hrec rt s _ _ _ _ _ _ _ hR hok h0
      simp only [Except.ok.injEq, Prod.mk.injEq] at h
      obtain ⟨rfl, _, rfl, rfl⟩ := h
      refine ⟨hR0, by simp [okOptStmt], ?_⟩
      simp only [okStmt, Bool.and_eq_true]
      exact p0
  | .branch _ _, _, reg, idx, _, _, _, _, hR, hok, h => by
    simp only [ilStmt, Except.ok.injEq, Prod.mk.injEq] at h
    obtain ⟨rfl, _, rfl, rfl⟩ := h
    exact ⟨hR, by simp [okOptStmt], by simp [okStmt]⟩
termination_by structural e => e
theorem ilOptStmt_clean {K : String → Bool} {c : Bool} {rec : Inliner} (hrec : rec.Clean K c) (rt : Bool) :
    ∀ (e : Option Stmt) (reg : Registry) (idx : Nat) (r : Registry) (i : Nat) (e1 : Option Stmt),
      RegOK K c reg → okOptStmt K ⟨true, c, rt⟩ e = true →
      ilOptStmt rec reg idx e = .ok (r, i, e1) →
      RegOK K c r ∧ okOptStmt K ⟨false, c, rt⟩ e1 = true
  | none, reg, idx, _, _, _, hR, hok, h => by
    simp only [ilOptStmt, Except.ok.injEq, Prod.mk.injEq] at h
    obtain ⟨rfl, _, rfl⟩ := h
    exact ⟨hR, by simp [okOptStmt]⟩
  | some s, reg, idx, _, _, _, hR, hok, h => by
    simp only [okOptStmt] at hok
    simp only [ilOptStmt] at h
    split at h
    · cases h
    · rename_i r0_0 r0_1 r0_2 r0_3 h0
      obtain ⟨hR0, q0, p0⟩ := ilStmt_clean hrec rt s _ _ _ _ _ _ _ hR hok h0
      simp only [Except.ok.injEq, Prod.mk.injEq] at h
      obtain ⟨rfl, _, rfl⟩ := h
      refine ⟨hR0, ?_⟩
      simp only [okOptStmt, Bool.and_eq_true]
      exact p0
termination_by structural e => e
theorem ilStmts_clean {K : String → Bool} {c : Bool} {rec : Inliner} (hrec : rec.Clean K c) (rt : Bool) :
    ∀ (e : List Stmt) (reg : Registry) (idx : Nat) (r : Registry) (i : Nat) (e1 : List Stmt),
      RegOK K c reg → okStmts K ⟨true, c, rt⟩ e = true →
      ilStmts rec reg idx e = .ok (r, i, e1) →
      RegOK K c r ∧ okStmts K ⟨false, c, rt⟩ e1 = true
  | [], reg, idx, _, _, _, hR, hok, h => by
    simp only [ilStmts, Except.ok.injEq, Prod.mk.injEq] at h
    obtain ⟨rfl, _, rfl⟩ := h
    exact ⟨hR, by simp [okStmts]⟩
  | s :: rest, reg, idx, _, _, _, hR, hok, h => by
    simp only [okStmts, Bool.and_eq_true] at hok
    simp only [ilStmts] at h
    split at h
    · cases h
    · rename_i r0_0 r0_1 r0_2 r0_3 h0
      obtain ⟨hR0, q0, p0⟩ := ilStmt_clean hrec rt s _ _ _ _ _ _ _ hR hok.1 h0
      split at h
      · cases h
      · rename_i r1_0 r1_1 r1_2 h1
        obtain ⟨hR1, p1⟩ := ilStmts_clean hrec rt rest _ _ _ _ _ hR0 hok.2 h1
        simp only [Except.ok.injEq, Prod.mk.injEq] at h
        obtain ⟨rfl, _, rfl⟩ := h
        refine ⟨hR1, ?_⟩
        cases r0_2 with
        | none =>
          simp only [Option.toList, List.nil_append, okStmts, Bool.and_eq_true]
          exact ⟨p0, p1⟩
        | some b0 =>
          simp only [okOptStmt] at q0
          simp only [Option.toList, List.singleton_append, okStmts, Bool.and_eq_true]
          exact ⟨q0, p0, p1⟩
termination_by structural e => e
end

theorem ilDecl_clean {K : String → Bool} {c : Bool} {rec : Inliner} (hrec : rec.Clean K c)
    (rt : Bool) (d : Decl) (reg : Registry) (idx : Nat) (r : Registry) (i : Nat) (d1 : Decl)
    (hR : RegOK K c reg) (hok : okDecl K ⟨true, c, rt⟩ d = true)
    (h : ilDecl rec reg idx d = .ok (r, i, d1)) :
    RegOK K c r ∧ okDecl K ⟨false, c, rt⟩ d1 = true := by
  cases d with
  | func f =>
    simp only [okDecl] at hok
    simp only [ilDecl] at h
    split at h
    · cases h
    · rename_i r1 i1 b1 h1
      simp only [Except.ok.injEq, Prod.mk.injEq] at h
      obtain ⟨rfl, _, rfl⟩ := h
      exact ilStmts_clean hrec rt _ _ _ _ _ _ hR hok h1
  | gen tok specs =>
    simp only [okDecl] at hok
    simp only [ilDecl] at h
    split at h
    · cases h
    · rename_i r1 i1 b1 h1
      simp only [Except.ok.injEq, Prod.mk.injEq] at h
      obtain ⟨rfl, _, rfl⟩ := h
      exact ilSpecs_clean hrec rt _ _ _ _ _ _ hR hok h1

theorem ilDecls_clean {K : String → Bool} {c : Bool} {rec : Inliner} (hrec : rec.Clean K c)
    (rt : Bool) (ds : List Decl) :
    ∀ (reg : Registry) (idx : Nat) (r : Registry) (i : Nat) (ds1 : List Decl),
      RegOK K c reg → ds.all (okDecl K ⟨true, c, rt⟩) = true →
      ilDecls rec reg idx ds = .ok (r, i, ds1) →
      RegOK K c r ∧ ds1.all (okDecl K ⟨false, c, rt⟩) = true := by
  induction ds with
  | nil =>
    intro reg idx r i ds1 hR _ h
    simp only [ilDecls, Except.ok.injEq, Prod.mk.injEq] at h
    obtain ⟨rfl, _, rfl⟩ := h
    exact ⟨hR, by simp⟩
  | cons d rest ih =>
    intro reg idx r i ds1 hR hok h
    simp only [List.all_cons, Bool.and_eq_true] at hok
    simp only [ilDecls] at h
    split at h
    · cases h
    · rename_i r1 i1 d1 h1
      split at h
      · cases h
      · rename_i r2 i2 rest1 h2
        simp only [Except.ok.injEq, Prod.mk.injEq] at h
        obtain ⟨rfl, _, rfl⟩ := h
        obtain ⟨hR1, p1⟩ := ilDecl_clean hrec rt _ _ _ _ _ _ hR hok.1 h1
        obtain ⟨hR2, p2⟩ := ih _ _ _ _ _ hR1 hok.2 h2
        exact ⟨hR2, by simp only [List.all_cons, Bool.and_eq_true]; exact ⟨p1, p2⟩⟩

theorem inlineNode_clean {K : String → Bool} {c : Bool} {rec : Inliner} (hrec : rec.Clean K c)
    (rt : Bool) (reg : Registry) (n : Node) (r : Registry) (n1 : Node) (hR : RegOK K c reg)
    (hok : okNode K ⟨true, c, rt⟩ n = true) (h : inlineNode rec reg n = .ok (r, n1)) :
    RegOK K c r ∧ okNode K ⟨false, c, rt⟩ n1 = true := by
  cases n with
  | file f =>
    simp only [okNode] at hok
    simp only [inlineNode] at h
    split at h
    · cases h
    · rename_i r1 i1 b1 h1
      simp only [Except.ok.injEq, Prod.mk.injEq] at h
      obtain ⟨rfl, rfl⟩ := h
      exact ilDecls_clean hrec rt _ _ _ _ _ _ hR hok h1
  | funcDecl d =>
    simp only [okNode] at hok
    simp only [inlineNode] at h
    split at h
    · cases h
    · rename_i r1 i1 b1 h1
      simp only [Except.ok.injEq, Prod.mk.injEq] at h
      obtain ⟨rfl, rfl⟩ := h
      exact ilStmts_clean hrec rt _ _ _ _ _ _ hR hok h1
  | stmt s =>
    simp only [okNode] at hok
    simp only [inlineNode] at h
    split at h
    · cases h
    · rename_i r1 i1 b1 s1 h1
      simp only [Except.ok.injEq, Prod.mk.injEq] at h
      obtain ⟨rfl, rfl⟩ := h
      obtain ⟨hR1, _, p1⟩ := ilStmt_clean hrec rt _ _ _ _ _ _ _ _ hR hok h1
      exact ⟨hR1, p1⟩

theorem inlinerOf_clean (K : String → Bool) (c : Bool) : ∀ fuel, (inlinerOf fuel).Clean K c := by
  intro fuel
  induction fuel with
  | zero =>
    intro reg d r0 d1 _ _ h
    simp [inlinerOf, inlineFunc] at h
  | succ f ih =>
    intro reg d r0 d1 hR hok h
    obtain ⟨f1, i, body1, hf, hb, rfl⟩ := inlinerOf_ok h
    simp only [Nat.add_right_cancel_iff] at hf
    subst hf
    exact ilStmts_clean ih false _ _ _ _ _ _ hR hok hb

theorem Registry.get_mem (reg : Registry) (k : String) (d : FuncDecl)
    (h : reg.get k = some d) : (k, d) ∈ reg := by
  induction reg with
  | nil => simp [Registry.get] at h
  | cons p rest ih =>
    obtain ⟨k1, v⟩ := p
    by_cases hk : k1 = k
    · simp only [Registry.get, hk, if_true, Option.some.injEq] at h
      subst h
      subst hk
      exact List.mem_cons_self _ _
    · simp only [Registry.get, hk, if_false] at h
      exact List.mem_cons_of_mem _ (ih h)

theorem RegOK.of_bodiesOK (reg : Registry) (c : Bool)
    (h : reg.bodiesOK ⟨true, c, false⟩ = true) : RegOK reg.has c reg := by
  refine ⟨fun _ => rfl, ?_⟩
  intro k d hg
  simp only [Registry.bodiesOK, List.all_eq_true] at h
  exact h _ (Registry.get_mem reg k d hg)

theorem inlineFunc_clean (c rt : Bool) (fuel : Nat) (reg : Registry) (n : Node)
    (reg1 : Registry) (n1 : Node) (hreg : reg.bodiesOK ⟨true, c, false⟩ = true)
    (hn : okNode reg.has ⟨true, c, rt⟩ n = true) (h : inlineFunc fuel reg n = .ok (reg1, n1)) :
    okNode reg.has ⟨false, c, rt⟩ n1 = true := by
  cases fuel with
  | zero => simp [inlineFunc] at h
  | succ f =>
    rw [inlineFunc_succ] at h
    exact (inlineNode_clean (inlinerOf_clean reg.has c f) rt reg n reg1 n1
      (RegOK.of_bodiesOK reg c hreg) hn h).2

/-- C2, as the code has it: in a unit where the targets of call sites hold
no call site, with a registry whose bodies are so too and return no call of a
registered function, the tree `inlineFunc` returns holds no call site of a
registered function: no assignment whose first right-hand expression is such
a call, and no such call as a statement. -/
theorem inlineFunc_leaves_no_call_site (fuel : Nat) (reg : Registry) (n : Node)
    (reg1 : Registry) (n1 : Node) (hreg : reg.bodiesOK calleeSites = true)
    (hn : okNode reg.has anySites n = true) (h : inlineFunc fuel reg n = .ok (reg1, n1)) :
    okNode reg.has siteFree n1 = true :=
  inlineFunc_clean true true fuel reg n reg1 n1 hreg hn h

/-- C2, witness: the test `04-nested`. -/
theorem inlineFunc_leaves_no_call_site_witness :
    Ex.reg4.bodiesOK calleeSites = true ∧
    okNode Ex.reg4.has anySites (.file Ex.file4) = true ∧
    ∃ reg1 n1, inlineFunc 3 Ex.reg4 (.file Ex.file4) = .ok (reg1, n1) ∧
      okNode Ex.reg4.has siteFree n1 = true :=
  ⟨rfl, rfl, _, _, rfl,
    inlineFunc_leaves_no_call_site 3 Ex.reg4 (.file Ex.file4) _ _ rfl rfl rfl⟩

/-- C2, counterexample: with `f` registered, `inlineFunc` returns
`func h() int { var x = f(); println(f()); if f() > 0 { }; return f() }`
unchanged, with its four calls of `f`.  Call sites are left too: after
`x := twice(3)`, where `twice` returns `sum(a, a)`, the tree holds the
assignment `_rv_0 = sum(a, a)`; after `h(func() { f() }).x = g()` the target
of the new assignment still holds the statement `f()`. -/
theorem inlineFunc_keeps_calls_elsewhere :
    inlineFunc 2 [("f", Ex.fOne)] (.funcDecl Ex.callsElsewhere)
      = .ok ([("f", Ex.fOne)], .funcDecl Ex.callsElsewhere) ∧
    okNode (Registry.has [("f", Ex.fOne)]) callFree (.funcDecl Ex.callsElsewhere) = false ∧
    okStmt (Registry.has [("f", Ex.fOne)]) callFree (.ret [.call (.ident "f") []]) = false ∧
    (resultDecl (inlineFunc 3 [("sum", Ex.sum4), ("twice", Ex.twice)]
        (.funcDecl Ex.mainCallsTwice))).map
      (fun d => okStmts (fun k => k = "sum" || k = "twice") siteFree d.body) = some false ∧
    (resultDecl (inlineFunc 3 Ex.regFG (.funcDecl Ex.mainSiteInTarget))).map
      (fun d => okStmts Ex.regFG.has siteFree d.body) = some false :=
  ⟨rfl, rfl, rfl, rfl, rfl⟩

/-- C5, as the code has it: when every call of a registered function, in the
caller and in the bodies of the registry, is a call site whose targets hold
no such call, the tree `inlineFunc` returns holds no call of a registered
function; for the test `04-nested`, `extractInlineFuncs` gives the registry
of `sum`, `mult` and `calcs`, `inlineFunc` returns a tree, and the tree holds
no call of `calcs`, `sum` or `mult`. -/
theorem inlineFunc_nested_leaves_no_call (fuel : Nat) (reg : Registry) (n : Node)
    (reg1 : Registry) (n1 : Node) (hreg : reg.bodiesOK sitesOnly = true)
    (hn : okNode reg.has sitesOnly n = true) (h : inlineFunc fuel reg n = .ok (reg1, n1)) :
    okNode reg.has callFree n1 = true ∧
    (extractInlineFuncs Ex.pkg4).1 = Ex.reg4 ∧
    (extractInlineFuncs Ex.pkg4).2.files = [("main.go", Ex.file4)] ∧
    (∃ r1 m1, inlineFunc 3 Ex.reg4 (.file Ex.file4) = .ok (r1, m1) ∧
      okNode (fun k => k = "calcs" || k = "sum" || k = "mult") callFree m1 = true) :=
  ⟨inlineFunc_clean false false fuel reg n reg1 n1 hreg hn h, rfl, rfl, _, _, rfl, rfl⟩

/-- C5, witness: the test `04-nested`. -/
theorem inlineFunc_nested_leaves_no_call_witness :
    Ex.reg4.bodiesOK sitesOnly = true ∧
    okNode Ex.reg4.has sitesOnly (.file Ex.file4) = true ∧
    ∃ reg1 n1, inlineFunc 3 Ex.reg4 (.file Ex.file4) = .ok (reg1, n1) ∧
      okNode Ex.reg4.has callFree n1 = true :=
  ⟨rfl, rfl, _, _, rfl,
    (inlineFunc_nested_leaves_no_call 3 Ex.reg4 (.file Ex.file4) _ _ rfl rfl rfl).1⟩

/-- C5, counterexample: with the registry of the test `04-nested`, whose
`calcs` calls `sum` and `mult` as the right-hand side of assignments,
`inlineFunc` returns `func main() { fmt.Println(calcs(7, 9)) }` unchanged,
with its call of `calcs`; and with `pos`, which calls `sum` as the right-hand
side of the assignment of an `if`, it returns no tree. -/
theorem inlineFunc_nested_call_left_or_no_tree :
    inlineFunc 3 Ex.reg4 (.funcDecl Ex.mainPrintsCalcs)
      = .ok (Ex.reg4, .funcDecl Ex.mainPrintsCalcs) ∧
    okNode Ex.reg4.has callFree (.funcDecl Ex.mainPrintsCalcs) = false ∧
    (∀ fuel, inlineFunc (fuel + 3) [("sum", Ex.sum4), ("pos", Ex.posInit)]
      (.funcDecl Ex.mainCallsPos) = .error .notInSlice) :=
  ⟨rfl, rfl, fun _ => rfl⟩

mutual
theorem rrStmt_noReturn (m : ReturnModifier) (label : String) :
    ∀ (e : Stmt) (inList found : Bool), hasReturn e = false →
      rrStmt m label inList found e = .ok (found, e, none)
  | .ret _, _, _, h => by simp [hasReturn] at h
  | .assign _ _ _, _, _, _ => by simp [rrStmt, rrExprs_id]
  | .exprStmt _, _, _, _ => by simp [rrStmt, rrExpr_id]
  | .block list, _, found, h => by
    simp only [hasReturn] at h
    simp [rrStmt, rrStmts_noReturn m label list found h]
  | .ifStmt init cond body els, _, found, h => by
    simp only [hasReturn, Bool.or_eq_false_iff] at h
    simp [rrStmt, rrOptStmt_noReturn m label init found h.1.1,
      rrStmts_noReturn m label body found h.1.2, rrOptStmt_noReturn m label els found h.2,
      rrExpr_id]
  | .declStmt _ _, _, _, _ => by simp [rrStmt, rrSpecs_id]
  | .empty _, _, _, _ => by simp [rrStmt]
  | .labeled _ s, _, found, h => by
    simp only [hasReturn] at h
    simp [rrStmt, rrStmt_noReturn m label s false found h]
  | .branch _ _, _, _, _ => by simp [rrStmt]
termination_by structural e => e
theorem rrOptStmt_noReturn (m : ReturnModifier) (label : String) :
    ∀ (e : Option Stmt) (found : Bool), hasReturnOpt e = false →
      rrOptStmt m label found e = .ok (found, e)
  | none, _, _ => by simp [rrOptStmt]
  | some s, found, h => by
    simp only [hasReturnOpt] at h
    simp [rrOptStmt, rrStmt_noReturn m label s false found h]
termination_by structural e => e
theorem rrStmts_noReturn (m : ReturnModifier) (label : String) :
    ∀ (e : List Stmt) (found : Bool), hasReturns e = false →
      rrStmts m label found e = .ok (found, e)
  | [], _, _ => by simp [rrStmts]
  | s :: rest, found, h => by
    simp only [hasReturns, Bool.or_eq_false_iff] at h
    simp [rrStmts, rrStmt_noReturn m label s true found h.1,
      rrStmts_noReturn m label rest found h.2]
termination_by structural e => e
end

mutual
theorem rrStmt_discard (label : String) :
    ∀ (e : Stmt) (inList found : Bool),
      rrStmt none label inList found e = .ok (found || hasReturn e, jumpStmt label e, none)
  | .ret _, _, _ => by simp [rrStmt, hasReturn, jumpStmt]
  | .assign _ _ _, _, _ => by simp [rrStmt, rrExprs_id, hasReturn, jumpStmt]
  | .exprStmt _, _, _ => by simp [rrStmt, rrExpr_id, hasReturn, jumpStmt]
  | .block list, _, found => by
    simp [rrStmt, rrStmts_discard label list found, hasReturn, jumpStmt]
  | .ifStmt init cond body els, _, found => by
    simp [rrStmt, rrOptStmt_discard label init, rrStmts_discard label body,
      rrOptStmt_discard label els, rrExpr_id, hasReturn, jumpStmt, Bool.or_assoc]
  | .declStmt _ _, _, _ => by simp [rrStmt, rrSpecs_id, hasReturn, jumpStmt]
  | .empty _, _, _ => by simp [rrStmt, hasReturn, jumpStmt]
  | .labeled _ s, _, found => by
    simp [rrStmt, rrStmt_discard label s false found, hasReturn, jumpStmt]
  | .branch _ _, _, _ => by simp [rrStmt, hasReturn, jumpStmt]
termination_by structural e => e
theorem rrOptStmt_discard (label : String) :
    ∀ (e : Option Stmt) (found : Bool),
      rrOptStmt none label found e = .ok (found || hasReturnOpt e, jumpOptStmt label e)
  | none, _ => by simp [rrOptStmt, hasReturnOpt, jumpOptStmt]
  | some s, found => by
    simp [rrOptStmt, rrStmt_discard label s false found, hasReturnOpt, jumpOptStmt]
termination_by structural e => e
theorem rrStmts_discard (label : String) :
    ∀ (e : List Stmt) (found : Bool),
      rrStmts none label found e = .ok (found || hasReturns e, jumpStmts label e)
  | [], _ => by simp [rrStmts, hasReturns, jumpStmts]
  | s :: rest, found => by
    simp [rrStmts, rrStmt_discard label s true found, rrStmts_discard label rest,
      hasReturns, jumpStmts, Bool.or_assoc]
termination_by structural e => e
end

mutual
theorem hasReturn_jumpStmt (label : String) : ∀ e : Stmt, hasReturn (jumpStmt label e) = false
  | .ret _ => by simp [jumpStmt, hasReturn]
  | .assign _ _ _ => by simp [jumpStmt, hasReturn]
  | .exprStmt _ => by simp [jumpStmt, hasReturn]
  | .block list => by simp [jumpStmt, hasReturn, hasReturns_jumpStmts label list]
  | .ifStmt init _ body els => by
    simp [jumpStmt, hasReturn, hasReturnOpt_jumpOptStmt label init,
      hasReturns_jumpStmts label body, hasReturnOpt_jumpOptStmt label els]
  | .declStmt _ _ => by simp [jumpStmt, hasReturn]
  | .empty _ => by simp [jumpStmt, hasReturn]
  | .labeled _ s => by simp [jumpStmt, hasReturn, hasReturn_jumpStmt label s]
  | .branch _ _ => by simp [jumpStmt, hasReturn]
termination_by structural e => e
theorem hasReturnOpt_jumpOptStmt (label : String) :
    ∀ e : Option Stmt, hasReturnOpt (jumpOptStmt label e) = false
  | none => by simp [jumpOptStmt, hasReturnOpt]
  | some s => by simp [jumpOptStmt, hasReturnOpt, hasReturn_jumpStmt label s]
termination_by structural e => e
theorem hasReturns_jumpStmts (label : String) :
    ∀ e : List Stmt, hasReturns (jumpStmts label e) = false
  | [] => by simp [jumpStmts, hasReturns]
  | s :: rest => by
    simp [jumpStmts, hasReturns, hasReturn_jumpStmt label s, hasReturns_jumpStmts label rest]
termination_by structural e => e
end

theorem jumpStmts_append (label : String) (a b : List Stmt) :
    jumpStmts label (a ++ b) = jumpStmts label a ++ jumpStmts label b := by
  induction a with
  | nil => simp [jumpStmts]
  | cons s rest ih => simp [jumpStmts, ih]

theorem hasReturns_append (a b : List Stmt) :
    hasReturns (a ++ b) = (hasReturns a || hasReturns b) := by
  induction a with
  | nil => simp [hasReturns]
  | cons s rest ih => simp [hasReturns, ih, Bool.or_assoc]

/-- In discard mode `replaceReturnStatements` never fails; on a body that is
not empty it gives the statements before the final return with every return
turned into a jump to the exit label, then an empty statement, then the
label when a return was turned into a jump. -/
theorem replaceReturnStatements_discard (funcName : String) (funcIdx : Nat) (stmt : List Stmt)
    (hne : stmt ≠ []) :
    replaceReturnStatements funcName funcIdx stmt none = .ok
      (jumpStmts (exitLabel funcName funcIdx) (splitFinalReturn stmt).1 ++ [.empty false] ++
        (if hasReturns (splitFinalReturn stmt).1 then
          [.labeled (exitLabel funcName funcIdx) (.empty true)] else [])) := by
  have hlen : ¬ stmt.length = 0 := by
    intro h
    exact hne (List.length_eq_zero.mp h)
  simp only [replaceReturnStatements, hlen, if_false, rrStmts_discard, Bool.false_or,
    hasReturns_append, jumpStmts_append, hasReturns, hasReturn, Bool.or_false, jumpStmts,
    jumpStmt]
  split <;> simp

theorem captureAssignments_eq (results : List Expr) :
    ∀ (names : List String) (i : Nat) (l : List Stmt),
      captureAssignments results i names = .ok l →
      l = List.zipWith captureAssign names (results.drop i) ∧
      names.length ≤ (results.drop i).length := by
  intro names
  induction names with
  | nil =>
    intro i l h
    simp only [captureAssignments, Except.ok.injEq] at h
    subst h
    simp
  | cons n rest ih =>
    intro i l h
    simp only [captureAssignments] at h
    split at h
    · cases h
    · rename_i r hg
      split at h
      · cases h
      · rename_i l1 hl
        simp only [Except.ok.injEq] at h
        subst h
        obtain ⟨h1, h2⟩ := ih _ _ hl
        have hi : i < results.length := by
          rw [List.get?_eq_some] at hg
          exact hg.1
        have hd : results.drop i = r :: results.drop (i + 1) := by
          rw [List.drop_eq_getElem_cons hi]
          congr 1
          rw [List.get?_eq_getElem?, List.getElem?_eq_getElem hi] at hg
          exact Option.some.inj hg
        rw [hd]
        simp only [List.zipWith_cons_cons, List.length_cons]
        exact ⟨by rw [h1]; rfl, by omega⟩

theorem hasReturns_captured (names : List String) :
    ∀ results : List Expr, hasReturns (List.zipWith captureAssign names results) = false := by
  induction names with
  | nil => intro results; simp [hasReturns]
  | cons n rest ih =>
    intro results
    cases results with
    | nil => simp [hasReturns]
    | cons r rs => simp [hasReturns, hasReturn, captureAssign, ih]

/-- In capture mode, on a body whose only return outside function literals
is its final statement, `replaceReturnStatements` keeps the statements before
the return and puts, in place of the return, the block of the assignments of
the results to the capture variables, in positional order. -/
theorem replaceReturnStatements_capture_final (funcName : String) (funcIdx : Nat)
    (init : List Stmt) (results : List Expr) (names : List String) (out : List Stmt)
    (hinit : hasReturns init = false)
    (h : replaceReturnStatements funcName funcIdx (init ++ [.ret results])
      (some (captureModifier names)) = .ok out) :
    out = init ++ [.block (List.zipWith captureAssign names results)] ∧
    names.length ≤ results.length := by
  have hsp : splitFinalReturn (init ++ [.ret results]) = (init, results) := by
    simp [splitFinalReturn]
  simp only [replaceReturnStatements, List.length_append, List.length_singleton,
    Nat.add_one_ne_zero, if_false, hsp] at h
  split at h
  · cases h
  · rename_i l hl
    unfold captureModifier at hl
    split at hl
    · cases hl
    · rename_i l1 hl1
      simp only [Except.ok.injEq] at hl
      subst hl
      obtain ⟨h1, h2⟩ := captureAssignments_eq results names 0 l1 hl1
      simp only [List.drop_zero] at h1 h2
      have hblock : hasReturns (init ++ [Stmt.block l1]) = false := by
        rw [hasReturns_append, hinit, h1]
        simp only [hasReturns, hasReturn, Bool.or_false, Bool.false_or]
        exact hasReturns_captured names results
      rw [rrStmts_noReturn _ _ _ _ hblock] at h
      simp only [Bool.false_eq_true, if_false, Except.ok.injEq] at h
      subst h
      exact ⟨by rw [h1], h2⟩

theorem declaredNames_retval (fs : List Field) :
    ∀ i, (((retvalSpecsFrom i fs).map
      (fun s => match s with | .value names _ _ => names)).flatten = retvalNamesFrom i fs) ∧
      (retvalNamesFrom i fs).length = fs.length := by
  induction fs with
  | nil => intro i; simp [retvalSpecsFrom, retvalNamesFrom]
  | cons f rest ih =>
    intro i
    simp [retvalSpecsFrom, retvalNamesFrom, (ih (i + 1)).1, (ih (i + 1)).2]

theorem extractReturnValues_names (d : FuncDecl) :
    declaredNames (extractReturnValues d).1 = (extractReturnValues d).2 ∧
    (extractReturnValues d).2.length = (flattenFields (d.type.results.getD [])).length := by
  unfold extractReturnValues
  cases d.type.results with
  | none => simp [declaredNames, flattenFields]
  | some list =>
    simp only [declaredNames, Option.getD_some]
    exact declaredNames_retval _ 0

theorem flattenFields_map_type (f : Field) (names : List String) :
    (names.map (fun n => ({ names := [n], type := f.type, tag := f.tag, decs := f.decs } : Field))).map
      (fun g => (g.type, g.tag, g.decs)) = (List.replicate names.length f).map
      (fun g => (g.type, g.tag, g.decs)) := by
  induction names with
  | nil => rfl
  | cons n rest ih => simp [List.replicate_succ, ih]

/-- C11: `flattenFields` gives a list in which every entry has at most one
name, exactly one when the field it comes from has names and none when that
field has none; the names read left to right are those of the input; every
entry carries the type, tag and decorations of the field it comes from; and
the length is the sum over the input fields of max(1, number of names). -/
theorem flattenFields_one_name_per_entry (fs : List Field) :
    (∀ g ∈ flattenFields fs, g.names.length ≤ 1) ∧
    (flattenFields fs).map (fun g => g.names.length)
      = (fieldOrigins fs).map (fun f => min 1 f.names.length) ∧
    ((flattenFields fs).map (fun g => g.names)).flatten = (fs.map (fun f => f.names)).flatten ∧
    (flattenFields fs).map (fun g => (g.type, g.tag, g.decs))
      = (fieldOrigins fs).map (fun f => (f.type, f.tag, f.decs)) ∧
    (flattenFields fs).length = (fs.map (fun f => max 1 f.names.length)).sum := by
  induction fs with
  | nil => simp [flattenFields, fieldOrigins]
  | cons f rest ih =>
    obtain ⟨h1, h2, h3, h4, h5⟩ := ih
    unfold fieldOrigins at h2 h4
    by_cases hf : f.names.length = 0
    · have hn : f.names = [] := List.length_eq_zero.mp hf
      simp only [flattenFields, hf, if_true, fieldOrigins]
      refine ⟨?_, ?_, ?_, ?_, ?_⟩
      · intro g hg
        rcases List.mem_cons.mp hg with rfl | hg
        · omega
        · exact h1 g hg
      · simp [hf, h2]
      · simp [hn, h3]
      · simp [hf, h4]
      · simp [hf, h5, Nat.add_comm]
    · have hpos : 1 ≤ f.names.length := by omega
      simp only [flattenFields, hf, if_false, fieldOrigins]
      refine ⟨?_, ?_, ?_, ?_, ?_⟩
      · intro g hg
        rcases List.mem_append.mp hg with hg | hg
        · obtain ⟨n, _, rfl⟩ := List.mem_map.mp hg
          simp
        · exact h1 g hg
      · simp only [List.map_append, List.map_map, List.map_cons, List.flatten_cons,
          Nat.max_eq_right hpos, h2]
        congr 1
        simp [Function.comp_def, Nat.min_eq_left hpos]
      · simp only [List.map_append, List.map_map, List.flatten_append, List.map_cons,
          List.flatten_cons, h3]
        congr 1
        simp [Function.comp_def]
        induction f.names with
        | nil => rfl
        | cons n r ihn => simp [ihn]
      · simp only [List.map_append, List.map_cons, List.flatten_cons, Nat.max_eq_right hpos, h4]
        congr 1
        exact flattenFields_map_type f f.names
      · simp [h5, Nat.max_eq_right hpos]

theorem flattenFields_single (fs : List Field) (h : ∀ f ∈ fs, f.names.length ≤ 1) :
    flattenFields fs = fs := by
  induction fs with
  | nil => rfl
  | cons f rest ih =>
    have hrest := ih (fun g hg => h g (List.mem_cons_of_mem f hg))
    have hf := h f (List.mem_cons_self f rest)
    obtain ⟨names, type, tag, decs⟩ := f
    match names, hf with
    | [], _ => simp [flattenFields, hrest]
    | [n], _ => simp [flattenFields, hrest]
    | _ :: _ :: _, hf => simp at hf

/-- C12: flattening a flattened list gives the same list, and a list in
which every field has at most one name is returned as an equal list. -/
theorem flattenFields_idempotent (fs : List Field) :
    flattenFields (flattenFields fs) = flattenFields fs ∧
    ((∀ f ∈ fs, f.names.length ≤ 1) → flattenFields fs = fs) := by
  refine ⟨?_, flattenFields_single fs⟩
  apply flattenFields_single
  induction fs with
  | nil => simp [flattenFields]
  | cons f rest ih =>
    intro g hg
    by_cases hf : f.names.length = 0
    · simp only [flattenFields, hf, if_true] at hg
      rcases List.mem_cons.mp hg with rfl | hg
      · omega
      · exact ih g hg
    · simp only [flattenFields, hf, if_false] at hg
      rcases List.mem_append.mp hg with hg | hg
      · obtain ⟨n, _, rfl⟩ := List.mem_map.mp hg
        simp
      · exact ih g hg

/-- C12, witness: the field `x int` followed by a nameless `int`. -/
theorem flattenFields_idempotent_witness :
    (∀ f ∈ [Ex.intField ["x"], Ex.intField []], f.names.length ≤ 1) ∧
    flattenFields [Ex.intField ["x"], Ex.intField []] = [Ex.intField ["x"], Ex.intField []] ∧
    flattenFields [Ex.intField ["x", "y"], Ex.intField []]
      = [Ex.intField ["x"], Ex.intField ["y"], Ex.intField []] :=
  ⟨by decide, (flattenFields_idempotent [Ex.intField ["x"], Ex.intField []]).2 (by decide), rfl⟩

theorem flattenFields_names_le (fs : List Field) : ∀ g ∈ flattenFields fs, g.names.length ≤ 1 := by
  induction fs with
  | nil => simp [flattenFields]
  | cons f rest ih =>
    intro g hg
    by_cases hf : f.names.length = 0
    · simp only [flattenFields, hf, if_true] at hg
      rcases List.mem_cons.mp hg with rfl | hg
      · omega
      · exact ih g hg
    · simp only [flattenFields, hf, if_false] at hg
      rcases List.mem_append.mp hg with hg | hg
      · obtain ⟨n, _, rfl⟩ := List.mem_map.mp hg
        simp
      · exact ih g hg

theorem reassignmentSpecs_eq (args : List Expr) :
    ∀ (ps : List Field) (i : Nat), (∀ p ∈ ps, p.names.length = 1) →
      i + ps.length ≤ args.length →
      reassignmentSpecs args i ps = .ok (List.zipWith bindingSpec ps (args.drop i)) := by
  intro ps
  induction ps with
  | nil => intro i _ _; simp [reassignmentSpecs]
  | cons p rest ih =>
    intro i hp hlen
    simp only [List.length_cons] at hlen
    have hi : i < args.length := by omega
    have hd : args.drop i = args[i] :: args.drop (i + 1) := List.drop_eq_getElem_cons hi
    have hg : args.get? i = some args[i] := by
      rw [List.get?_eq_getElem?, List.getElem?_eq_getElem hi]
    have h1 := hp p (List.mem_cons_self p rest)
    have hrest := ih (i + 1) (fun q hq => hp q (List.mem_cons_of_mem p hq)) (by omega)
    obtain ⟨names, type, tag, decs⟩ := p
    match names, h1 with
    | [n], _ =>
      simp only [reassignmentSpecs, hg, hrest, hd, List.zipWith_cons_cons, bindingSpec]

/-- C16: for a callee whose flattened formal parameters are all named and a
call with as many arguments, `getFormalParamReassignments` returns, when there
is at least one parameter, one `var` declaration whose i-th spec declares the
name of the i-th flattened parameter with its declared type and the i-th
argument as the only value, one spec per parameter; an argument that is an
identifier named like its parameter gets its spec too; a callee without
parameters gives an empty statement. -/
theorem getFormalParamReassignments_binds_each_parameter (decl : FuncDecl) (args : List Expr)
    (hnamed : ∀ p ∈ flattenFields decl.type.params, p.names ≠ [])
    (hlen : (flattenFields decl.type.params).length = args.length) :
    (1 ≤ args.length →
      getFormalParamReassignments decl args = .ok (.declStmt .VAR
        (List.zipWith bindingSpec (flattenFields decl.type.params) args)) ∧
      (List.zipWith bindingSpec (flattenFields decl.type.params) args).length = args.length) ∧
    (args.length = 0 → getFormalParamReassignments decl args = .ok (.empty false)) ∧
    (∀ (x t : String) (d : FuncDecl), d.type.params = [⟨[x], t, none, []⟩] →
      getFormalParamReassignments d [.ident x]
        = .ok (.declStmt .VAR [.value [x] (some t) [.ident x]])) := by
  have hone : ∀ p ∈ flattenFields decl.type.params, p.names.length = 1 := by
    intro p hp
    have h1 := flattenFields_names_le _ p hp
    have h2 : p.names.length ≠ 0 := fun h => hnamed p hp (List.length_eq_zero.mp h)
    omega
  have hspecs := reassignmentSpecs_eq args _ 0 hone (by omega)
  simp only [List.drop_zero] at hspecs
  refine ⟨?_, ?_, ?_⟩
  · intro hpos
    have hl : (List.zipWith bindingSpec (flattenFields decl.type.params) args).length
        = args.length := by
      simp [hlen]
    refine ⟨?_, hl⟩
    unfold getFormalParamReassignments
    rw [hspecs]
    match hz : List.zipWith bindingSpec (flattenFields decl.type.params) args, hl with
    | [], hl => simp at hl; omega
    | s :: specs, _ => rfl
  · intro h0
    have ha : args = [] := List.length_eq_zero.mp h0
    unfold getFormalParamReassignments
    rw [hspecs, ha]
    simp
  · intro x t d hd
    simp [getFormalParamReassignments, hd, flattenFields, reassignmentSpecs]

/-- C16, witness: the declaration `func foo(a int, b string)` and the call
`foo(x, y)` of the documentation of `getFormalParamReassignments`. -/
theorem getFormalParamReassignments_binds_each_parameter_witness :
    getFormalParamReassignments Ex.foo [.ident "x", .ident "y"]
      = .ok (.declStmt .VAR [.value ["a"] (some "int") [.ident "x"],
          .value ["b"] (some "string") [.ident "y"]]) :=
  ((getFormalParamReassignments_binds_each_parameter Ex.foo [.ident "x", .ident "y"]
    (by decide) rfl).1 (by decide)).1

/-- C19, counterexample: for `func id(a int) int` and the call `id(a)`, whose
argument is an identifier named like the formal parameter,
`getFormalParamReassignments` creates the spec `a int = a`, and so it does
whenever the first argument is the identifier named like the first
parameter: the loop binds every parameter and compares no names. -/
theorem getFormalParamReassignments_same_name_creates_spec :
    getFormalParamReassignments Ex.idA [.ident "a"]
      = .ok (.declStmt .VAR [.value ["a"] (some "int") [.ident "a"]]) ∧
    ∀ (x t : String) (rest : List Field) (d : FuncDecl) (args : List Expr) (s : Stmt),
      d.type.params = ⟨[x], t, none, []⟩ :: rest →
      getFormalParamReassignments d (.ident x :: args) = .ok s →
      ∃ specs, s = .declStmt .VAR (.value [x] (some t) [.ident x] :: specs) := by
  refine ⟨rfl, ?_⟩
  intro x t rest d args s hd h
  simp only [getFormalParamReassignments, hd, flattenFields, List.length_singleton,
    Nat.add_one_ne_zero, if_false, List.map_cons, List.map_nil, List.cons_append,
    List.nil_append, reassignmentSpecs, List.get?_cons_zero] at h
  split at h
  · cases h
  · rename_i h1
    split at h1
    · cases h1
    · cases h1
  · rename_i s0 specs h1
    split at h1
    · cases h1
    · rename_i l hl
      simp only [Except.ok.injEq, List.cons.injEq] at h1 h
      obtain ⟨rfl, rfl⟩ := h1
      exact ⟨l, h.symm⟩

theorem digitChar_value (k : Nat) (hk : k < 10) : (Nat.digitChar k).toNat - 48 = k := by
  interval_cases k <;> rfl

theorem digitsValue_toDigitsCore : ∀ (fuel n : Nat) (ds : List Char), n < fuel →
    digitsValue 0 (Nat.toDigitsCore 10 fuel n ds) = digitsValue n ds := by
  intro fuel
  induction fuel with
  | zero => intro n ds h; omega
  | succ fuel ih =>
    intro n ds h
    have hd := digitChar_value (n % 10) (Nat.mod_lt n (by decide))
    simp only [Nat.toDigitsCore]
    split
    · rename_i h0
      have hn : n % 10 = n := by omega
      rw [hn] at hd ⊢
      simp [digitsValue, hd]
    · rename_i h0
      rw [ih (n / 10) _ (by omega)]
      simp only [digitsValue, List.foldl_cons, hd]
      congr 1
      omega

theorem toString_nat_injective (a b : Nat) (h : toString a = toString b) : a = b := by
  have h1 : Nat.toDigits 10 a = Nat.toDigits 10 b := by
    have h2 : (toString a).data = (toString b).data := by rw [h]
    exact h2
  have ha := digitsValue_toDigitsCore (a + 1) a [] (by omega)
  have hb := digitsValue_toDigitsCore (b + 1) b [] (by omega)
  simp only [Nat.toDigits] at h1
  rw [h1, hb] at ha
  simpa [digitsValue] using ha.symm

theorem retval_prefix_injective (a b : String) (h : "_rv_" ++ a = "_rv_" ++ b) : a = b := by
  have h1 : ("_rv_" ++ a).data = ("_rv_" ++ b).data := by rw [h]
  simp only [String.data_append, List.append_cancel_left_eq] at h1
  exact String.ext h1

theorem retvalNamesFrom_get (fs : List Field) : ∀ (k i : Nat),
    (retvalNamesFrom k fs).get? i = (fs.get? i).map (fun r => retvalName (k + i) r) := by
  induction fs with
  | nil => intro k i; simp [retvalNamesFrom]
  | cons f rest ih =>
    intro k i
    cases i with
    | zero => simp [retvalNamesFrom]
    | succ j =>
      simp only [retvalNamesFrom, List.get?_cons_succ, ih (k + 1) j]
      congr 2
      funext r
      congr 1
      omega

theorem retvalSpecsFrom_get (fs : List Field) : ∀ (k i : Nat),
    (retvalSpecsFrom k fs).get? i
      = (fs.get? i).map (fun r => Spec.value [retvalName (k + i) r] (some r.type) []) := by
  induction fs with
  | nil => intro k i; simp [retvalSpecsFrom]
  | cons f rest ih =>
    intro k i
    cases i with
    | zero => simp [retvalSpecsFrom]
    | succ j =>
      simp only [retvalSpecsFrom, List.get?_cons_succ, ih (k + 1) j]
      congr 2
      funext r
      congr 3
      omega

theorem retvalSpecsFrom_length (fs : List Field) : ∀ k, (retvalSpecsFrom k fs).length = fs.length := by
  induction fs with
  | nil => intro k; rfl
  | cons f rest ih => intro k; simp [retvalSpecsFrom, ih]

theorem retvalNamesFrom_unnamed (fs : List Field) : ∀ k, (∀ r ∈ fs, r.names = []) →
    retvalNamesFrom k fs = (List.range' k fs.length).map (fun i => "_rv_" ++ toString i) := by
  induction fs with
  | nil => intro k _; rfl
  | cons f rest ih =>
    intro k h
    have hf := h f (List.mem_cons_self f rest)
    simp [retvalNamesFrom, retvalName, hf, List.range'_succ,
      ih (k + 1) (fun r hr => h r (List.mem_cons_of_mem f hr))]

theorem retvalNamesFrom_named (fs : List Field) : ∀ k, (∀ r ∈ fs, r.names.length = 1) →
    retvalNamesFrom k fs = ((fs.map (fun r => r.names)).flatten).map (fun n => "_rv_" ++ n) := by
  induction fs with
  | nil => intro k _; rfl
  | cons f rest ih =>
    intro k h
    have hf := h f (List.mem_cons_self f rest)
    have hrest := ih (k + 1) (fun r hr => h r (List.mem_cons_of_mem f hr))
    obtain ⟨names, type, tag, decs⟩ := f
    match names, hf with
    | [n], _ => simp [retvalNamesFrom, retvalName, hrest]

theorem flattenFields_names_flatten (fs : List Field) :
    ((flattenFields fs).map (fun g => g.names)).flatten = (fs.map (fun f => f.names)).flatten := by
  induction fs with
  | nil => rfl
  | cons f rest ih =>
    by_cases hf : f.names.length = 0
    · simp [flattenFields, hf, ih]
    · simp only [flattenFields, hf, if_false, List.map_append, List.map_map, List.flatten_append,
        List.map_cons, List.flatten_cons, ih]
      congr 1
      simp only [Function.comp_def]
      induction f.names with
      | nil => rfl
      | cons n r ihn => simp [ihn]

theorem flattenFields_named (fs : List Field) (h : ∀ f ∈ fs, f.names ≠ []) :
    ∀ g ∈ flattenFields fs, g.names.length = 1 := by
  induction fs with
  | nil => simp [flattenFields]
  | cons f rest ih =>
    have hf : ¬ f.names.length = 0 := fun h0 =>
      h f (List.mem_cons_self f rest) (List.length_eq_zero.mp h0)
    intro g hg
    simp only [flattenFields, hf, if_false] at hg
    rcases List.mem_append.mp hg with hg | hg
    · obtain ⟨n, _, rfl⟩ := List.mem_map.mp hg
      rfl
    · exact ih (fun f1 h1 => h f1 (List.mem_cons_of_mem f h1)) g hg

theorem flattenFields_unnamed (fs : List Field) (h : ∀ f ∈ fs, f.names = []) :
    flattenFields fs = fs := by
  induction fs with
  | nil => rfl
  | cons f rest ih =>
    have hf : f.names.length = 0 := by rw [h f (List.mem_cons_self f rest)]; rfl
    simp [flattenFields, hf, ih (fun f1 h1 => h f1 (List.mem_cons_of_mem f h1))]

/-- C18: for a declaration with a result list, `extractReturnValues` returns
a `var` declaration and as many names as there are flattened results; the
i-th name is `_rv_<name>` when the i-th flattened result is named and
`_rv_<i>` (from 0) when it is not, and the i-th spec declares that name with
the type of the i-th result; the names are pairwise distinct when no result
is named, and when all are named with pairwise distinct names.  Without a
result list the result is an empty statement and no names. -/
theorem extractReturnValues_names_each_result (decl : FuncDecl) (list : List Field)
    (h : decl.type.results = some list) :
    (∃ specs names, extractReturnValues decl = (.declStmt .VAR specs, names) ∧
      names.length = (flattenFields list).length ∧ specs.length = (flattenFields list).length ∧
      (∀ i r, (flattenFields list).get? i = some r →
        (r.names = [] → names.get? i = some ("_rv_" ++ toString i)) ∧
        (∀ n, r.names = [n] → names.get? i = some ("_rv_" ++ n)) ∧
        ∃ nm, names.get? i = some nm ∧ specs.get? i = some (.value [nm] (some r.type) [])) ∧
      ((∀ r ∈ list, r.names = []) → names.Nodup) ∧
      ((∀ r ∈ list, r.names ≠ []) → ((list.map (fun r => r.names)).flatten).Nodup →
        names.Nodup)) ∧
    (∀ d : FuncDecl, d.type.results = none → extractReturnValues d = (.empty false, [])) := by
  refine ⟨⟨retvalSpecsFrom 0 (flattenFields list), retvalNamesFrom 0 (flattenFields list),
    by simp [extractReturnValues, h], (declaredNames_retval _ 0).2, retvalSpecsFrom_length _ 0,
    ?_, ?_, ?_⟩, ?_⟩
  · intro i r hr
    have hn := retvalNamesFrom_get (flattenFields list) 0 i
    have hs := retvalSpecsFrom_get (flattenFields list) 0 i
    simp only [hr, Option.map_some', Nat.zero_add] at hn hs
    refine ⟨?_, ?_, _, hn, hs⟩
    · intro h0
      rw [hn]
      simp [retvalName, h0]
    · intro n h1
      rw [hn]
      simp [retvalName, h1]
  · intro hun
    rw [flattenFields_unnamed list hun, retvalNamesFrom_unnamed list 0 hun]
    refine List.Nodup.map ?_ (List.nodup_range' 0 list.length)
    intro a b hab
    exact toString_nat_injective a b (retval_prefix_injective _ _ hab)
  · intro hnamed hnd
    rw [retvalNamesFrom_named _ 0 (flattenFields_named list hnamed), flattenFields_names_flatten]
    exact List.Nodup.map (fun a b hab => retval_prefix_injective a b hab) hnd
  · intro d hd
    simp [extractReturnValues, hd]

/-- C18, witness: the results `(int, int, int)` of `calcs` in the test
`03-multi-return`, and the named results `(lastVal, lastValNull bool)` of the
documentation of `extractReturnValues`. -/
theorem extractReturnValues_names_each_result_witness :
    extractReturnValues Ex.calcs3
      = (.declStmt .VAR [.value ["_rv_0"] (some "int") [], .value ["_rv_1"] (some "int") [],
          .value ["_rv_2"] (some "int") []], ["_rv_0", "_rv_1", "_rv_2"]) ∧
    extractReturnValues ⟨[], none, "last",
        ⟨[], some [⟨["lastVal", "lastValNull"], "bool", none, []⟩]⟩, []⟩
      = (.declStmt .VAR [.value ["_rv_lastVal"] (some "bool") [],
          .value ["_rv_lastValNull"] (some "bool") []], ["_rv_lastVal", "_rv_lastValNull"]) ∧
    ∃ specs names, extractReturnValues Ex.calcs3 = (.declStmt .VAR specs, names) ∧
      names.length = 3 ∧ specs.length = 3 :=
  ⟨rfl, rfl,
    (extractReturnValues_names_each_result Ex.calcs3 _ rfl).1.imp
      (fun _ hs => hs.imp fun _ hn => ⟨hn.1, hn.2.1, hn.2.2.1⟩)⟩

theorem definitionSpecs_eq (fr : List Field) : ∀ (lhs : List Expr) (i : Nat) (l : List Spec),
    definitionSpecs fr i lhs = .ok l →
    ∃ names, lhs = names.map .ident ∧ l = List.zipWith definitionSpec names (fr.drop i) ∧
      names.length ≤ (fr.drop i).length := by
  intro lhs
  induction lhs with
  | nil =>
    intro i l h
    simp only [definitionSpecs, Except.ok.injEq] at h
    exact ⟨[], rfl, by simp [← h], by simp⟩
  | cons e rest ih =>
    intro i l h
    cases e with
    | ident name =>
      simp only [definitionSpecs] at h
      split at h
      · cases h
      · rename_i f hg
        split at h
        · cases h
        · rename_i l1 hl
          simp only [Except.ok.injEq] at h
          subst h
          obtain ⟨names, h1, h2, h3⟩ := ih _ _ hl
          have hi : i < fr.length := by
            rw [List.get?_eq_some] at hg
            exact hg.1
          have hd : fr.drop i = f :: fr.drop (i + 1) := by
            rw [List.drop_eq_getElem_cons hi]
            congr 1
            rw [List.get?_eq_getElem?, List.getElem?_eq_getElem hi] at hg
            exact Option.some.inj hg
          refine ⟨name :: names, by simp [h1], ?_, ?_⟩
          · rw [hd, h2]
            rfl
          · rw [hd]
            simp only [List.length_cons]
            omega
    | basicLit v => simp [definitionSpecs] at h
    | binary x op y => simp [definitionSpecs] at h
    | selector x sel => simp [definitionSpecs] at h
    | call fn args => simp [definitionSpecs] at h
    | funcLit t body => simp [definitionSpecs] at h

theorem definitionSpecs_total (fr : List Field) : ∀ (names : List String) (i : Nat),
    i + names.length ≤ fr.length →
    definitionSpecs fr i (names.map .ident)
      = .ok (List.zipWith definitionSpec names (fr.drop i)) := by
  intro names
  induction names with
  | nil => intro i _; simp [definitionSpecs]
  | cons n rest ih =>
    intro i hlen
    simp only [List.length_cons] at hlen
    have hi : i < fr.length := by omega
    have hd : fr.drop i = fr[i] :: fr.drop (i + 1) := List.drop_eq_getElem_cons hi
    have hg : fr.get? i = some fr[i] := by
      rw [List.get?_eq_getElem?, List.getElem?_eq_getElem hi]
    simp only [List.map_cons, definitionSpecs, hg, ih (i + 1) (by omega), hd,
      List.zipWith_cons_cons, definitionSpec]

/-- C20: evaluation of the code where the claim fails.  `inlineFunc` rewrites
`x += double(1)` like `x = double(1)`: the statement is replaced by the block
that ends in `x = _rv_0`, so after `x := 5; x += double(1)` the rewritten
program leaves x = 2 where the program as written leaves x = 7; the token of
the assignment is only compared with `:=`, and `=`, `+=`, `-=` and `*=` all
give the same block. -/
theorem inlineFunc_rewrites_compound_assignment :
    inlineFunc 2 [("double", Ex.double)] (.funcDecl Ex.mainAddAssign)
      = .ok ([("double", Ex.double)], .funcDecl { Ex.mainAddAssign with
          body := [.assign [.ident "x"] .DEFINE [.basicLit "5"], Ex.doubleInlined] }) ∧
    valueAfter [] 30 [.assign [.ident "x"] .DEFINE [.basicLit "5"], Ex.doubleInlined] "x"
      = some 2 ∧
    valueAfter [("double", Ex.double)] 30 Ex.mainAddAssign.body "x" = some 7 ∧
    ∀ tok : Token, tok ≠ .DEFINE →
      ilStmt (inlinerOf 1) true [("double", Ex.double)] 0
        (.assign [.ident "x"] tok [.call (.ident "double") [.basicLit "1"]])
        = .ok ([("double", Ex.double)], 1, none, Ex.doubleInlined) := by
  refine ⟨rfl, rfl, rfl, ?_⟩
  intro tok htok
  cases tok <;> first | rfl | exact absurd rfl htok

theorem captureAssignments_total (results : List Expr) : ∀ (names : List String) (i : Nat),
    i + names.length ≤ results.length →
    captureAssignments results i names
      = .ok (List.zipWith captureAssign names (results.drop i)) := by
  intro names
  induction names with
  | nil => intro i _; simp [captureAssignments]
  | cons n rest ih =>
    intro i hlen
    simp only [List.length_cons] at hlen
    have hi : i < results.length := by omega
    have hd : results.drop i = results[i] :: results.drop (i + 1) := List.drop_eq_getElem_cons hi
    have hg : results.get? i = some results[i] := by
      rw [List.get?_eq_getElem?, List.getElem?_eq_getElem hi]
    simp only [captureAssignments, hg, ih (i + 1) (by omega), hd, List.zipWith_cons_cons,
      captureAssign]

theorem captureModifier_ok (names : List String) (results : List Expr) (s : Stmt) :
    captureModifier names results = .ok s ↔
      names.length ≤ results.length ∧ s = .block (List.zipWith captureAssign names results) := by
  constructor
  · intro h
    unfold captureModifier at h
    split at h
    · cases h
    · rename_i l hl
      simp only [Except.ok.injEq] at h
      obtain ⟨h1, h2⟩ := captureAssignments_eq results names 0 l hl
      simp only [List.drop_zero] at h1 h2
      exact ⟨h2, by rw [← h, h1]⟩
  · rintro ⟨hlen, rfl⟩
    unfold captureModifier
    rw [captureAssignments_total results names 0 (by omega)]
    rfl

mutual
theorem rrStmt_capture (names : List String) (label : String) :
    ∀ (e : Stmt) (inList found : Bool) (out : Bool × Stmt × Option Stmt),
      rrStmt (some (captureModifier names)) label inList found e = .ok out ↔
        returnsListed inList e = true ∧ returnsCarry names.length e = true ∧
        out = (found || hasReturn e, captureStmt names label e, jumpAfter label e)
  | .ret results, inList, found, out => by
    simp only [rrStmt, returnsListed, returnsCarry, hasReturn, captureStmt, jumpAfter,
      Bool.or_true, decide_eq_true_eq]
    constructor
    · intro h
      split at h
      · cases h
      · rename_i r hr
        obtain ⟨h1, rfl⟩ := (captureModifier_ok names results r).mp hr
        cases inList with
        | false => simp at h
        | true =>
          simp only [if_true, Except.ok.injEq] at h
          exact ⟨rfl, h1, h.symm⟩
    · rintro ⟨rfl, h1, rfl⟩
      rw [(captureModifier_ok names results _).mpr ⟨h1, rfl⟩]
      rfl
  | .assign _ _ _, _, _, out => by
    simp [rrStmt, rrExprs_id, returnsListed, returnsCarry, hasReturn, captureStmt, jumpAfter,
      eq_comm]
  | .exprStmt _, _, _, out => by
    simp [rrStmt, rrExpr_id, returnsListed, returnsCarry, hasReturn, captureStmt, jumpAfter,
      eq_comm]
  | .block list, _, found, out => by
    simp only [rrStmt, returnsListed, returnsCarry, hasReturn, captureStmt, jumpAfter]
    constructor
    · intro h
      split at h
      · cases h
      · rename_i f l hl
        obtain ⟨h1, h2, h3⟩ := (rrStmts_capture names label list found (f, l)).mp hl
        simp only [Prod.mk.injEq] at h3
        obtain ⟨rfl, rfl⟩ := h3
        simp only [Except.ok.injEq] at h
        exact ⟨h1, h2, h.symm⟩
    · rintro ⟨h1, h2, rfl⟩
      rw [(rrStmts_capture names label list found _).mpr ⟨h1, h2, rfl⟩]
  | .ifStmt init cond body els, _, found, out => by
    simp only [rrStmt, returnsListed, returnsCarry, hasReturn, captureStmt, jumpAfter,
      Bool.and_eq_true, rrExpr_id]
    constructor
    · intro h
      split at h
      · cases h
      · rename_i f1 init1 hi
        obtain ⟨a1, a2, a3⟩ := (rrOptStmt_capture names label init found (f1, init1)).mp hi
        simp only [Prod.mk.injEq] at a3
        obtain ⟨rfl, rfl⟩ := a3
        split at h
        · cases h
        · rename_i f2 body1 hb
          obtain ⟨b1, b2, b3⟩ := (rrStmts_capture names label body _ (f2, body1)).mp hb
          simp only [Prod.mk.injEq] at b3
          obtain ⟨rfl, rfl⟩ := b3
          split at h
          · cases h
          · rename_i f3 els1 he
            obtain ⟨c1, c2, c3⟩ := (rrOptStmt_capture names label els _ (f3, els1)).mp he
            simp only [Prod.mk.injEq] at c3
            obtain ⟨rfl, rfl⟩ := c3
            simp only [Except.ok.injEq] at h
            exact ⟨⟨⟨a1, b1⟩, c1⟩, ⟨⟨a2, b2⟩, c2⟩, by rw [← h]; simp [Bool.or_assoc]⟩
    · rintro ⟨⟨⟨a1, b1⟩, c1⟩, ⟨⟨a2, b2⟩, c2⟩, rfl⟩
      rw [(rrOptStmt_capture names label init found _).mpr ⟨a1, a2, rfl⟩]
      simp only
      rw [(rrStmts_capture names label body _ _).mpr ⟨b1, b2, rfl⟩]
      simp only
      rw [(rrOptStmt_capture names label els _ _).mpr ⟨c1, c2, rfl⟩]
      simp [Bool.or_assoc]
  | .declStmt _ _, _, _, out => by
    simp [rrStmt, rrSpecs_id, returnsListed, returnsCarry, hasReturn, captureStmt, jumpAfter,
      eq_comm]
  | .empty _, _, _, out => by
    simp [rrStmt, returnsListed, returnsCarry, hasReturn, captureStmt, jumpAfter, eq_comm]
  | .labeled l s, _, found, out => by
    simp only [rrStmt, returnsListed, returnsCarry, hasReturn, captureStmt, jumpAfter]
    constructor
    · intro h
      split at h
      · cases h
      · rename_i f s1 a hs
        obtain ⟨h1, h2, h3⟩ := (rrStmt_capture names label s false found (f, s1, a)).mp hs
        simp only [Prod.mk.injEq] at h3
        obtain ⟨rfl, rfl, _⟩ := h3
        simp only [Except.ok.injEq] at h
        exact ⟨h1, h2, h.symm⟩
    · rintro ⟨h1, h2, rfl⟩
      rw [(rrStmt_capture names label s false found _).mpr ⟨h1, h2, rfl⟩]
  | .branch _ _, _, _, out => by
    simp [rrStmt, returnsListed, returnsCarry, hasReturn, captureStmt, jumpAfter, eq_comm]
termination_by structural e => e
theorem rrOptStmt_capture (names : List String) (label : String) :
    ∀ (e : Option Stmt) (found : Bool) (out : Bool × Option Stmt),
      rrOptStmt (some (captureModifier names)) label found e = .ok out ↔
        returnsListedOpt e = true ∧ returnsCarryOpt names.length e = true ∧
        out = (found || hasReturnOpt e, captureOptStmt names label e)
  | none, _, out => by
    simp [rrOptStmt, returnsListedOpt, returnsCarryOpt, hasReturnOpt, captureOptStmt, eq_comm]
  | some s, found, out => by
    simp only [rrOptStmt, returnsListedOpt, returnsCarryOpt, hasReturnOpt, captureOptStmt]
    constructor
    · intro h
      split at h
      · cases h
      · rename_i f s1 a hs
        obtain ⟨h1, h2, h3⟩ := (rrStmt_capture names label s false found (f, s1, a)).mp hs
        simp only [Prod.mk.injEq] at h3
        obtain ⟨rfl, rfl, _⟩ := h3
        simp only [Except.ok.injEq] at h
        exact ⟨h1, h2, h.symm⟩
    · rintro ⟨h1, h2, rfl⟩
      rw [(rrStmt_capture names label s false found _).mpr ⟨h1, h2, rfl⟩]
termination_by structural e => e
theorem rrStmts_capture (names : List String) (label : String) :
    ∀ (e : List Stmt) (found : Bool) (out : Bool × List Stmt),
      rrStmts (some (captureModifier names)) label found e = .ok out ↔
        returnsListedAll e = true ∧ returnsCarryAll names.length e = true ∧
        out = (found || hasReturns e, captureStmts names label e)
  | [], _, out => by
    simp [rrStmts, returnsListedAll, returnsCarryAll, hasReturns, captureStmts, eq_comm]
  | s :: rest, found, out => by
    simp only [rrStmts, returnsListedAll, returnsCarryAll, hasReturns, captureStmts,
      Bool.and_eq_true]
    constructor
    · intro h
      split at h
      · cases h
      · rename_i f1 s1 a hs
        obtain ⟨a1, a2, a3⟩ := (rrStmt_capture names label s true found (f1, s1, a)).mp hs
        simp only [Prod.mk.injEq] at a3
        obtain ⟨rfl, rfl, rfl⟩ := a3
        split at h
        · cases h
        · rename_i f2 rest1 hr
          obtain ⟨b1, b2, b3⟩ := (rrStmts_capture names label rest _ (f2, rest1)).mp hr
          simp only [Prod.mk.injEq] at b3
          obtain ⟨rfl, rfl⟩ := b3
          simp only [Except.ok.injEq] at h
          exact ⟨⟨a1, b1⟩, ⟨a2, b2⟩, by rw [← h]; simp [Bool.or_assoc]⟩
    · rintro ⟨⟨a1, b1⟩, ⟨a2, b2⟩, rfl⟩
      rw [(rrStmt_capture names label s true found _).mpr ⟨a1, a2, rfl⟩]
      simp only
      rw [(rrStmts_capture names label rest _ _).mpr ⟨b1, b2, rfl⟩]
      simp [Bool.or_assoc]
termination_by structural e => e
end

theorem captureStmts_append (names : List String) (label : String) (a b : List Stmt) :
    captureStmts names label (a ++ b) = captureStmts names label a ++ captureStmts names label b := by
  induction a with
  | nil => simp [captureStmts]
  | cons s rest ih => simp [captureStmts, ih]

theorem returnsListedAll_append (a b : List Stmt) :
    returnsListedAll (a ++ b) = (returnsListedAll a && returnsListedAll b) := by
  induction a with
  | nil => simp [returnsListedAll]
  | cons s rest ih => simp [returnsListedAll, ih, Bool.and_assoc]

theorem returnsCarryAll_append (k : Nat) (a b : List Stmt) :
    returnsCarryAll k (a ++ b) = (returnsCarryAll k a && returnsCarryAll k b) := by
  induction a with
  | nil => simp [returnsCarryAll]
  | cons s rest ih => simp [returnsCarryAll, ih, Bool.and_assoc]

/-- A list without a return outside function literals meets the conditions of
the capture traversal, which leaves it as it is. -/
theorem captureStmts_noReturn (names : List String) (label : String) (l : List Stmt)
    (h : hasReturns l = false) :
    returnsListedAll l = true ∧ returnsCarryAll names.length l = true ∧
      captureStmts names label l = l := by
  have h1 := rrStmts_noReturn (some (captureModifier names)) label l false h
  obtain ⟨a, b, c⟩ := (rrStmts_capture names label l false _).mp h1
  simp only [Prod.mk.injEq] at c
  exact ⟨a, b, c.2.symm⟩

mutual
theorem hasReturn_captureStmt (names : List String) (label : String) :
    ∀ e : Stmt, hasReturn (captureStmt names label e) = false
  | .ret results => by simp [captureStmt, hasReturn, hasReturns_captured]
  | .assign _ _ _ => by simp [captureStmt, hasReturn]
  | .exprStmt _ => by simp [captureStmt, hasReturn]
  | .block list => by simp [captureStmt, hasReturn, hasReturns_captureStmts names label list]
  | .ifStmt init _ body els => by
    simp [captureStmt, hasReturn, hasReturnOpt_captureOptStmt names label init,
      hasReturns_captureStmts names label body, hasReturnOpt_captureOptStmt names label els]
  | .declStmt _ _ => by simp [captureStmt, hasReturn]
  | .empty _ => by simp [captureStmt, hasReturn]
  | .labeled _ s => by simp [captureStmt, hasReturn, hasReturn_captureStmt names label s]
  | .branch _ _ => by simp [captureStmt, hasReturn]
termination_by structural e => e
theorem hasReturnOpt_captureOptStmt (names : List String) (label : String) :
    ∀ e : Option Stmt, hasReturnOpt (captureOptStmt names label e) = false
  | none => by simp [captureOptStmt, hasReturnOpt]
  | some s => by simp [captureOptStmt, hasReturnOpt, hasReturn_captureStmt names label s]
termination_by structural e => e
theorem hasReturns_captureStmts (names : List String) (label : String) :
    ∀ e : List Stmt, hasReturns (captureStmts names label e) = false
  | [] => by simp [captureStmts, hasReturns]
  | s :: rest => by
    have h1 := hasReturn_captureStmt names label s
    have h2 := hasReturns_captureStmts names label rest
    have h3 : hasReturns (jumpAfter label s).toList = false := by
      cases s <;> simp [jumpAfter, hasReturns, hasReturn]
    simp [captureStmts, hasReturns, hasReturns_append, h1, h2, h3]
termination_by structural e => e
end

/-- A body is the statements before its final return followed by that
return, or has no final return. -/
theorem splitFinalReturn_cases (stmt : List Stmt) :
    stmt = (splitFinalReturn stmt).1 ++ [.ret (splitFinalReturn stmt).2] ∨
    ((splitFinalReturn stmt).1 = stmt ∧ (splitFinalReturn stmt).2 = []) := by
  rcases List.eq_nil_or_concat stmt with rfl | ⟨init, last, rfl⟩
  · right
    exact ⟨rfl, rfl⟩
  · cases last with
    | ret results => left; simp [splitFinalReturn]
    | assign _ _ _ => right; simp [splitFinalReturn]
    | exprStmt _ => right; simp [splitFinalReturn]
    | block _ => right; simp [splitFinalReturn]
    | ifStmt _ _ _ _ => right; simp [splitFinalReturn]
    | declStmt _ _ => right; simp [splitFinalReturn]
    | empty _ => right; simp [splitFinalReturn]
    | labeled _ _ => right; simp [splitFinalReturn]
    | branch _ _ => right; simp [splitFinalReturn]

/-- In capture mode, on a body that is not empty, `replaceReturnStatements`
returns exactly when the final return (taken without results when the body
does not end in one) has a result for every capture variable and every
other return outside function literals sits in a statement list and has a
result for every capture variable; the result is then the rewritten
statements, the block of the assignments of the final results, and the exit
label when a return other than the final one was rewritten. -/
theorem replaceReturnStatements_capture (funcName : String) (funcIdx : Nat) (stmt : List Stmt)
    (names : List String) (out : List Stmt) (hne : stmt ≠ []) :
    replaceReturnStatements funcName funcIdx stmt (some (captureModifier names)) = .ok out ↔
      names.length ≤ (splitFinalReturn stmt).2.length ∧
      returnsListedAll (splitFinalReturn stmt).1 = true ∧
      returnsCarryAll names.length (splitFinalReturn stmt).1 = true ∧
      out = captureStmts names (exitLabel funcName funcIdx) (splitFinalReturn stmt).1 ++
        [.block (List.zipWith captureAssign names (splitFinalReturn stmt).2)] ++
        (if hasReturns (splitFinalReturn stmt).1 then
          [.labeled (exitLabel funcName funcIdx) (.empty true)] else []) := by
  have hlen : ¬ stmt.length = 0 := fun h => hne (List.length_eq_zero.mp h)
  have hblock : hasReturns [Stmt.block (List.zipWith captureAssign names (splitFinalReturn stmt).2)]
      = false := by
    simp [hasReturns, hasReturn, hasReturns_captured]
  obtain ⟨b1, b2, b3⟩ := captureStmts_noReturn names (exitLabel funcName funcIdx) _ hblock
  simp only [replaceReturnStatements, hlen, if_false]
  constructor
  · intro h
    split at h
    · cases h
    · rename_i l hl
      obtain ⟨h1, rfl⟩ := (captureModifier_ok names _ l).mp hl
      split at h
      · cases h
      · rename_i found list hw
        obtain ⟨w1, w2, w3⟩ := (rrStmts_capture names _ _ false _).mp hw
        rw [returnsListedAll_append, Bool.and_eq_true] at w1
        rw [returnsCarryAll_append, Bool.and_eq_true] at w2
        simp only [Prod.mk.injEq, Bool.false_or, hasReturns_append, hblock, Bool.or_false,
          captureStmts_append, b3] at w3
        obtain ⟨rfl, rfl⟩ := w3
        refine ⟨h1, w1.1, w2.1, ?_⟩
        split at h
        · rename_i hf
          simp only [Except.ok.injEq] at h
          rw [← h, hf]
          simp
        · rename_i hf
          simp only [Except.ok.injEq] at h
          rw [← h]
          simp [hf]
  · rintro ⟨h1, h2, h3, rfl⟩
    rw [(captureModifier_ok names _ _).mpr ⟨h1, rfl⟩]
    simp only
    rw [(rrStmts_capture names _ _ false _).mpr ⟨by rw [returnsListedAll_append, h2, b1]; rfl,
      by rw [returnsCarryAll_append, h3, b2]; rfl, rfl⟩]
    simp only [Bool.false_or, hasReturns_append, hblock, Bool.or_false, captureStmts_append, b3]
    split <;> simp_all

/-- C13, as the code has it: in capture mode, on a body that ends in a return with
(at least) k results and whose other returns outside function literals each
sit in a statement list and have (at least) k results, `replaceReturnStatements`
returns the body in which the final return has become the block of the k
assignments of its i-th result to the i-th capture variable, and every other
return, wherever it sits, the block of the same k positional assignments
immediately followed by a jump to the exit label; the label closes the
result when there was such a return. -/
theorem replaceReturnStatements_capture_assigns_results (funcName : String) (funcIdx : Nat)
    (init : List Stmt) (results : List Expr) (names : List String)
    (hlisted : returnsListedAll init = true)
    (hcarry : returnsCarryAll names.length init = true)
    (hfinal : names.length ≤ results.length) :
    replaceReturnStatements funcName funcIdx (init ++ [.ret results])
        (some (captureModifier names))
      = .ok (captureStmts names (exitLabel funcName funcIdx) init ++
          [.block (List.zipWith captureAssign names results)] ++
          (if hasReturns init then [.labeled (exitLabel funcName funcIdx) (.empty true)]
            else [])) ∧
    (List.zipWith captureAssign names results).length = names.length ∧
    (∀ pre rs post, init = pre ++ .ret rs :: post →
      captureStmts names (exitLabel funcName funcIdx) init
        = captureStmts names (exitLabel funcName funcIdx) pre ++
          .block (List.zipWith captureAssign names rs) ::
          .branch .GOTO (some (exitLabel funcName funcIdx)) ::
          captureStmts names (exitLabel funcName funcIdx) post ∧
      (List.zipWith captureAssign names rs).length = names.length) := by
  have hsp : splitFinalReturn (init ++ [.ret results]) = (init, results) := by
    simp [splitFinalReturn]
  refine ⟨?_, by simp [hfinal], ?_⟩
  · apply (replaceReturnStatements_capture funcName funcIdx _ names _ (by simp)).mpr
    rw [hsp]
    exact ⟨hfinal, hlisted, hcarry, rfl⟩
  · rintro pre rs post rfl
    rw [returnsCarryAll_append] at hcarry
    simp only [returnsCarryAll, returnsCarry, Bool.and_eq_true, decide_eq_true_eq] at hcarry
    refine ⟨?_, by simp [hcarry.2.1]⟩
    rw [captureStmts_append]
    simp [captureStmts, captureStmt, jumpAfter]

/-- C13, witness: the body of `diff`, with an early return in an `if`. -/
theorem replaceReturnStatements_capture_assigns_results_witness :
    replaceReturnStatements "diff" 0 Ex.diffBody (some (captureModifier ["_rv_0"]))
      = .ok [.ifStmt none (.binary (.ident "a") ">" (.ident "b"))
          [.block [.assign [.ident "_rv_0"] .ASSIGN [.binary (.ident "a") "-" (.ident "b")]],
           .branch .GOTO (some "diff_return_0")] none,
         .block [.assign [.ident "_rv_0"] .ASSIGN [.binary (.ident "b") "-" (.ident "a")]],
         .labeled "diff_return_0" (.empty true)] :=
  (replaceReturnStatements_capture_assigns_results "diff" 0 (Ex.diffBody.take 1)
    [.binary (.ident "b") "-" (.ident "a")] ["_rv_0"] rfl rfl (by decide)).1

/-- C13, counterexample: the body of `sign` is not empty and each of its
returns has one result and sits in a statement list, but it does not end in a
return, and the rewriting fails on the return it appends; the returns of
`pick` have one result each, but one is the statement of a label, where no
jump can be inserted after it. -/
theorem replaceReturnStatements_capture_fails :
    (Ex.signBody ≠ [] ∧ returnsCarryAll 1 Ex.signBody = true ∧
      returnsListedAll Ex.signBody = true ∧
      replaceReturnStatements "sign" 0 Ex.signBody (some (captureModifier ["_rv_0"]))
        = .error .indexOutOfRange) ∧
    (Ex.pickBody ≠ [] ∧ returnsCarryAll 1 Ex.pickBody = true ∧
      replaceReturnStatements "pick" 0 Ex.pickBody (some (captureModifier ["_rv_0"]))
        = .error .notInSlice) :=
  ⟨⟨by simp [Ex.signBody], rfl, rfl, rfl⟩, ⟨by simp [Ex.pickBody], rfl, rfl⟩⟩

theorem gotoTargetsAll_append (a b : List Stmt) :
    gotoTargetsAll (a ++ b) = gotoTargetsAll a ++ gotoTargetsAll b := by
  induction a with
  | nil => simp [gotoTargetsAll]
  | cons s rest ih => simp [gotoTargetsAll, ih]

theorem gotoTargetsAll_captured (names : List String) :
    ∀ results : List Expr, gotoTargetsAll (List.zipWith captureAssign names results) = [] := by
  induction names with
  | nil => intro results; simp [gotoTargetsAll]
  | cons n rest ih =>
    intro results
    cases results with
    | nil => simp [gotoTargetsAll]
    | cons r rs => simp [gotoTargetsAll, gotoTargets, captureAssign, ih]

mutual
theorem gotoTargets_jumpStmt (label t : String) :
    ∀ e : Stmt, t ∈ gotoTargets (jumpStmt label e) →
      t ∈ gotoTargets e ∨ (t = label ∧ hasReturn e = true)
  | .ret _, h => by
    simp only [jumpStmt, gotoTargets, List.mem_singleton] at h
    exact Or.inr ⟨h, rfl⟩
  | .assign _ _ _, h => Or.inl h
  | .exprStmt _, h => Or.inl h
  | .block list, h => by
    simp only [jumpStmt, gotoTargets] at h
    simpa [gotoTargets, hasReturn] using gotoTargets_jumpStmts label t list h
  | .ifStmt init _ body els, h => by
    simp only [jumpStmt, gotoTargets, List.mem_append] at h
    simp only [gotoTargets, hasReturn, List.mem_append, Bool.or_eq_true]
    rcases h with (h | h) | h
    · rcases gotoTargets_jumpOptStmt label t init h with h1 | h1
      · exact Or.inl (Or.inl (Or.inl h1))
      · exact Or.inr ⟨h1.1, Or.inl (Or.inl h1.2)⟩
    · rcases gotoTargets_jumpStmts label t body h with h1 | h1
      · exact Or.inl (Or.inl (Or.inr h1))
      · exact Or.inr ⟨h1.1, Or.inl (Or.inr h1.2)⟩
    · rcases gotoTargets_jumpOptStmt label t els h with h1 | h1
      · exact Or.inl (Or.inr h1)
      · exact Or.inr ⟨h1.1, Or.inr h1.2⟩
  | .declStmt _ _, h => Or.inl h
  | .empty _, h => Or.inl h
  | .labeled _ s, h => by
    simp only [jumpStmt, gotoTargets] at h
    simpa [gotoTargets, hasReturn] using gotoTargets_jumpStmt label t s h
  | .branch _ _, h => Or.inl h
termination_by structural e => e
theorem gotoTargets_jumpOptStmt (label t : String) :
    ∀ e : Option Stmt, t ∈ gotoTargetsOpt (jumpOptStmt label e) →
      t ∈ gotoTargetsOpt e ∨ (t = label ∧ hasReturnOpt e = true)
  | none, h => Or.inl h
  | some s, h => by
    simp only [jumpOptStmt, gotoTargetsOpt] at h
    simpa [gotoTargetsOpt, hasReturnOpt] using gotoTargets_jumpStmt label t s h
termination_by structural e => e
theorem gotoTargets_jumpStmts (label t : String) :
    ∀ e : List Stmt, t ∈ gotoTargetsAll (jumpStmts label e) →
      t ∈ gotoTargetsAll e ∨ (t = label ∧ hasReturns e = true)
  | [], h => Or.inl h
  | s :: rest, h => by
    simp only [jumpStmts, gotoTargetsAll, List.mem_append] at h
    simp only [gotoTargetsAll, hasReturns, List.mem_append, Bool.or_eq_true]
    rcases h with h | h
    · rcases gotoTargets_jumpStmt label t s h with h1 | h1
      · exact Or.inl (Or.inl h1)
      · exact Or.inr ⟨h1.1, Or.inl h1.2⟩
    · rcases gotoTargets_jumpStmts label t rest h with h1 | h1
      · exact Or.inl (Or.inr h1)
      · exact Or.inr ⟨h1.1, Or.inr h1.2⟩
termination_by structural e => e
end

mutual
theorem gotoTargets_captureStmt (names : List String) (label t : String) :
    ∀ e : Stmt, t ∈ gotoTargets (captureStmt names label e) →
      t ∈ gotoTargets e ∨ (t = label ∧ hasReturn e = true)
  | .ret _, h => by
    simp [captureStmt, gotoTargets, gotoTargetsAll_captured] at h
  | .assign _ _ _, h => Or.inl h
  | .exprStmt _, h => Or.inl h
  | .block list, h => by
    simp only [captureStmt, gotoTargets] at h
    simpa [gotoTargets, hasReturn] using gotoTargets_captureStmts names label t list h
  | .ifStmt init _ body els, h => by
    simp only [captureStmt, gotoTargets, List.mem_append] at h
    simp only [gotoTargets, hasReturn, List.mem_append, Bool.or_eq_true]
    rcases h with (h | h) | h
    · rcases gotoTargets_captureOptStmt names label t init h with h1 | h1
      · exact Or.inl (Or.inl (Or.inl h1))
      · exact Or.inr ⟨h1.1, Or.inl (Or.inl h1.2)⟩
    · rcases gotoTargets_captureStmts names label t body h with h1 | h1
      · exact Or.inl (Or.inl (Or.inr h1))
      · exact Or.inr ⟨h1.1, Or.inl (Or.inr h1.2)⟩
    · rcases gotoTargets_captureOptStmt names label t els h with h1 | h1
      · exact Or.inl (Or.inr h1)
      · exact Or.inr ⟨h1.1, Or.inr h1.2⟩
  | .declStmt _ _, h => Or.inl h
  | .empty _, h => Or.inl h
  | .labeled _ s, h => by
    simp only [captureStmt, gotoTargets] at h
    simpa [gotoTargets, hasReturn] using gotoTargets_captureStmt names label t s h
  | .branch _ _, h => Or.inl h
termination_by structural e => e
theorem gotoTargets_captureOptStmt (names : List String) (label t : String) :
    ∀ e : Option Stmt, t ∈ gotoTargetsOpt (captureOptStmt names label e) →
      t ∈ gotoTargetsOpt e ∨ (t = label ∧ hasReturnOpt e = true)
  | none, h => Or.inl h
  | some s, h => by
    simp only [captureOptStmt, gotoTargetsOpt] at h
    simpa [gotoTargetsOpt, hasReturnOpt] using gotoTargets_captureStmt names label t s h
termination_by structural e => e
theorem gotoTargets_captureStmts (names : List String) (label t : String) :
    ∀ e : List Stmt, t ∈ gotoTargetsAll (captureStmts names label e) →
      t ∈ gotoTargetsAll e ∨ (t = label ∧ hasReturns e = true)
  | [], h => Or.inl h
  | s :: rest, h => by
    simp only [captureStmts, gotoTargetsAll, gotoTargetsAll_append, List.mem_append] at h
    simp only [gotoTargetsAll, hasReturns, List.mem_append, Bool.or_eq_true]
    rcases h with h | h | h
    · rcases gotoTargets_captureStmt names label t s h with h1 | h1
      · exact Or.inl (Or.inl h1)
      · exact Or.inr ⟨h1.1, Or.inl h1.2⟩
    · cases s <;> simp [jumpAfter, gotoTargetsAll, gotoTargets] at h
      exact Or.inr ⟨h, Or.inl rfl⟩
    · rcases gotoTargets_captureStmts names label t rest h with h1 | h1
      · exact Or.inl (Or.inr h1)
      · exact Or.inr ⟨h1.1, Or.inr h1.2⟩
termination_by structural e => e
end

theorem gotoTargetsAll_splitFinalReturn (stmt : List Stmt) (t : String)
    (h : t ∈ gotoTargetsAll (splitFinalReturn stmt).1) : t ∈ gotoTargetsAll stmt := by
  rcases splitFinalReturn_cases stmt with h1 | h1
  · rw [h1, gotoTargetsAll_append]
    exact List.mem_append_left _ h
  · rw [h1.1] at h
    exact h

/-- The result made of rewritten statements, one statement that is neither a
label nor a jump, and the exit label when a return was rewritten, has its
exit label as the specification says. -/
theorem exitLabelOK_of_shape (label : String) (stmt l : List Stmt) (s : Stmt)
    (hs : gotoTargets s = []) (hl : ∀ b, s ≠ .labeled label b)
    (h : ∀ t ∈ gotoTargetsAll l, t ∈ gotoTargetsAll (splitFinalReturn stmt).1 ∨
      (t = label ∧ hasReturns (splitFinalReturn stmt).1 = true)) :
    ExitLabelOK label stmt (l ++ [s] ++
      (if hasReturns (splitFinalReturn stmt).1 then [.labeled label (.empty true)] else [])) := by
  cases hr : hasReturns (splitFinalReturn stmt).1 with
  | false =>
    simp only [Bool.false_eq_true, if_false, List.append_nil]
    refine ⟨?_, ?_⟩
    · rw [List.getLast?_concat, hr]
      simp only [Option.some.injEq, Bool.false_eq_true, iff_false]
      exact hl _
    · intro t ht
      simp only [gotoTargetsAll_append, gotoTargetsAll, hs, List.append_nil] at ht
      rcases h t ht with h1 | h1
      · exact Or.inl (gotoTargetsAll_splitFinalReturn stmt t h1)
      · rw [hr] at h1
        exact absurd h1.2 (by simp)
  | true =>
    simp only [if_true]
    have hlast : (l ++ [s] ++ [Stmt.labeled label (.empty true)]).getLast?
        = some (.labeled label (.empty true)) := by simp
    refine ⟨⟨fun _ => hr, fun _ => hlast⟩, ?_⟩
    intro t ht
    simp only [gotoTargetsAll_append, gotoTargetsAll, gotoTargets, hs, List.append_nil] at ht
    rcases h t ht with h1 | h1
    · exact Or.inl (gotoTargetsAll_splitFinalReturn stmt t h1)
    · exact Or.inr ⟨h1.1, hlast⟩

/-- C14, as the code has it: an empty body is returned unchanged in either mode.  In
discard mode `replaceReturnStatements` returns for every body, and in capture
mode whenever the final return has a result for every capture variable and
the other returns outside function literals sit in statement lists with a
result for every capture variable; in the result it then returns, the labeled
no-op with the exit label is the last statement exactly when the body holds,
outside function literals, a return other than its final statement, and every
`goto` that was not in the body jumps to that label, which is then there. -/
theorem replaceReturnStatements_exit_label_matches_jumps (funcName : String) (funcIdx : Nat)
    (stmt : List Stmt) :
    (∀ m, replaceReturnStatements funcName funcIdx [] m = .ok []) ∧
    (∃ out, replaceReturnStatements funcName funcIdx stmt none = .ok out ∧
      ExitLabelOK (exitLabel funcName funcIdx) stmt out) ∧
    (∀ names out,
      replaceReturnStatements funcName funcIdx stmt (some (captureModifier names)) = .ok out →
      ExitLabelOK (exitLabel funcName funcIdx) stmt out) ∧
    (∀ names, names.length ≤ (splitFinalReturn stmt).2.length →
      returnsListedAll (splitFinalReturn stmt).1 = true →
      returnsCarryAll names.length (splitFinalReturn stmt).1 = true →
      ∃ out, replaceReturnStatements funcName funcIdx stmt (some (captureModifier names))
        = .ok out) := by
  have hempty : ∀ m, replaceReturnStatements funcName funcIdx [] m = .ok [] := by
    intro m
    simp [replaceReturnStatements]
  have hnil : ExitLabelOK (exitLabel funcName funcIdx) [] [] := by
    refine ⟨by simp [splitFinalReturn, hasReturns], ?_⟩
    intro t ht
    simp [gotoTargetsAll] at ht
  refine ⟨hempty, ?_, ?_, ?_⟩
  · by_cases hne : stmt = []
    · subst hne
      exact ⟨[], hempty none, hnil⟩
    · refine ⟨_, replaceReturnStatements_discard funcName funcIdx stmt hne, ?_⟩
      refine exitLabelOK_of_shape _ stmt _ (.empty false) rfl (by intro b h; cases h) ?_
      intro t ht
      exact gotoTargets_jumpStmts _ t _ ht
  · intro names out h
    by_cases hne : stmt = []
    · subst hne
      rw [hempty] at h
      simp only [Except.ok.injEq] at h
      subst h
      exact hnil
    · obtain ⟨_, _, _, rfl⟩ :=
        (replaceReturnStatements_capture funcName funcIdx stmt names out hne).mp h
      refine exitLabelOK_of_shape _ stmt _ _ ?_ (by intro b h; cases h) ?_
      · simp [gotoTargets, gotoTargetsAll_captured]
      · intro t ht
        exact gotoTargets_captureStmts names _ t _ ht
  · intro names h1 h2 h3
    by_cases hne : stmt = []
    · subst hne
      exact ⟨[], hempty _⟩
    · exact ⟨_, (replaceReturnStatements_capture funcName funcIdx stmt names _ hne).mpr
        ⟨h1, h2, h3, rfl⟩⟩

/-- C14, counterexample, in capture mode: the body of `must` holds a return
other than its final statement, and the rewriting gives no result, so no
label is appended; in discard mode the same body gets its label. -/
theorem replaceReturnStatements_capture_gives_no_label :
    hasReturns (splitFinalReturn Ex.mustBody).1 = true ∧
    replaceReturnStatements "must" 0 Ex.mustBody (some (captureModifier ["_rv_0"]))
      = .error .indexOutOfRange ∧
    replaceReturnStatements "must" 0 Ex.mustBody none
      = .ok [.ifStmt none (.binary (.ident "x") ">" (.basicLit "0"))
          [.branch .GOTO (some "must_return_0")] none,
        .exprStmt (.call (.ident "panic") [.basicLit "\"neg\""]),
        .empty false,
        .labeled "must_return_0" (.empty true)] :=
  ⟨rfl, rfl, rfl⟩

theorem funcLitsAll_append (a b : List Stmt) :
    funcLitsAll (a ++ b) = funcLitsAll a ++ funcLitsAll b := by
  induction a with
  | nil => simp [funcLitsAll]
  | cons s rest ih => simp [funcLitsAll, ih]

theorem funcLitsAll_captured (names : List String) :
    ∀ results : List Expr,
      (funcLitsAll (List.zipWith captureAssign names results)).Sublist (funcLitsExprs results) := by
  induction names with
  | nil => intro results; simp [funcLitsAll]
  | cons n rest ih =>
    intro results
    cases results with
    | nil => simp [funcLitsAll]
    | cons r rs =>
      simp only [List.zipWith_cons_cons, funcLitsAll, funcLits, captureAssign, funcLitsExprs,
        funcLitsExpr, List.nil_append, List.append_nil]
      exact List.Sublist.append (List.Sublist.refl _) (ih rs)

theorem funcLitsAll_splitFinalReturn (stmt : List Stmt) :
    funcLitsAll stmt
      = funcLitsAll (splitFinalReturn stmt).1 ++ funcLitsExprs (splitFinalReturn stmt).2 := by
  rcases splitFinalReturn_cases stmt with h | h
  · conv_lhs => rw [h]
    simp [funcLitsAll_append, funcLitsAll, funcLits]
  · rw [h.1, h.2]
    simp [funcLitsExprs]

mutual
theorem funcLits_jumpStmt (label : String) :
    ∀ e : Stmt, (funcLits (jumpStmt label e)).Sublist (funcLits e)
  | .ret _ => by simp [jumpStmt, funcLits]
  | .assign _ _ _ => List.Sublist.refl _
  | .exprStmt _ => List.Sublist.refl _
  | .block list => by
    simp only [jumpStmt, funcLits]
    exact funcLitsAll_jumpStmts label list
  | .ifStmt init cond body els => by
    simp only [jumpStmt, funcLits]
    exact List.Sublist.append (List.Sublist.append (List.Sublist.append
      (funcLitsOpt_jumpOptStmt label init) (List.Sublist.refl _))
      (funcLitsAll_jumpStmts label body)) (funcLitsOpt_jumpOptStmt label els)
  | .declStmt _ _ => List.Sublist.refl _
  | .empty _ => List.Sublist.refl _
  | .labeled _ s => by
    simp only [jumpStmt, funcLits]
    exact funcLits_jumpStmt label s
  | .branch _ _ => List.Sublist.refl _
termination_by structural e => e
theorem funcLitsOpt_jumpOptStmt (label : String) :
    ∀ e : Option Stmt, (funcLitsOpt (jumpOptStmt label e)).Sublist (funcLitsOpt e)
  | none => List.Sublist.refl _
  | some s => by
    simp only [jumpOptStmt, funcLitsOpt]
    exact funcLits_jumpStmt label s
termination_by structural e => e
theorem funcLitsAll_jumpStmts (label : String) :
    ∀ e : List Stmt, (funcLitsAll (jumpStmts label e)).Sublist (funcLitsAll e)
  | [] => List.Sublist.refl _
  | s :: rest => by
    simp only [jumpStmts, funcLitsAll]
    exact List.Sublist.append (funcLits_jumpStmt label s) (funcLitsAll_jumpStmts label rest)
termination_by structural e => e
end

mutual
theorem funcLits_captureStmt (names : List String) (label : String) :
    ∀ e : Stmt, (funcLits (captureStmt names label e)).Sublist (funcLits e)
  | .ret results => by
    simp only [captureStmt, funcLits]
    exact funcLitsAll_captured names results
  | .assign _ _ _ => List.Sublist.refl _
  | .exprStmt _ => List.Sublist.refl _
  | .block list => by
    simp only [captureStmt, funcLits]
    exact funcLitsAll_captureStmts names label list
  | .ifStmt init cond body els => by
    simp only [captureStmt, funcLits]
    exact List.Sublist.append (List.Sublist.append (List.Sublist.append
      (funcLitsOpt_captureOptStmt names label init) (List.Sublist.refl _))
      (funcLitsAll_captureStmts names label body)) (funcLitsOpt_captureOptStmt names label els)
  | .declStmt _ _ => List.Sublist.refl _
  | .empty _ => List.Sublist.refl _
  | .labeled _ s => by
    simp only [captureStmt, funcLits]
    exact funcLits_captureStmt names label s
  | .branch _ _ => List.Sublist.refl _
termination_by structural e => e
theorem funcLitsOpt_captureOptStmt (names : List String) (label : String) :
    ∀ e : Option Stmt, (funcLitsOpt (captureOptStmt names label e)).Sublist (funcLitsOpt e)
  | none => List.Sublist.refl _
  | some s => by
    simp only [captureOptStmt, funcLitsOpt]
    exact funcLits_captureStmt names label s
termination_by structural e => e
theorem funcLitsAll_captureStmts (names : List String) (label : String) :
    ∀ e : List Stmt, (funcLitsAll (captureStmts names label e)).Sublist (funcLitsAll e)
  | [] => List.Sublist.refl _
  | s :: rest => by
    have hj : funcLitsAll (jumpAfter label s).toList = [] := by
      cases s <;> simp [jumpAfter, funcLitsAll, funcLits]
    simp only [captureStmts, funcLitsAll, funcLitsAll_append, hj, List.nil_append]
    exact List.Sublist.append (funcLits_captureStmt names label s)
      (funcLitsAll_captureStmts names label rest)
termination_by structural e => e
end

theorem returnsListedAll_splitFinalReturn (stmt : List Stmt) (h : returnsListedAll stmt = true) :
    returnsListedAll (splitFinalReturn stmt).1 = true := by
  rcases splitFinalReturn_cases stmt with h1 | h1
  · rw [h1, returnsListedAll_append, Bool.and_eq_true] at h
    exact h.1
  · rw [h1.1]
    exact h

/-- The rewritten statements, one statement without a return that keeps only
function literals of the final results, and the exit label: no return is
left outside function literals, and the function literals are function
literals of the body, in order. -/
theorem rewritten_frame (label : String) (stmt l : List Stmt) (s : Stmt) (tail : List Stmt)
    (hl : hasReturns l = false) (hs : hasReturn s = false)
    (htail : tail = [] ∨ tail = [.labeled label (.empty true)])
    (hfl : (funcLitsAll l).Sublist (funcLitsAll (splitFinalReturn stmt).1))
    (hfs : (funcLits s).Sublist (funcLitsExprs (splitFinalReturn stmt).2)) :
    hasReturns (l ++ [s] ++ tail) = false ∧
      (funcLitsAll (l ++ [s] ++ tail)).Sublist (funcLitsAll stmt) := by
  have ht : hasReturns tail = false ∧ funcLitsAll tail = [] := by
    rcases htail with rfl | rfl <;> simp [hasReturns, hasReturn, funcLitsAll, funcLits]
  refine ⟨by simp [hasReturns_append, hasReturns, hl, hs, ht.1], ?_⟩
  rw [funcLitsAll_splitFinalReturn stmt]
  simp only [funcLitsAll_append, funcLitsAll, ht.2, List.append_nil]
  exact List.Sublist.append hfl hfs

/-- C15, as the code has it: for a body that is not empty and whose returns outside
function literals sit in statement lists, `replaceReturnStatements` returns in
discard mode, and in capture mode when the final return and every other return
outside function literals have a result for every capture variable; the
result it returns, in either mode, holds no return statement outside function
literals, and its function literals are function literals of the body,
unchanged and in the same order. -/
theorem replaceReturnStatements_rewrites_returns_outside_literals (funcName : String)
    (funcIdx : Nat) (stmt : List Stmt) (hne : stmt ≠ [])
    (hlisted : returnsListedAll stmt = true) :
    (∃ out, replaceReturnStatements funcName funcIdx stmt none = .ok out ∧
      hasReturns out = false ∧ (funcLitsAll out).Sublist (funcLitsAll stmt)) ∧
    (∀ names, names.length ≤ (splitFinalReturn stmt).2.length →
      returnsCarryAll names.length (splitFinalReturn stmt).1 = true →
      ∃ out, replaceReturnStatements funcName funcIdx stmt (some (captureModifier names))
          = .ok out ∧
        hasReturns out = false ∧ (funcLitsAll out).Sublist (funcLitsAll stmt)) ∧
    (∀ names out,
      replaceReturnStatements funcName funcIdx stmt (some (captureModifier names)) = .ok out →
      hasReturns out = false ∧ (funcLitsAll out).Sublist (funcLitsAll stmt)) := by
  have htail : ∀ label : String,
      (if hasReturns (splitFinalReturn stmt).1 then [Stmt.labeled label (.empty true)] else [])
        = [] ∨
      (if hasReturns (splitFinalReturn stmt).1 then [Stmt.labeled label (.empty true)] else [])
        = [.labeled label (.empty true)] := by
    intro label
    split
    · exact Or.inr rfl
    · exact Or.inl rfl
  have hcap : ∀ names,
      hasReturns (captureStmts names (exitLabel funcName funcIdx) (splitFinalReturn stmt).1 ++
        [.block (List.zipWith captureAssign names (splitFinalReturn stmt).2)] ++
        (if hasReturns (splitFinalReturn stmt).1 then
          [.labeled (exitLabel funcName funcIdx) (.empty true)] else [])) = false ∧
      (funcLitsAll (captureStmts names (exitLabel funcName funcIdx) (splitFinalReturn stmt).1 ++
        [.block (List.zipWith captureAssign names (splitFinalReturn stmt).2)] ++
        (if hasReturns (splitFinalReturn stmt).1 then
          [.labeled (exitLabel funcName funcIdx) (.empty true)] else []))).Sublist
        (funcLitsAll stmt) := by
    intro names
    exact rewritten_frame _ stmt _ _ _ (hasReturns_captureStmts names _ _)
      (by simp [hasReturn, hasReturns_captured]) (htail _)
      (funcLitsAll_captureStmts names _ _)
      (by simp only [funcLits]; exact funcLitsAll_captured names _)
  refine ⟨⟨_, replaceReturnStatements_discard funcName funcIdx stmt hne, ?_⟩, ?_, ?_⟩
  · exact rewritten_frame _ stmt _ _ _ (hasReturns_jumpStmts _ _) rfl (htail _)
      (funcLitsAll_jumpStmts _ _) (by simp [funcLits])
  · intro names h1 h2
    exact ⟨_, (replaceReturnStatements_capture funcName funcIdx stmt names _ hne).mpr
      ⟨h1, returnsListedAll_splitFinalReturn stmt hlisted, h2, rfl⟩, hcap names⟩
  · intro names out h
    obtain ⟨_, _, _, rfl⟩ :=
      (replaceReturnStatements_capture funcName funcIdx stmt names out hne).mp h
    exact hcap names

/-- C15, witness: the body of `lit`, which holds a function literal with a
return of its own. -/
theorem replaceReturnStatements_rewrites_returns_outside_literals_witness :
    replaceReturnStatements "lit" 0 Ex.litBody (some (captureModifier ["_rv_0"]))
      = .ok [.assign [.ident "f"] .DEFINE [Ex.three],
          .ifStmt none (.binary (.ident "x") ">" (.basicLit "0"))
            [.block [.assign [.ident "_rv_0"] .ASSIGN [.call (.ident "f") []]],
             .branch .GOTO (some "lit_return_0")] none,
          .block [.assign [.ident "_rv_0"] .ASSIGN [.basicLit "0"]],
          .labeled "lit_return_0" (.empty true)] ∧
    funcLitsAll Ex.litBody = [Ex.three] ∧
    ∃ out, replaceReturnStatements "lit" 0 Ex.litBody none = .ok out ∧
      hasReturns out = false ∧ (funcLitsAll out).Sublist (funcLitsAll Ex.litBody) :=
  ⟨rfl, rfl,
    (replaceReturnStatements_rewrites_returns_outside_literals "lit" 0 Ex.litBody
      (by simp [Ex.litBody]) rfl).1⟩

/-- C15, counterexample, in capture mode: the body of `one` is not empty and
its only return sits in the statement list of the body, but it has no result
for the capture variable of the named result, and the rewriting fails. -/
theorem replaceReturnStatements_capture_fails_on_bare_return :
    Ex.namedResultBody ≠ [] ∧ returnsListedAll Ex.namedResultBody = true ∧
    extractReturnValues ⟨[], none, "one", ⟨[], some [Ex.intField ["x"]]⟩, Ex.namedResultBody⟩
      = (.declStmt .VAR [.value ["_rv_x"] (some "int") []], ["_rv_x"]) ∧
    replaceReturnStatements "one" 0 Ex.namedResultBody (some (captureModifier ["_rv_x"]))
      = .error .indexOutOfRange :=
  ⟨by simp [Ex.namedResultBody], rfl, rfl, rfl⟩

theorem zipWith_bindingSpec_get (ps : List Field) (args : List Expr) (i : Nat) (p : Field)
    (a : Expr) (hp : ps.get? i = some p) (ha : args.get? i = some a) :
    (List.zipWith bindingSpec ps args).get? i = some (bindingSpec p a) := by
  induction ps generalizing args i with
  | nil => simp at hp
  | cons q rest ih =>
    cases args with
    | nil => simp at ha
    | cons b bs =>
      cases i with
      | zero =>
        simp only [List.get?_cons_zero, Option.some.injEq] at hp ha
        simp [hp, ha]
      | succ j =>
        simp only [List.get?_cons_succ] at hp ha
        simpa using ih bs j hp ha

/-- C19, as the code has it: for a callee whose flattened formal parameters
are all named and a call with as many arguments, an argument that is an
identifier with the name of its formal parameter gets its spec like any
other: the declaration returned holds one spec per parameter, and the spec
of that parameter declares the name with the parameter's type and the
identifier of the same name as its value. -/
theorem getFormalParamReassignments_same_name_is_bound (decl : FuncDecl) (args : List Expr)
    (i : Nat) (p : Field) (x : String)
    (hnamed : ∀ q ∈ flattenFields decl.type.params, q.names ≠ [])
    (hlen : (flattenFields decl.type.params).length = args.length)
    (hp : (flattenFields decl.type.params).get? i = some p) (hx : p.names = [x])
    (ha : args.get? i = some (.ident x)) :
    ∃ specs, getFormalParamReassignments decl args = .ok (.declStmt .VAR specs) ∧
      specs.length = args.length ∧
      specs.get? i = some (.value [x] (some p.type) [.ident x]) := by
  have hone : ∀ q ∈ flattenFields decl.type.params, q.names.length = 1 := by
    intro q hq
    have h1 := flattenFields_names_le _ q hq
    have h2 : q.names.length ≠ 0 := fun h => hnamed q hq (List.length_eq_zero.mp h)
    omega
  have hspecs := reassignmentSpecs_eq args _ 0 hone (by omega)
  simp only [List.drop_zero] at hspecs
  have hl : (List.zipWith bindingSpec (flattenFields decl.type.params) args).length
      = args.length := by
    simp [hlen]
  have hi : i < args.length := by
    rw [List.get?_eq_some] at ha
    exact ha.1
  have hg := zipWith_bindingSpec_get _ _ i p (.ident x) hp ha
  refine ⟨_, ?_, hl, by rw [hg]; simp [bindingSpec, hx]⟩
  unfold getFormalParamReassignments
  rw [hspecs]
  match hz : List.zipWith bindingSpec (flattenFields decl.type.params) args, hl with
  | [], hl => simp at hl; omega
  | s :: specs, _ => rfl

/-- C19, witness: `func foo(a int, b string)` called as `foo(x, b)`. -/
theorem getFormalParamReassignments_same_name_is_bound_witness :
    ∃ specs, getFormalParamReassignments Ex.foo [.ident "x", .ident "b"]
        = .ok (.declStmt .VAR specs) ∧
      specs.length = 2 ∧
      specs.get? 1 = some (.value ["b"] (some "string") [.ident "b"]) :=
  getFormalParamReassignments_same_name_is_bound Ex.foo [.ident "x", .ident "b"] 1
    ⟨["b"], "string", none, []⟩ "b" (by decide) rfl rfl rfl rfl

mutual
theorem ilExpr_plain (rec : Inliner) (reg : Registry) :
    ∀ (e : Expr) (idx : Nat), plainExpr reg.has e = true →
      ilExpr rec reg idx e = .ok (reg, idx, e)
  | .ident _, _, _ => by simp [ilExpr]
  | .basicLit _, _, _ => by simp [ilExpr]
  | .binary x _ y, idx, h => by
    simp only [plainExpr, Bool.and_eq_true] at h
    simp [ilExpr, ilExpr_plain rec reg x idx h.1, ilExpr_plain rec reg y idx h.2]
  | .selector x _, idx, h => by
    simp only [plainExpr] at h
    simp [ilExpr, ilExpr_plain rec reg x idx h]
  | .call fn args, idx, h => by
    simp only [plainExpr, Bool.and_eq_true] at h
    simp [ilExpr, ilExpr_plain rec reg fn idx h.1, ilExprs_plain rec reg args idx h.2]
  | .funcLit _ body, idx, h => by
    simp only [plainExpr] at h
    simp [ilExpr, ilStmts_plain rec reg body idx h]
termination_by structural e => e
theorem ilExprs_plain (rec : Inliner) (reg : Registry) :
    ∀ (e : List Expr) (idx : Nat), plainExprs reg.has e = true →
      ilExprs rec reg idx e = .ok (reg, idx, e)
  | [], _, _ => by simp [ilExprs]
  | x :: xs, idx, h => by
    simp only [plainExprs, Bool.and_eq_true] at h
    simp [ilExprs, ilExpr_plain rec reg x idx h.1, ilExprs_plain rec reg xs idx h.2]
termination_by structural e => e
theorem ilSpecs_plain (rec : Inliner) (reg : Registry) :
    ∀ (e : List Spec) (idx : Nat), plainSpecs reg.has e = true →
      ilSpecs rec reg idx e = .ok (reg, idx, e)
  | [], _, _ => by simp [ilSpecs]
  | .value _ _ values :: rest, idx, h => by
    simp only [plainSpecs, Bool.and_eq_true] at h
    simp [ilSpecs, ilExprs_plain rec reg values idx h.1, ilSpecs_plain rec reg rest idx h.2]
termination_by structural e => e
theorem ilStmt_plain (rec : Inliner) (reg : Registry) :
    ∀ (e : Stmt) (inList : Bool) (idx : Nat), plainStmt reg.has e = true →
      ilStmt rec inList reg idx e = .ok (reg, idx, none, e)
  | .assign lhs tok rhs, _, idx, h => by
    cases rhs with
    | nil => simp [plainStmt] at h
    | cons r0 rest =>
      simp only [plainStmt, Bool.and_eq_true, Bool.not_eq_true'] at h
      cases r0
      case call fn args =>
        have hc : callToFuncDecl reg fn = none :=
          callToFuncDecl_none (K := reg.has) (fun _ => rfl) fn h.1.1.1
        have h2 := h.1.2
        simp only [plainExpr, Bool.and_eq_true] at h2
        simp [ilStmt, hc, ilExprs_plain rec reg lhs idx h.1.1.2,
          ilExpr_plain rec reg fn idx h2.1, ilExprs_plain rec reg args idx h2.2,
          ilExprs_plain rec reg rest idx h.2]
      all_goals
        simp [ilStmt, ilExprs_plain rec reg lhs idx h.1.1.2,
          ilExpr_plain rec reg _ idx h.1.2, ilExprs_plain rec reg rest idx h.2]
  | .exprStmt x, _, idx, h => by
    simp only [plainStmt, Bool.and_eq_true, Bool.not_eq_true'] at h
    cases x
    case call fn args =>
      have hc : callToFuncDecl reg fn = none :=
        callToFuncDecl_none (K := reg.has) (fun _ => rfl) fn h.1
      have h2 := h.2
      simp only [plainExpr, Bool.and_eq_true] at h2
      simp [ilStmt, hc, ilExpr_plain rec reg fn idx h2.1, ilExprs_plain rec reg args idx h2.2]
    all_goals
      simp [ilStmt, ilExpr_plain rec reg _ idx h.2]
  | .ret results, _, idx, h => by
    simp only [plainStmt] at h
    simp [ilStmt, ilExprs_plain rec reg results idx h]
  | .block list, _, idx, h => by
    simp only [plainStmt] at h
    simp [ilStmt, ilStmts_plain rec reg list idx h]
  | .ifStmt init cond body els, _, idx, h => by
    simp only [plainStmt, Bool.and_eq_true] at h
    simp [ilStmt, ilOptStmt_plain rec reg init idx h.1.1.1, ilExpr_plain rec reg cond idx h.1.1.2,
      ilStmts_plain rec reg body idx h.1.2, ilOptStmt_plain rec reg els idx h.2]
  | .declStmt _ specs, _, idx, h => by
    simp only [plainStmt] at h
    simp [ilStmt, ilSpecs_plain rec reg specs idx h]
  | .empty _, _, _, _ => by simp [ilStmt]
  | .labeled _ s, _, idx, h => by
    simp only [plainStmt] at h
    simp [ilStmt, ilStmt_plain rec reg s false idx h]
  | .branch _ _, _, _, _ => by simp [ilStmt]
termination_by structural e => e
theorem ilOptStmt_plain (rec : Inliner) (reg : Registry) :
    ∀ (e : Option Stmt) (idx : Nat), plainOptStmt reg.has e = true →
      ilOptStmt rec reg idx e = .ok (reg, idx, e)
  | none, _, _ => by simp [ilOptStmt]
  | some s, idx, h => by
    simp only [plainOptStmt] at h
    simp [ilOptStmt, ilStmt_plain rec reg s false idx h]
termination_by structural e => e
theorem ilStmts_plain (rec : Inliner) (reg : Registry) :
    ∀ (e : List Stmt) (idx : Nat), plainStmts reg.has e = true →
      ilStmts rec reg idx e = .ok (reg, idx, e)
  | [], _, _ => by simp [ilStmts]
  | s :: rest, idx, h => by
    simp only [plainStmts, Bool.and_eq_true] at h
    simp [ilStmts, ilStmt_plain rec reg s true idx h.1, ilStmts_plain rec reg rest idx h.2]
termination_by structural e => e
end

theorem Registry.put_same (r : Registry) (key : String) (d : FuncDecl)
    (h : r.get key = some d) : r.put key d = r := by
  induction r with
  | nil => simp [Registry.get] at h
  | cons p rest ih =>
    obtain ⟨k, v⟩ := p
    by_cases hk : k = key
    · simp only [Registry.get, hk, if_true, Option.some.injEq] at h
      simp [Registry.put, hk, h]
    · simp only [Registry.get, hk, if_false] at h
      simp [Registry.put, hk, ih h]

/-- The recursive call on a callee keeps the keys of the registry and the
signature of the callee. -/
theorem inlinerOf_keeps {fuel : Nat} {reg r0 : Registry} {key : String} {info funcDecl : FuncDecl}
    (hget : reg.get key = some info) (hrec : inlinerOf fuel reg info = .ok (r0, funcDecl)) :
    (r0.put key funcDecl).has = reg.has ∧ funcDecl.type = info.type ∧
      funcDecl.name = info.name := by
  obtain ⟨hframe, hrel⟩ := inlinerOf_framed reg.has fuel reg info r0 funcDecl (fun _ => rfl) hrec
  refine ⟨?_, hrel.1.2.2.2, hrel.1.2.2.1⟩
  funext k
  have hkey : r0.has key = true := by
    rw [hframe.has key]
    simp [Registry.has, hget]
  rw [Registry.has_put r0 key funcDecl k hkey, hframe.has k]

/-- The recursive call leaves a callee without call sites as it is. -/
theorem inlinerOf_plain (fuel : Nat) (reg : Registry) (d : FuncDecl)
    (h : plainStmts reg.has d.body = true) : inlinerOf (fuel + 1) reg d = .ok (reg, d) := by
  simp [inlinerOf, inlineFunc, inlineNode, ilStmts_plain _ reg d.body 0 h]

/-- The traversal of a statement list in which one statement is rewritten
and the others are plain. -/
theorem ilStmts_one_site (rec : Inliner) (reg r1 : Registry) (site s1 : Stmt)
    (before : Option Stmt) (post : List Stmt) (idx i1 : Nat)
    (hsite : ilStmt rec true reg idx site = .ok (r1, i1, before, s1))
    (hpost : plainStmts r1.has post = true) :
    ∀ pre : List Stmt, plainStmts reg.has pre = true →
      ilStmts rec reg idx (pre ++ site :: post)
        = .ok (r1, i1, pre ++ (before.toList ++ s1 :: post)) := by
  intro pre
  induction pre with
  | nil =>
    intro _
    simp [ilStmts, hsite, ilStmts_plain rec r1 post _ hpost]
  | cons s rest ih =>
    intro h
    simp only [plainStmts, Bool.and_eq_true] at h
    simp [ilStmts, ilStmt_plain rec reg s true idx h.1, ih h.2]

/-- The rewrite of an assignment whose right-hand side is a call of the
registered function under `key`, from the results of its steps. -/
theorem ilStmt_assign_site (rec : Inliner) (inList : Bool) (reg r0 : Registry) (idx : Nat)
    (lhs : List Expr) (tok : Token) (key : String) (args : List Expr)
    (info funcDecl : FuncDecl) (before : Option Stmt) (body : List Stmt) (bind : Stmt)
    (hget : reg.get key = some info) (hrec : rec reg info = .ok (r0, funcDecl))
    (hhas : (r0.put key funcDecl).has = reg.has)
    (hlhs : plainExprs reg.has lhs = true) (hargs : plainExprs reg.has args = true)
    (hbefore : (tok = .DEFINE ∧ inList = true ∧
        ∃ s, newDefinitions lhs funcDecl = .ok s ∧ before = some s) ∨
      (tok ≠ .DEFINE ∧ before = none))
    (hbody : replaceReturnStatements funcDecl.name idx funcDecl.body
      (some (captureModifier (extractReturnValues funcDecl).2)) = .ok body)
    (hbind : getFormalParamReassignments funcDecl args = .ok bind) :
    ilStmt rec inList reg idx (.assign lhs tok [.call (.ident key) args])
      = .ok (r0.put key funcDecl, idx + 1, before,
          .block [(extractReturnValues funcDecl).1, .block (bind :: body),
            .assign lhs .ASSIGN ((extractReturnValues funcDecl).2.map .ident)]) := by
  have hc : callToFuncDecl reg (.ident key) = some (key, info) := by
    simp [callToFuncDecl, hget]
  have hl := ilExprs_plain rec (r0.put key funcDecl) lhs (idx + 1) (by rw [hhas]; exact hlhs)
  have ha := ilExprs_plain rec (r0.put key funcDecl) args (idx + 1) (by rw [hhas]; exact hargs)
  rcases hbefore with ⟨rfl, rfl, s, hs, rfl⟩ | ⟨htok, rfl⟩
  · simp [ilStmt, hc, hrec, hs, hbody, hbind, hl, ha, ilExpr]
  · simp [ilStmt, hc, hrec, htok, hbody, hbind, hl, ha, ilExpr]

/-- The rewrite of a statement that is a call of the registered function
under `key`, from the results of its steps. -/
theorem ilStmt_call_site (rec : Inliner) (inList : Bool) (reg r0 : Registry) (idx : Nat)
    (key : String) (args : List Expr) (info funcDecl : FuncDecl) (body : List Stmt)
    (bind : Stmt)
    (hget : reg.get key = some info) (hrec : rec reg info = .ok (r0, funcDecl))
    (hhas : (r0.put key funcDecl).has = reg.has)
    (hargs : plainExprs reg.has args = true)
    (hbody : replaceReturnStatements funcDecl.name idx funcDecl.body none = .ok body)
    (hbind : getFormalParamReassignments funcDecl args = .ok bind) :
    ilStmt rec inList reg idx (.exprStmt (.call (.ident key) args))
      = .ok (r0.put key funcDecl, idx + 1, none, .block (bind :: body)) := by
  have hc : callToFuncDecl reg (.ident key) = some (key, info) := by
    simp [callToFuncDecl, hget]
  have ha := ilExprs_plain rec (r0.put key funcDecl) args (idx + 1) (by rw [hhas]; exact hargs)
  simp [ilStmt, hc, hrec, hbody, hbind, ha, ilExpr]

/-- The binding statement of a callee whose flattened parameters are all
named, for as many arguments. -/
theorem getFormalParamReassignments_total (decl : FuncDecl) (args : List Expr)
    (hnamed : ∀ p ∈ flattenFields decl.type.params, p.names ≠ [])
    (hlen : (flattenFields decl.type.params).length = args.length) :
    ∃ bind, getFormalParamReassignments decl args = .ok bind ∧
      (args = [] → bind = .empty false) ∧
      (args ≠ [] → bind = .declStmt .VAR
        (List.zipWith bindingSpec (flattenFields decl.type.params) args)) := by
  have hone : ∀ p ∈ flattenFields decl.type.params, p.names.length = 1 := by
    intro p hp
    have h1 := flattenFields_names_le _ p hp
    have h2 : p.names.length ≠ 0 := fun h => hnamed p hp (List.length_eq_zero.mp h)
    omega
  have hspecs := reassignmentSpecs_eq args _ 0 hone (by omega)
  simp only [List.drop_zero] at hspecs
  unfold getFormalParamReassignments
  rw [hspecs]
  cases args with
  | nil => exact ⟨_, by simp, fun _ => rfl, fun h => absurd rfl h⟩
  | cons a rest =>
    match hf : flattenFields decl.type.params, hlen with
    | [], hlen => simp at hlen
    | p :: ps, _ =>
      exact ⟨_, rfl, fun h => by simp at h, fun _ => rfl⟩

theorem replaceReturnStatements_discardBody (funcName : String) (funcIdx : Nat)
    (stmt : List Stmt) :
    replaceReturnStatements funcName funcIdx stmt none
      = .ok (discardBody (exitLabel funcName funcIdx) stmt) := by
  cases stmt with
  | nil => simp [replaceReturnStatements, discardBody]
  | cons s rest =>
    rw [replaceReturnStatements_discard funcName funcIdx (s :: rest) (by simp)]
    rfl

theorem getFormalParamReassignments_bindingStmt (decl d0 : FuncDecl) (args : List Expr)
    (htype : decl.type = d0.type)
    (hnamed : ∀ p ∈ flattenFields d0.type.params, p.names ≠ [])
    (hlen : (flattenFields d0.type.params).length = args.length) :
    getFormalParamReassignments decl args = .ok (bindingStmt d0 args) := by
  obtain ⟨bind, h1, h2, h3⟩ := getFormalParamReassignments_total d0 args hnamed hlen
  have heq : getFormalParamReassignments decl args = getFormalParamReassignments d0 args := by
    simp [getFormalParamReassignments, htype]
  rw [heq, h1]
  cases args with
  | nil => rw [h2 rfl]; rfl
  | cons a rest => rw [h3 (by simp)]; rfl

theorem extractReturnValues_type (decl d0 : FuncDecl) (htype : decl.type = d0.type) :
    extractReturnValues decl = extractReturnValues d0 := by
  simp [extractReturnValues, htype]

/-- The rewrite of an assignment with a call of a registered function as its
right-hand side, in the body of a function whose other statements are plain. -/
theorem inlineNode_assign_site (fuel : Nat) (reg : Registry) (d : FuncDecl)
    (pre post : List Stmt) (lhs : List Expr) (tok : Token) (key : String) (args : List Expr)
    (info funcDecl : FuncDecl) (r0 : Registry) (names : List String) (list : List Field)
    (hd : d.body = pre ++ .assign lhs tok [.call (.ident key) args] :: post)
    (hget : reg.get key = some info)
    (hrec : inlinerOf (fuel + 1) reg info = .ok (r0, funcDecl))
    (hpre : plainStmts reg.has pre = true) (hpost : plainStmts reg.has post = true)
    (hlhs : plainExprs reg.has lhs = true) (hargs : plainExprs reg.has args = true)
    (hnamed : ∀ p ∈ flattenFields info.type.params, p.names ≠ [])
    (hlen : (flattenFields info.type.params).length = args.length)
    (hres : info.type.results = some list)
    (hne : funcDecl.body ≠ [])
    (hfinal : (flattenFields list).length ≤ (splitFinalReturn funcDecl.body).2.length)
    (hlisted : returnsListedAll (splitFinalReturn funcDecl.body).1 = true)
    (hcarry : returnsCarryAll (flattenFields list).length (splitFinalReturn funcDecl.body).1
      = true)
    (hdef : tok = .DEFINE →
      lhs = names.map .ident ∧ names.length ≤ (flattenFields list).length) :
    inlineNode (inlinerOf (fuel + 1)) reg (.funcDecl d)
      = .ok (r0.put key funcDecl, .funcDecl { d with body := pre ++
          ((if tok = .DEFINE then
              [.declStmt .VAR (List.zipWith definitionSpec names (flattenFields list))]
            else []) ++
          .block [(extractReturnValues info).1,
            .block (bindingStmt info args ::
              captureBody (extractReturnValues info).2 (exitLabel info.name 0) funcDecl.body),
            .assign lhs .ASSIGN ((extractReturnValues info).2.map .ident)] :: post) }) := by
  obtain ⟨hhas, htype, hname⟩ := inlinerOf_keeps hget hrec
  have hrv := extractReturnValues_type funcDecl info htype
  have hk : (extractReturnValues info).2.length = (flattenFields list).length := by
    have := (extractReturnValues_names info).2
    rw [hres] at this
    exact this
  have hbody : replaceReturnStatements funcDecl.name 0 funcDecl.body
      (some (captureModifier (extractReturnValues funcDecl).2))
      = .ok (captureBody (extractReturnValues info).2 (exitLabel info.name 0) funcDecl.body) := by
    rw [hrv, hname]
    exact (replaceReturnStatements_capture info.name 0 funcDecl.body _ _ hne).mpr
      ⟨by rw [hk]; exact hfinal, hlisted, by rw [hk]; exact hcarry, rfl⟩
  have hbind := getFormalParamReassignments_bindingStmt funcDecl info args htype hnamed hlen
  have hsite : ilStmt (inlinerOf (fuel + 1)) true reg 0
      (.assign lhs tok [.call (.ident key) args])
      = .ok (r0.put key funcDecl, 1,
          (if tok = .DEFINE then
            some (.declStmt .VAR (List.zipWith definitionSpec names (flattenFields list)))
          else none),
          .block [(extractReturnValues info).1,
            .block (bindingStmt info args ::
              captureBody (extractReturnValues info).2 (exitLabel info.name 0) funcDecl.body),
            .assign lhs .ASSIGN ((extractReturnValues info).2.map .ident)]) := by
    rw [← hrv]
    refine ilStmt_assign_site _ true reg r0 0 lhs tok key args info funcDecl _ _ _ hget hrec
      hhas hlhs hargs ?_ (by rw [hrv] at hbody ⊢; exact hbody) hbind
    by_cases htok : tok = .DEFINE
    · left
      obtain ⟨h1, h2⟩ := hdef htok
      have hnew : newDefinitions lhs funcDecl
          = .ok (.declStmt .VAR (List.zipWith definitionSpec names (flattenFields list))) := by
        unfold newDefinitions
        rw [htype, hres, h1]
        simp only [definitionSpecs_total (flattenFields list) names 0 (by omega),
          List.drop_zero]
      exact ⟨htok, rfl, _, hnew, by simp [htok]⟩
    · right
      exact ⟨htok, by simp [htok]⟩
  have hlist := ilStmts_one_site (inlinerOf (fuel + 1)) reg _ _ _ _ post 0 1 hsite
    (by rw [hhas]; exact hpost) pre hpre
  simp only [inlineNode, hd, hlist]
  by_cases htok : tok = .DEFINE <;> simp [htok]

/-- The rewrite of a statement that is a call of a registered function, in
the body of a function whose other statements are plain. -/
theorem inlineNode_call_site (fuel : Nat) (reg : Registry) (d : FuncDecl)
    (pre post : List Stmt) (key : String) (args : List Expr)
    (info funcDecl : FuncDecl) (r0 : Registry)
    (hd : d.body = pre ++ .exprStmt (.call (.ident key) args) :: post)
    (hget : reg.get key = some info)
    (hrec : inlinerOf (fuel + 1) reg info = .ok (r0, funcDecl))
    (hpre : plainStmts reg.has pre = true) (hpost : plainStmts reg.has post = true)
    (hargs : plainExprs reg.has args = true)
    (hnamed : ∀ p ∈ flattenFields info.type.params, p.names ≠ [])
    (hlen : (flattenFields info.type.params).length = args.length) :
    inlineNode (inlinerOf (fuel + 1)) reg (.funcDecl d)
      = .ok (r0.put key funcDecl, .funcDecl { d with body := pre ++
          (Stmt.block (bindingStmt info args ::
            discardBody (exitLabel info.name 0) funcDecl.body) :: post) }) := by
  obtain ⟨hhas, htype, hname⟩ := inlinerOf_keeps hget hrec
  have hbody := replaceReturnStatements_discardBody funcDecl.name 0 funcDecl.body
  rw [hname] at hbody
  have hbind := getFormalParamReassignments_bindingStmt funcDecl info args htype hnamed hlen
  have hsite := ilStmt_call_site (inlinerOf (fuel + 1)) true reg r0 0 key args info funcDecl
    _ _ hget hrec hhas hargs (by rw [hname]; exact hbody) hbind
  have hlist := ilStmts_one_site (inlinerOf (fuel + 1)) reg _ _ _ _ post 0 1 hsite
    (by rw [hhas]; exact hpost) pre hpre
  simp only [inlineNode, hd, hlist]
  simp

theorem hasReturns_discardBody (label : String) (body : List Stmt) :
    hasReturns (discardBody label body) = false := by
  cases body with
  | nil => rfl
  | cons s rest =>
    simp only [discardBody, hasReturns_append, hasReturns_jumpStmts, hasReturns, hasReturn,
      Bool.or_false, Bool.false_or]
    split <;> simp [hasReturns, hasReturn]

theorem discardBody_getLast (label : String) (body : List Stmt)
    (h : hasReturns (splitFinalReturn body).1 = true) :
    (discardBody label body).getLast? = some (.labeled label (.empty true)) := by
  cases body with
  | nil => simp [splitFinalReturn, hasReturns] at h
  | cons s rest =>
    simp only [discardBody, h, if_true]
    simp

/-- A function that inlines itself in an assignment: no fuel is enough. -/
theorem inlineFunc_loop_never_returns (fuel : Nat) :
    inlineFunc fuel [("loop", Ex.loopDecl)] (.funcDecl Ex.mainCallsLoop)
      = .error .outOfFuel := by
  have hloop : ∀ n, inlineFunc n [("loop", Ex.loopDecl)] (.funcDecl Ex.loopDecl)
      = .error .outOfFuel := by
    intro n
    induction n with
    | zero => rfl
    | succ n ih =>
      have hrec : inlinerOf n [("loop", Ex.loopDecl)] Ex.loopDecl = .error .outOfFuel := by
        simp [inlinerOf, ih]
      have hb : Ex.loopDecl.body = [.assign [.ident "x"] .DEFINE [.call (.ident "loop") []],
        .ret [.ident "x"]] := rfl
      rw [inlineFunc_succ]
      simp [inlineNode, hb, ilStmts, ilStmt, callToFuncDecl, Registry.get, hrec]
  cases fuel with
  | zero => rfl
  | succ n =>
    have hrec : inlinerOf n [("loop", Ex.loopDecl)] Ex.loopDecl = .error .outOfFuel := by
      simp [inlinerOf, hloop n]
    have hb : Ex.mainCallsLoop.body
        = [.assign [.ident "r"] .DEFINE [.call (.ident "loop") []]] := rfl
    rw [inlineFunc_succ]
    simp [inlineNode, hb, ilStmts, ilStmt, callToFuncDecl, Registry.get, hrec]

/-- A function that inlines itself in a call statement: no fuel is enough. -/
theorem inlineFunc_spin_never_returns (fuel : Nat) :
    inlineFunc fuel [("spin", Ex.spinDecl)] (.funcDecl Ex.mainCallsSpin)
      = .error .outOfFuel := by
  have hspin : ∀ n, inlineFunc n [("spin", Ex.spinDecl)] (.funcDecl Ex.spinDecl)
      = .error .outOfFuel := by
    intro n
    induction n with
    | zero => rfl
    | succ n ih =>
      have hrec : inlinerOf n [("spin", Ex.spinDecl)] Ex.spinDecl = .error .outOfFuel := by
        simp [inlinerOf, ih]
      have hb : Ex.spinDecl.body = [.exprStmt (.call (.ident "spin") [])] := rfl
      rw [inlineFunc_succ]
      simp [inlineNode, hb, ilStmts, ilStmt, callToFuncDecl, Registry.get, hrec]
  cases fuel with
  | zero => rfl
  | succ n =>
    have hrec : inlinerOf n [("spin", Ex.spinDecl)] Ex.spinDecl = .error .outOfFuel := by
      simp [inlinerOf, hspin n]
    have hb : Ex.mainCallsSpin.body = [.exprStmt (.call (.ident "spin") [])] := rfl
    rw [inlineFunc_succ]
    simp [inlineNode, hb, ilStmts, ilStmt, callToFuncDecl, Registry.get, hrec]

/-- C6, as the code has it: in the body of a function whose other statements
are plain, an assignment whose single right-hand expression is a call
`f(args)` of a registered function with k flattened results is replaced by a
block of exactly three statements, when the inlining of `f` itself returns,
the parameters of `f` are named and as many as the arguments, the targets and
arguments are plain, the body of `f` ends in a return with at least k results
and its other returns sit in statement lists with at least k results (and,
for `:=`, the targets are at most k identifiers).  The three statements are
the declaration of the k capture variables, the nested block of the
parameter binding followed by the body of `f` rewritten in capture mode, and
the assignment `=` of the k capture variables, in order, to the original
targets.  For `x, y, z := calcs(7, 9)` the result is the expected block, it
holds no call of `calcs`, and it gives x = 16, y = -2, z = 63.  The inlining
of `f` itself returns, leaving `f` as it is, whenever the body of `f` is plain. -/
theorem inlineFunc_assignment_becomes_block (fuel : Nat) (reg : Registry) (d : FuncDecl)
    (pre post : List Stmt) (lhs : List Expr) (tok : Token) (key : String) (args : List Expr)
    (info funcDecl : FuncDecl) (r0 : Registry) (names : List String) (list : List Field)
    (hd : d.body = pre ++ .assign lhs tok [.call (.ident key) args] :: post)
    (hget : reg.get key = some info)
    (hrec : inlinerOf (fuel + 1) reg info = .ok (r0, funcDecl))
    (hpre : plainStmts reg.has pre = true) (hpost : plainStmts reg.has post = true)
    (hlhs : plainExprs reg.has lhs = true) (hargs : plainExprs reg.has args = true)
    (hnamed : ∀ p ∈ flattenFields info.type.params, p.names ≠ [])
    (hlen : (flattenFields info.type.params).length = args.length)
    (hres : info.type.results = some list)
    (hne : funcDecl.body ≠ [])
    (hfinal : (flattenFields list).length ≤ (splitFinalReturn funcDecl.body).2.length)
    (hlisted : returnsListedAll (splitFinalReturn funcDecl.body).1 = true)
    (hcarry : returnsCarryAll (flattenFields list).length (splitFinalReturn funcDecl.body).1
      = true)
    (hdef : tok = .DEFINE →
      lhs = names.map .ident ∧ names.length ≤ (flattenFields list).length) :
    (∃ front, inlineFunc (fuel + 2) reg (.funcDecl d)
      = .ok (r0.put key funcDecl, .funcDecl { d with body := pre ++ (front ++
          .block [(extractReturnValues info).1,
            .block (bindingStmt info args ::
              captureBody (extractReturnValues info).2 (exitLabel info.name 0) funcDecl.body),
            .assign lhs .ASSIGN ((extractReturnValues info).2.map .ident)] :: post) })) ∧
    declaredNames (extractReturnValues info).1 = (extractReturnValues info).2 ∧
    (extractReturnValues info).2.length = (flattenFields list).length ∧
    inlineFunc 2 [("calcs", Ex.calcs3)] (.funcDecl Ex.main4)
      = .ok ([("calcs", Ex.calcs3)], .funcDecl { Ex.main4 with body := Ex.mainCalcsInlined }) ∧
    okStmts (fun k => k = "calcs") callFree Ex.mainCalcsInlined = true ∧
    valueAfter [] 30 (Ex.mainCalcsInlined.take 2) "x" = some 16 ∧
    valueAfter [] 30 (Ex.mainCalcsInlined.take 2) "y" = some (-2) ∧
    valueAfter [] 30 (Ex.mainCalcsInlined.take 2) "z" = some 63 ∧
    (plainStmts reg.has info.body = true →
      ∀ n, inlinerOf (n + 1) reg info = .ok (reg, info)) := by
  have hstep : inlineFunc (fuel + 2) reg (.funcDecl d)
      = inlineNode (inlinerOf (fuel + 1)) reg (.funcDecl d) := rfl
  refine ⟨⟨_, hstep.trans (inlineNode_assign_site fuel reg d pre post lhs tok key args info
    funcDecl r0 names list hd hget hrec hpre hpost hlhs hargs hnamed hlen hres hne hfinal
    hlisted hcarry hdef)⟩, (extractReturnValues_names info).1, ?_, rfl, rfl, rfl, rfl, rfl,
    fun h n => inlinerOf_plain n reg info h⟩
  have h := (extractReturnValues_names info).2
  rw [hres] at h
  exact h

/-- C6, witness: the test `04-nested`, where `calcs` itself calls `sum` and
`mult`. -/
theorem inlineFunc_assignment_becomes_block_witness :
    ∃ r0 funcDecl, inlinerOf 2 Ex.reg4 Ex.calcs4 = .ok (r0, funcDecl) ∧
      ∃ front, inlineFunc 3 Ex.reg4 (.funcDecl Ex.main4)
        = .ok (r0.put "calcs" funcDecl, .funcDecl { Ex.main4 with body := [] ++ (front ++
            .block [(extractReturnValues Ex.calcs4).1,
              .block (bindingStmt Ex.calcs4 [.basicLit "7", .basicLit "9"] ::
                captureBody (extractReturnValues Ex.calcs4).2 (exitLabel "calcs" 0)
                  funcDecl.body),
              .assign [.ident "x", .ident "y", .ident "z"] .ASSIGN
                ((extractReturnValues Ex.calcs4).2.map .ident)] ::
            [Ex.printStmt ["x", "y", "z"]]) }) :=
  ⟨_, _, rfl,
    (inlineFunc_assignment_becomes_block 1 Ex.reg4 Ex.main4 [] [Ex.printStmt ["x", "y", "z"]]
      [.ident "x", .ident "y", .ident "z"] .DEFINE "calcs" [.basicLit "7", .basicLit "9"]
      Ex.calcs4 _ _ ["x", "y", "z"] [Ex.intField ["x", "y", "z"]] rfl rfl rfl rfl rfl rfl rfl
      (by decide) rfl rfl (by simp) (by decide) rfl rfl (fun _ => ⟨rfl, by decide⟩)).1⟩

/-- C6, counterexample: `r := sign(1)` is an assignment whose single
right-hand expression is a call of the registered `sign`, whose body does
not end in a return: the rewriting fails on the return it appends and no
block is produced; and for `r := loop()`, where `loop` inlines itself, the
rewriting never returns, whatever the depth allowed. -/
theorem inlineFunc_assignment_gives_no_block :
    inlineFunc 2 [("sign", Ex.signDecl)] (.funcDecl Ex.mainCallsSign)
      = .error .indexOutOfRange ∧
    ∀ fuel, inlineFunc fuel [("loop", Ex.loopDecl)] (.funcDecl Ex.mainCallsLoop)
      = .error .outOfFuel :=
  ⟨rfl, inlineFunc_loop_never_returns⟩

/-- C7, as the code has it: in the body of a function whose other statements
are plain, a statement that is a call `f(args)` of a registered function is
replaced by a block of the parameter binding followed by the body of `f`
rewritten in discard mode, with no declaration of capture variables, when
the inlining of `f` itself returns, the parameters of `f` are named and as
many as the arguments, and the arguments are plain.  The rewritten body holds
no return outside function literals: the final return has become a no-op and
every other return a jump to the exit label, which is the last statement of
the block when there is such a return.  The inlining of `f` itself returns,
leaving `f` as it is, whenever the body of `f` is plain.  For `g(1)`, where
`g` returns early, the result is the expected block. -/
theorem inlineFunc_statement_call_becomes_block (fuel : Nat) (reg : Registry) (d : FuncDecl)
    (pre post : List Stmt) (key : String) (args : List Expr)
    (info funcDecl : FuncDecl) (r0 : Registry)
    (hd : d.body = pre ++ .exprStmt (.call (.ident key) args) :: post)
    (hget : reg.get key = some info)
    (hrec : inlinerOf (fuel + 1) reg info = .ok (r0, funcDecl))
    (hpre : plainStmts reg.has pre = true) (hpost : plainStmts reg.has post = true)
    (hargs : plainExprs reg.has args = true)
    (hnamed : ∀ p ∈ flattenFields info.type.params, p.names ≠ [])
    (hlen : (flattenFields info.type.params).length = args.length) :
    inlineFunc (fuel + 2) reg (.funcDecl d)
      = .ok (r0.put key funcDecl, .funcDecl { d with body := pre ++
          (Stmt.block (bindingStmt info args ::
            discardBody (exitLabel info.name 0) funcDecl.body) :: post) }) ∧
    hasReturns (discardBody (exitLabel info.name 0) funcDecl.body) = false ∧
    (funcDecl.body ≠ [] → discardBody (exitLabel info.name 0) funcDecl.body
      = jumpStmts (exitLabel info.name 0) (splitFinalReturn funcDecl.body).1 ++
        [.empty false] ++
        (if hasReturns (splitFinalReturn funcDecl.body).1 then
          [.labeled (exitLabel info.name 0) (.empty true)] else [])) ∧
    (hasReturns (splitFinalReturn funcDecl.body).1 = true →
      (bindingStmt info args :: discardBody (exitLabel info.name 0) funcDecl.body).getLast?
        = some (.labeled (exitLabel info.name 0) (.empty true))) ∧
    (plainStmts reg.has info.body = true →
      ∀ n, inlinerOf (n + 1) reg info = .ok (reg, info)) ∧
    inlineFunc 2 Ex.regEarly (.funcDecl Ex.mainCallsG)
      = .ok (Ex.regEarly, .funcDecl { Ex.mainCallsG with body :=
          [.block [.declStmt .VAR [.value ["x"] (some "int") [.basicLit "1"]],
            .ifStmt none (.binary (.ident "x") ">" (.basicLit "0"))
              [.branch .GOTO (some "g_return_0")] none,
            .exprStmt (.call (.ident "println") [.ident "x"]),
            .empty false,
            .labeled "g_return_0" (.empty true)]] }) := by
  have hstep : inlineFunc (fuel + 2) reg (.funcDecl d)
      = inlineNode (inlinerOf (fuel + 1)) reg (.funcDecl d) := rfl
  refine ⟨hstep.trans (inlineNode_call_site fuel reg d pre post key args info funcDecl r0 hd
    hget hrec hpre hpost hargs hnamed hlen), hasReturns_discardBody _ _, ?_, ?_,
    fun h n => inlinerOf_plain n reg info h, rfl⟩
  · intro hne
    cases hb : funcDecl.body with
    | nil => exact absurd hb hne
    | cons s rest => rfl
  · intro hret
    have hlast := discardBody_getLast (exitLabel info.name 0) funcDecl.body hret
    cases hb : discardBody (exitLabel info.name 0) funcDecl.body with
    | nil => rw [hb] at hlast; simp at hlast
    | cons s rest =>
      rw [hb] at hlast
      rw [List.getLast?_cons_cons]
      exact hlast

/-- C7, witness: the statement `f(2)`, where `f` calls `g` and `g` returns
early: the inlining of `f` replaces `g(x)` in its body, and that body is
spliced in place of `f(2)`. -/
theorem inlineFunc_statement_call_becomes_block_witness :
    ∃ r0 funcDecl, inlinerOf 2 Ex.regEarly Ex.fCallsG = .ok (r0, funcDecl) ∧
      funcDecl.body = [Ex.gOfXInlined] ∧
      inlineFunc 3 Ex.regEarly (.funcDecl Ex.mainCallsFTwo)
        = .ok (r0.put "f" funcDecl, .funcDecl { Ex.mainCallsFTwo with body :=
            [.block [.declStmt .VAR [.value ["x"] (some "int") [.basicLit "2"]],
              Ex.gOfXInlined, .empty false]] }) :=
  ⟨_, _, rfl, rfl,
    (inlineFunc_statement_call_becomes_block 1 Ex.regEarly Ex.mainCallsFTwo [] [] "f"
      [.basicLit "2"] Ex.fCallsG _ _ rfl rfl rfl rfl rfl rfl (by decide) rfl).1⟩

/-- C7, counterexample: for `spin()`, where `spin` inlines itself, the
rewriting never returns, whatever the depth allowed; and `drop(1)`, a
statement that is a call of the registered `func drop(int) { }`, gets no
block: the binding fails on the parameter without a name. -/
theorem inlineFunc_statement_call_gives_no_block :
    (∀ fuel, inlineFunc fuel [("spin", Ex.spinDecl)] (.funcDecl Ex.mainCallsSpin)
      = .error .outOfFuel) ∧
    inlineFunc 2 [("drop", Ex.dropDecl)] (.funcDecl Ex.mainCallsDrop)
      = .error .indexOutOfRange :=
  ⟨inlineFunc_spin_never_returns, rfl⟩

/-- C17, as the code has it: in the body of a function whose other statements
are plain, under the conditions on which the rewrite of an assignment with a
call `f(args)` of a registered function returns, a declaring assignment
(`:=`) with the identifiers t_1..t_m as targets gets, immediately before the
block that replaces it, one `var` declaration with exactly m specs, the i-th
declaring t_i with the type of the i-th flattened result of `f`; with any
other token (`=`) the block stands where the statement stood and no
declaration is inserted.  The inlining of `f` itself returns, leaving `f` as
it is, whenever the body of `f` is plain.  For `a, b, c := calcs(7, 9)` the
rewritten body starts with `var (a int; b int; c int)`; for
`var a, b, c int; a, b, c = calcs(7, 9)` it is the declaration as written and
the block, two statements. -/
theorem inlineFunc_declaring_assignment_inserts_declaration (fuel : Nat) (reg : Registry)
    (d : FuncDecl) (pre post : List Stmt) (lhs : List Expr) (tok : Token) (key : String)
    (args : List Expr) (info funcDecl : FuncDecl) (r0 : Registry) (names : List String)
    (list : List Field)
    (hd : d.body = pre ++ .assign lhs tok [.call (.ident key) args] :: post)
    (hget : reg.get key = some info)
    (hrec : inlinerOf (fuel + 1) reg info = .ok (r0, funcDecl))
    (hpre : plainStmts reg.has pre = true) (hpost : plainStmts reg.has post = true)
    (hlhs : plainExprs reg.has lhs = true) (hargs : plainExprs reg.has args = true)
    (hnamed : ∀ p ∈ flattenFields info.type.params, p.names ≠ [])
    (hlen : (flattenFields info.type.params).length = args.length)
    (hres : info.type.results = some list)
    (hne : funcDecl.body ≠ [])
    (hfinal : (flattenFields list).length ≤ (splitFinalReturn funcDecl.body).2.length)
    (hlisted : returnsListedAll (splitFinalReturn funcDecl.body).1 = true)
    (hcarry : returnsCarryAll (flattenFields list).length (splitFinalReturn funcDecl.body).1
      = true)
    (hdef : tok = .DEFINE →
      lhs = names.map .ident ∧ names.length ≤ (flattenFields list).length) :
    (tok = .DEFINE → ∃ l, inlineFunc (fuel + 2) reg (.funcDecl d)
        = .ok (r0.put key funcDecl, .funcDecl { d with body := pre ++
            (.declStmt .VAR (List.zipWith definitionSpec names (flattenFields list)) ::
              .block l :: post) }) ∧
      lhs = names.map .ident ∧
      (List.zipWith definitionSpec names (flattenFields list)).length = names.length) ∧
    (tok ≠ .DEFINE → ∃ l, inlineFunc (fuel + 2) reg (.funcDecl d)
        = .ok (r0.put key funcDecl, .funcDecl { d with body := pre ++
            (.block l :: post) })) ∧
    (plainStmts reg.has info.body = true →
      ∀ n, inlinerOf (n + 1) reg info = .ok (reg, info)) ∧
    (resultDecl (inlineFunc 2 [("calcs", Ex.calcs3)] (.funcDecl Ex.main3))).map
        (fun m => m.body.take 1)
      = some [.declStmt .VAR [.value ["a"] (some "int") [], .value ["b"] (some "int") [],
          .value ["c"] (some "int") []]] ∧
    (resultDecl (inlineFunc 2 [("calcs", Ex.calcs3)] (.funcDecl Ex.mainAssignCalcs))).map
        (fun m => (m.body.take 1, m.body.length))
      = some ([.declStmt .VAR [.value ["a", "b", "c"] (some "int") []]], 2) := by
  have hstep : inlineFunc (fuel + 2) reg (.funcDecl d)
      = inlineNode (inlinerOf (fuel + 1)) reg (.funcDecl d) := rfl
  have h := hstep.trans (inlineNode_assign_site fuel reg d pre post lhs tok key args info
    funcDecl r0 names list hd hget hrec hpre hpost hlhs hargs hnamed hlen hres hne hfinal
    hlisted hcarry hdef)
  refine ⟨?_, ?_, fun h n => inlinerOf_plain n reg info h, rfl, rfl⟩
  · intro htok
    obtain ⟨h1, h2⟩ := hdef htok
    simp only [htok, if_true, List.singleton_append] at h
    exact ⟨_, h, h1, by simp [h2]⟩
  · intro htok
    simp only [htok, if_false, List.nil_append] at h
    exact ⟨_, h⟩

/-- C17, witness: `x, y, z := calcs(7, 9)` followed by the print statement, in
the test `04-nested`, where the inlining of `calcs` rewrites its two call
sites into five statements. -/
theorem inlineFunc_declaring_assignment_inserts_declaration_witness :
    ∃ r0 funcDecl, inlinerOf 2 Ex.reg4 Ex.calcs4 = .ok (r0, funcDecl) ∧
      funcDecl.body.length = 5 ∧
      ∃ l, inlineFunc 3 Ex.reg4 (.funcDecl Ex.main4)
        = .ok (r0.put "calcs" funcDecl, .funcDecl { Ex.main4 with body := [] ++
            (.declStmt .VAR [.value ["x"] (some "int") [], .value ["y"] (some "int") [],
                .value ["z"] (some "int") []] ::
              .block l :: [Ex.printStmt ["x", "y", "z"]]) }) :=
  ⟨_, _, rfl, rfl,
    ((inlineFunc_declaring_assignment_inserts_declaration 1 Ex.reg4 Ex.main4 []
      [Ex.printStmt ["x", "y", "z"]] [.ident "x", .ident "y", .ident "z"] .DEFINE "calcs"
      [.basicLit "7", .basicLit "9"] Ex.calcs4 _ _ ["x", "y", "z"]
      [Ex.intField ["x", "y", "z"]] rfl rfl rfl rfl rfl rfl rfl (by decide) rfl rfl (by simp)
      (by decide) rfl rfl (fun _ => ⟨rfl, by decide⟩)).1 rfl).imp (fun _ h => h.1)⟩

/-- C17, counterexample: a declaring assignment with a call of the
registered `f` as the init statement of an `if`, or as the statement of a
label, is not in a statement list: the declaration cannot be inserted before
it and the rewriting fails. -/
theorem inlineFunc_declaring_assignment_outside_list :
    inlineFunc 2 Ex.regFG (.funcDecl Ex.mainIfInit) = .error .notInSlice ∧
    inlineFunc 2 Ex.regFG (.funcDecl Ex.mainLabeledDefine) = .error .notInSlice :=
  ⟨rfl, rfl⟩

end Ginline
